import Mathlib

/-! # Supply-Chain-Route-Optimizer: the TSP core (Point, Graph, Tour, TSPSolver)

A shallow embedding of `Point.hpp`, `Graph.{hpp,cpp}`, `Tour.{hpp,cpp}`,
`TSPSolver.cpp` and the re-indexing step of `main.cpp`.

* `double` values are elements of a type `α` with a linear order (the order of
  `double` away from NaN) and the operations `+`, `-`, unary `-` and `0`; no law
  is assumed of the operations, so the rounding arithmetic of the code is an
  instance. `std::hypot` is a parameter `hypot : α → α → α`, and the literal
  `1e-9` is a constant of `α` (class `Tolerance`). Statements about exact
  arithmetic take `α` a linearly ordered field, where `1e-9` is `1 / 10^9`.
* `std::vector` is a `List`; every subscript is checked: `none` models an
  out-of-range access (undefined behaviour in the C++).
* C++ `int` values that are data (node ids, `nextNode`, `bestI`, `bestK`) are
  `Int`; loop counters and sizes are `Nat` and are cast when used as data.
* `for` loops with a counter that the body does not modify are folds over
  `List.range'`; the `while` loop of `run2Opt` takes a fuel argument that bounds
  the number of passes (`none` when it runs out).
-/

variable {α : Type}

/-! ## Checked vector accesses -/

/-- Read `v[i]` for a C++ `int` index `i`; `none` when `i` is out of range. -/
def vecGet {β : Type} (v : List β) (i : Int) : Option β :=
  if 0 ≤ i then v[i.toNat]? else none

/-- Write `v[i] = x` for a C++ `int` index `i`; `none` when `i` is out of range. -/
def vecSet {β : Type} (v : List β) (i : Int) (x : β) : Option (List β) :=
  if 0 ≤ i ∧ i.toNat < v.length then some (v.set i.toNat x) else none

/-- Write `m[i][j] = x` in a vector of vectors. -/
def matSet {β : Type} (m : List (List β)) (i j : Int) (x : β) : Option (List (List β)) := do
  let row ← vecGet m i
  let row2 ← vecSet row j x
  vecSet m i row2

/-! ## Point.hpp -/

/-- The struct `Point`: an integer id and two coordinates. -/
structure Point (α : Type) where
  id : Int
  x : α
  y : α

/-- The method `Point::distanceTo`: `std::hypot(x - other.x, y - other.y)`. -/
def Point.distanceTo [Sub α] (hypot : α → α → α) (p other : Point α) : α :=
  let dx := p.x - other.x
  let dy := p.y - other.y
  hypot dx dy

/-! ## Graph.hpp, Graph.cpp -/

/-- The class `Graph`: the stored points and the distance matrix. -/
structure Graph (α : Type) where
  points_ : List (Point α)
  adjMatrix_ : List (List α)

/-- The method `Graph::size`: the number of stored points. -/
def Graph.size (g : Graph α) : Nat := g.points_.length

/-- The method `Graph::distance`: `adjMatrix_[id1][id2]`. -/
def Graph.distance (g : Graph α) (id1 id2 : Int) : Option α := do
  let row ← vecGet g.adjMatrix_ id1
  vecGet row id2

/-- Body of the inner loop of the `Graph` constructor, at counters `i`, `j`. -/
def Graph.fillStep [Sub α] (hypot : α → α → α) (points : List (Point α))
    (i : Nat) (adj : List (List α)) (j : Nat) : Option (List (List α)) := do
  let pi ← vecGet points i
  let pj ← vecGet points j
  let d := pi.distanceTo hypot pj
  let adj1 ← matSet adj i j d
  matSet adj1 j i d

/-- The inner loop `for (int j = i + 1; j < n; ++j)` of the `Graph` constructor. -/
def Graph.fillRow [Sub α] (hypot : α → α → α) (points : List (Point α)) (n : Nat)
    (adj : List (List α)) (i : Nat) : Option (List (List α)) :=
  (List.range' (i + 1) (n - (i + 1))).foldlM (Graph.fillStep hypot points i) adj

/-- The constructor `Graph::Graph(points)`: an `n × n` matrix of zeros, then the
two nested loops that store each pairwise distance at `[i][j]` and `[j][i]`. -/
def Graph.ctor [Sub α] [Zero α] (hypot : α → α → α) (points : List (Point α)) :
    Option (Graph α) := do
  let n := points.length
  let adj0 : List (List α) := List.replicate n (List.replicate n 0)
  let adj ← (List.range' 0 n).foldlM (Graph.fillRow hypot points n) adj0
  pure { points_ := points, adjMatrix_ := adj }

/-! ## Tour.hpp, Tour.cpp -/

/-- The class `Tour`: the route vector `tour_`. -/
structure Tour where
  tour_ : List Int
deriving DecidableEq, Repr

/-- The accessor `Tour::route`. -/
def Tour.route (t : Tour) : List Int := t.tour_

/-- The method `Tour::size`. -/
def Tour.size (t : Tour) : Nat := t.tour_.length

/-- The constructor `Tour::Tour(n)`: `n` zeros, then `tour_[i] = i` for each `i`. -/
def Tour.ctor (n : Nat) : Option Tour := do
  let r ← (List.range' 0 n).foldlM (fun (r : List Int) (i : Nat) => vecSet r i (i : Int))
    (List.replicate n (0 : Int))
  pure { tour_ := r }

/-- The method `Tour::length`: `0` when `n < 2`, otherwise the sum of the `n - 1`
consecutive edges plus the closing edge. -/
def Tour.length [Add α] [Zero α] (t : Tour) (g : Graph α) : Option α :=
  let n := t.size
  if n < 2 then some 0
  else do
    let sum ← (List.range' 0 (n - 1)).foldlM (fun (sum : α) (i : Nat) => do
      let a ← vecGet t.tour_ i
      let b ← vecGet t.tour_ ((i : Int) + 1)
      let d ← g.distance a b
      pure (sum + d)) (0 : α)
    let a ← vecGet t.tour_ ((n : Int) - 1)
    let b ← vecGet t.tour_ 0
    let d ← g.distance a b
    pure (sum + d)

/-- The method `Tour::twoOptSwap(i, k)`: `std::reverse(begin + i, begin + k + 1)`;
`none` when the two iterators do not delimit a range inside the vector. -/
def Tour.twoOptSwap (t : Tour) (i k : Int) : Option Tour :=
  if 0 ≤ i ∧ i ≤ k + 1 ∧ k + 1 ≤ (t.tour_.length : Int) then
    some { tour_ := t.tour_.take i.toNat
        ++ ((t.tour_.drop i.toNat).take ((k + 1).toNat - i.toNat)).reverse
        ++ t.tour_.drop (k + 1).toNat }
  else none

/-! ## TSPSolver.cpp -/

/-- The `double` literal `1e-9` of `run2Opt` as a value of the arithmetic `α`,
with the one fact about it that the loop relies on: `-1e-9` is below `0.0`. -/
class Tolerance (α : Type) [LT α] [Neg α] [Zero α] where
  /-- The value of the literal `1e-9`. -/
  eps : α
  /-- The value `-1e-9` is negative. -/
  neg_eps_lt_zero : -eps < (0 : α)

/-- In exact arithmetic the literal `1e-9` is the number `1 / 10^9`. -/
instance Tolerance.ofField [LinearOrderedField α] : Tolerance α where
  eps := 1 / 1000000000
  neg_eps_lt_zero := neg_lt_zero.mpr (by positivity)

namespace TSPSolver

/-- Body of the inner loop of `runNearestNeighbor`: the scan state is
`(bestDist, nextNode)`, `bestDist` starting at `+∞` (`⊤`). -/
def nnScanStep [LinearOrder α] (g : Graph α) (visited : List Bool) (current : Int)
    (st : WithTop α × Int) (j : Nat) : Option (WithTop α × Int) := do
  let v ← vecGet visited j
  if !v then
    let d ← g.distance current j
    if (d : WithTop α) < st.1 then pure ((d : WithTop α), (j : Int)) else pure st
  else pure st

/-- Body of the outer loop of `runNearestNeighbor`: the state is
`(route, visited, current)`. -/
def nnStep [LinearOrder α] (g : Graph α) (n : Nat)
    (st : List Int × List Bool × Int) (i : Nat) : Option (List Int × List Bool × Int) := do
  let (route, visited, current) := st
  let (_, nextNode) ← (List.range' 0 n).foldlM (nnScanStep g visited current)
    ((⊤ : WithTop α), (-1 : Int))
  let route1 ← vecSet route i nextNode
  let visited1 ← vecSet visited nextNode true
  pure (route1, visited1, nextNode)

/-- The function `TSPSolver::runNearestNeighbor(g, startId)`. -/
def runNearestNeighbor [LinearOrder α] (g : Graph α) (startId : Int) : Option Tour := do
  let n := g.size
  let visited : List Bool := List.replicate n false
  let tour ← Tour.ctor n
  let current := startId
  let route ← vecSet tour.route 0 current
  let visited ← vecSet visited current true
  let (route, _, _) ← (List.range' 1 (n - 1)).foldlM (nnStep g n) (route, visited, current)
  pure { tour_ := route }

/-- The value `delta` computed in the inner loop of `run2Opt` at counters `i`,
`k`, with the addition and subtraction of the arithmetic `α`. -/
def delta [Add α] [Sub α] (g : Graph α) (route : List Int) (n i k : Nat) : Option α := do
  let a ← vecGet route ((i : Int) - 1)
  let b ← vecGet route i
  let c ← vecGet route k
  let d ← vecGet route (((k + 1) % n : Nat) : Int)
  let dac ← g.distance a c
  let dbd ← g.distance b d
  let dab ← g.distance a b
  let dcd ← g.distance c d
  pure ((dac + dbd) - (dab + dcd))

/-- Body of the inner loop of `run2Opt`: the state is `(bestDelta, bestI, bestK)`. -/
def scanStep [LinearOrder α] [Add α] [Sub α] (g : Graph α) (route : List Int) (n i : Nat)
    (st : α × Int × Int) (k : Nat) : Option (α × Int × Int) := do
  let dl ← delta g route n i k
  if dl < st.1 then pure (dl, (i : Int), (k : Int)) else pure st

/-- The inner loop `for (int k = i + 1; k < n; ++k)` of `run2Opt`. -/
def scanRow [LinearOrder α] [Add α] [Sub α] (g : Graph α) (route : List Int) (n : Nat)
    (st : α × Int × Int) (i : Nat) : Option (α × Int × Int) :=
  (List.range' (i + 1) (n - (i + 1))).foldlM (scanStep g route n i) st

/-- The two nested loops of one pass of `run2Opt`, from `bestDelta = 0.0`,
`bestI = bestK = -1`. -/
def scan [LinearOrder α] [Add α] [Sub α] [Zero α] (g : Graph α) (route : List Int) (n : Nat) :
    Option (α × Int × Int) :=
  (List.range' 1 (n - 2)).foldlM (scanRow g route n) ((0 : α), (-1 : Int), (-1 : Int))

/-- The tolerance `1e-9` of `run2Opt`. -/
def eps [LT α] [Neg α] [Zero α] [Tolerance α] : α := Tolerance.eps

/-- One execution of the body of `while (improvement)`: the tour after the pass
and the new value of `improvement`. -/
def pass [LinearOrder α] [Add α] [Sub α] [Neg α] [Zero α] [Tolerance α] (g : Graph α) (tour : Tour) :
    Option (Tour × Bool) := do
  let n := tour.size
  let (bestDelta, bestI, bestK) ← scan g tour.route n
  if bestDelta < -(eps : α) then
    let tour1 ← tour.twoOptSwap bestI bestK
    pure (tour1, true)
  else pure (tour, false)

/-- The loop `while (improvement)` of `run2Opt`, entered with `improvement = true`;
`fuel` bounds the number of passes. -/
def run2OptLoop [LinearOrder α] [Add α] [Sub α] [Neg α] [Zero α] [Tolerance α] (g : Graph α) :
    Nat → Tour → Option Tour
  | 0, _ => none
  | fuel + 1, tour => do
    let (tour1, improvement) ← pass g tour
    if improvement then run2OptLoop g fuel tour1 else pure tour1

/-- The function `TSPSolver::run2Opt(g, initial)`, with at most `fuel` passes. -/
def run2Opt [LinearOrder α] [Add α] [Sub α] [Neg α] [Zero α] [Tolerance α] (fuel : Nat) (g : Graph α)
    (initial : Tour) : Option Tour :=
  run2OptLoop g fuel initial

end TSPSolver


/-- Entry `m[a][b]` of a vector of vectors, by natural-number indices. -/
def matGet {β : Type} (m : List (List β)) (a b : Nat) : Option β :=
  (m[a]?).bind (fun row => row[b]?)

/-- A vector of vectors is an `n × n` matrix. -/
def IsMat {β : Type} (n : Nat) (m : List (List β)) : Prop :=
  m.length = n ∧ ∀ row ∈ m, row.length = n

/-- The distance the constructor computes for the pair of positions `a`, `b`. -/
def Graph.pairDist [Sub α] [Zero α] (hypot : α → α → α) (points : List (Point α))
    (a b : Nat) : α :=
  (points.getD a ⟨0, 0, 0⟩).distanceTo hypot (points.getD b ⟨0, 0, 0⟩)

/-- The matrix entry at `(a, b)` once the constructor's loops have reached
counters `(i, j)`: the pairs before `(i, j)` in scan order are filled in. -/
def Graph.entryAt [Sub α] [Zero α] (hypot : α → α → α) (points : List (Point α))
    (i j a b : Nat) : α :=
  if a ≠ b ∧ (min a b < i ∨ (min a b = i ∧ max a b < j)) then
    Graph.pairDist hypot points (min a b) (max a b)
  else 0

/-- The graph's matrix is `n × n` for `n = size()`. -/
def Graph.WellFormed (g : Graph α) : Prop := IsMat g.size g.adjMatrix_

/-- The graph's matrix is symmetric. -/
def Graph.Symmetric (g : Graph α) : Prop :=
  ∀ a : Nat, a < g.size → ∀ b : Nat, b < g.size →
    matGet g.adjMatrix_ a b = matGet g.adjMatrix_ b a

/-- Total view of `Graph::distance`, for stating sums: the stored value, `0`
where the access is out of range. -/
def Graph.dist [Zero α] (g : Graph α) (a b : Int) : α := (g.distance a b).getD 0

/-- Every entry of the route is a node index of a graph with `n` nodes. -/
def Tour.InRange (t : Tour) (n : Nat) : Prop := ∀ x ∈ t.tour_, 0 ≤ x ∧ x < (n : Int)

/-- Sum of `d` over the consecutive pairs of a list (an open path). -/
def pathLen [Add α] [Zero α] (d : Int → Int → α) : List Int → α
  | [] => 0
  | [_] => 0
  | a :: b :: rest => d a b + pathLen d (b :: rest)

/-- Length of the closed tour through a route: `0` for fewer than two nodes,
otherwise the path through the route and back to its first node. -/
def cycleLen [Add α] [Zero α] (d : Int → Int → α) (r : List Int) : α :=
  if r.length < 2 then 0 else pathLen d (r ++ [r.headD 0])

/-- The route after `std::reverse(begin + i, begin + k + 1)`, by natural-number
positions. -/
def reverseSeg (r : List Int) (i k : Nat) : List Int :=
  r.take i ++ ((r.drop i).take (k + 1 - i)).reverse ++ r.drop (k + 1)

/-- The pair `(i2, k2)` of loop counters of `run2Opt` comes before `(i, k)` in
scan order, among the pairs `1 ≤ i2 < k2 < n` that the loops visit. -/
def Scanned (n i k i2 k2 : Nat) : Prop :=
  1 ≤ i2 ∧ i2 < k2 ∧ k2 < n ∧ (i2 < i ∨ (i2 = i ∧ k2 < k))

/-- Loop invariant of the scan of `run2Opt` when the counters are at `(i, k)`:
`bestDelta` is at most `0` and at most every `delta` seen so far, and when it is
negative it is the `delta` of the recorded pair `(bestI, bestK)`. -/
def ScanInv [LinearOrder α] [Add α] [Sub α] [Zero α] (g : Graph α) (route : List Int) (n i k : Nat)
    (st : α × Int × Int) : Prop :=
  st.1 ≤ 0 ∧
  (∀ i2 k2, Scanned n i k i2 k2 →
    ∃ dl, TSPSolver.delta g route n i2 k2 = some dl ∧ st.1 ≤ dl) ∧
  (st.1 < 0 → ∃ i2 k2, Scanned n i k i2 k2 ∧ st.2 = ((i2 : Int), (k2 : Int)) ∧
    TSPSolver.delta g route n i2 k2 = some st.1)

/-- The value of `delta` at the pair `(i, k)` in terms of a total distance `d`. -/
def deltaVal [Add α] [Sub α] (d : Int → Int → α) (r : List Int) (i k : Nat) : α :=
  (d (r.getD (i - 1) 0) (r.getD k 0) + d (r.getD i 0) (r.getD ((k + 1) % r.length) 0))
    - (d (r.getD (i - 1) 0) (r.getD i 0) + d (r.getD k 0) (r.getD ((k + 1) % r.length) 0))

/-- The identity route `[0, 1, ..., n-1]`. -/
def idRoute (n : Nat) : List Int := (List.range n).map (fun i : Nat => (i : Int))

/-- The choice rule of nearest-neighbour: `x` is a node outside `visited`, its
distance from `cur` is minimal among the nodes outside `visited`, and `x` is the
smallest index among the nodes attaining that minimum. -/
def NNChoice [LinearOrder α] (g : Graph α) (n : Nat) (visited : List Int) (cur x : Int) :
    Prop :=
  0 ≤ x ∧ x < (n : Int) ∧ x ∉ visited ∧
  ∃ d, g.distance cur x = some d ∧
    ∀ y : Int, 0 ≤ y → y < (n : Int) → y ∉ visited →
      ∃ d2, g.distance cur y = some d2 ∧ d ≤ d2 ∧ (d2 = d → x ≤ y)

/-- Loop invariant of the inner scan of `runNearestNeighbor` at counter `j`, the
visited nodes being those of the list `P`: either no unvisited node was met and
the state is still the initial one, or `nextNode` is the first nearest unvisited
node among the indices below `j` and `bestDist` its distance. -/
def NNScanInv [LinearOrder α] (g : Graph α) (P : List Int) (current : Int) (j : Nat)
    (st : WithTop α × Int) : Prop :=
  (st.1 = ⊤ ∧ st.2 = -1 ∧ ∀ j2 : Nat, j2 < j → (j2 : Int) ∈ P) ∨
  (∃ (m : Nat) (d : α), m < j ∧ st.2 = (m : Int) ∧ (m : Int) ∉ P ∧
    g.distance current m = some d ∧ st.1 = (d : WithTop α) ∧
    ∀ j2 : Nat, j2 < j → (j2 : Int) ∉ P →
      ∃ d2, g.distance current j2 = some d2 ∧ d ≤ d2 ∧ (d2 = d → m ≤ j2))

/-- Loop invariant of the outer loop of `runNearestNeighbor` at counter `i`, on
the state `(route, visited, current)`: the first `i` route entries are distinct
nodes, `visited` flags exactly those, `current` is the last of them, the first
is `start`, and every entry after the first was chosen by `NNChoice`. -/
def NNInv [LinearOrder α] (g : Graph α) (start : Int) (i : Nat)
    (st : List Int × List Bool × Int) : Prop :=
  st.1.length = g.size ∧ st.2.1.length = g.size ∧
  (st.1.take i).Nodup ∧ (∀ x ∈ st.1.take i, 0 ≤ x ∧ x < (g.size : Int)) ∧
  (∀ j, j < g.size → st.2.1[j]? = some (decide ((j : Int) ∈ st.1.take i))) ∧
  st.1[i - 1]? = some st.2.2 ∧ st.1[0]? = some start ∧
  ∀ m, 1 ≤ m → m < i →
    NNChoice g g.size (st.1.take m) (st.1.getD (m - 1) 0) (st.1.getD m 0)

/-- A route is a 2-opt local optimum for `run2Opt`: at every pair `1 ≤ i < k < n`
the value `delta` is defined and is not less than `-1e-9`. -/
def TSPSolver.LocalOpt [LinearOrder α] [Add α] [Sub α] [Neg α] [Zero α] [Tolerance α]
    (g : Graph α) (t : Tour) : Prop :=
  ∀ i k : Nat, 1 ≤ i → i < k → k < t.size →
    ∃ dl, TSPSolver.delta g t.route t.size i k = some dl ∧ ¬ dl < -(TSPSolver.eps : α)

instance IsMat.decidable {β : Type} (n : Nat) (m : List (List β)) : Decidable (IsMat n m) := by
  unfold IsMat; infer_instance

instance Graph.WellFormed.decidable (g : Graph α) : Decidable g.WellFormed := by
  unfold Graph.WellFormed; infer_instance

instance Graph.Symmetric.decidable [DecidableEq α] (g : Graph α) : Decidable g.Symmetric := by
  unfold Graph.Symmetric; infer_instance

instance Tour.InRange.decidable (t : Tour) (n : Nat) : Decidable (t.InRange n) := by
  unfold Tour.InRange; infer_instance

/-- The corners of a 3 × 4 rectangle; their pairwise Euclidean distances
(3, 4 and 5) are rational. -/
def rectPoints : List (Point ℚ) :=
  [⟨0, 0, 0⟩, ⟨1, 3, 0⟩, ⟨2, 3, 4⟩, ⟨3, 0, 4⟩]

/-- The graph of `rectPoints`, with its Euclidean distance matrix. -/
def rectGraph : Graph ℚ :=
  { points_ := rectPoints
    adjMatrix_ := [[0, 3, 5, 4], [3, 0, 4, 5], [5, 4, 0, 3], [4, 5, 3, 0]] }

/-- The four corners of the unit square, in the order of `tests/test_basic.cpp`. -/
def unitSquare [LinearOrderedField α] : List (Point α) :=
  [⟨0, 0, 0⟩, ⟨1, 1, 0⟩, ⟨2, 1, 1⟩, ⟨3, 0, 1⟩]

/-- The values `std::hypot` returns in `double` on the coordinate differences
that occur on the unit square: `1` when one difference is `0` and the other
`±1`, and `0x1.6a09e667f3bcdp+0`, the `double` nearest to `sqrt 2`, when both
are `±1`. -/
def hypotOnUnitSquare (dx dy : ℚ) : ℚ :=
  if dx = 0 then |dy| else if dy = 0 then |dx| else 6369051672525773 / 4503599627370496

/-- The distance matrix of the unit square: side `1`, diagonal `s`. -/
def squareGraph [LinearOrderedField α] (s : α) : Graph α :=
  { points_ := unitSquare
    adjMatrix_ := [[0, 1, s, 1], [1, 0, 1, s], [s, 1, 0, 1], [1, s, 1, 0]] }

/-- The route nearest-neighbour builds on the unit square from each corner. -/
def squareRoute : Nat → List Int
  | 0 => [0, 1, 2, 3]
  | 1 => [1, 0, 3, 2]
  | 2 => [2, 1, 0, 3]
  | _ => [3, 0, 1, 2]

/-- The pair `(i, k)` is at or before the pair `(i2, k2)` in the scan order of
`run2Opt` (outer counter first, then inner counter). -/
def ScanLe (i k i2 k2 : Nat) : Prop := i < i2 ∨ (i = i2 ∧ k ≤ k2)

/-- The scan invariant of `run2Opt` with the tie-break: besides `ScanInv`, a
negative `bestDelta` was recorded at the first pair, in scan order, whose
`delta` equals it. -/
def ScanFirstInv [LinearOrder α] [Add α] [Sub α] [Zero α] (g : Graph α) (route : List Int) (n i k : Nat)
    (st : α × Int × Int) : Prop :=
  ScanInv g route n i k st ∧
  (st.1 < 0 → ∃ i2 k2 : Nat, st.2 = ((i2 : Int), (k2 : Int)) ∧
    ∀ i3 k3, Scanned n i k i3 k3 → TSPSolver.delta g route n i3 k3 = some st.1 →
      ScanLe i2 k2 i3 k3)

/-! ## main.cpp: the re-indexing step (lines 134-163) -/

/-- How the re-indexing step of `main` can fail. -/
inductive MainFailure where
  /-- The branch `Error: ID out of range`, which ends `main` with `return 1`. -/
  | idOutOfRange (id : Int)
  /-- A vector subscript out of range. -/
  | subscript
deriving DecidableEq, Repr

/-- A checked vector access inside `main`. -/
def checked {β : Type} (o : Option β) : Except MainFailure β :=
  match o with
  | some x => Except.ok x
  | none => Except.error MainFailure.subscript

/-- The loop of `main` that computes `idsAreSequential`, over the counters still
to visit: it stops with `false` at the first `points[i].id != i` (`break`). -/
def idsAreSequentialLoop (points : List (Point α)) : List Nat → Except MainFailure Bool
  | [] => Except.ok true
  | i :: rest =>
    match checked (vecGet points (i : Int)) with
    | Except.error e => Except.error e
    | Except.ok p => if p.id ≠ (i : Int) then Except.ok false else idsAreSequentialLoop points rest

/-- Body of the loop `for (auto &pt : points)`: the range check, then
`temp[pt.id] = pt`. -/
def fillTempStep (n : Nat) (temp : List (Point α)) (pt : Point α) :
    Except MainFailure (List (Point α)) :=
  if pt.id < 0 ∨ pt.id ≥ (n : Int) then Except.error (MainFailure.idOutOfRange pt.id)
  else checked (vecSet temp pt.id pt)

/-- Body of the loop that fills `orderedPoints`:
`orderedPoints.emplace_back(i, temp[i].x, temp[i].y)`. -/
def emplaceStep (temp : List (Point α)) (orderedPoints : List (Point α)) (i : Nat) :
    Except MainFailure (List (Point α)) :=
  match checked (vecGet temp (i : Int)) with
  | Except.error e => Except.error e
  | Except.ok p => Except.ok (orderedPoints ++ [{ id := (i : Int), x := p.x, y := p.y }])

/-- The re-indexing step of `main`: from the loaded `points` to `orderedPoints`. -/
def reindexPoints [Zero α] (points : List (Point α)) : Except MainFailure (List (Point α)) := do
  let n := points.length
  let idsAreSequential ← idsAreSequentialLoop points (List.range' 0 n)
  if !idsAreSequential then
    let temp0 : List (Point α) := List.replicate n { id := 0, x := 0, y := 0 }
    let temp ← points.foldlM (fillTempStep n) temp0
    (List.range' 0 n).foldlM (emplaceStep temp) []
  else pure points

/-! # Properties -/

variable {α : Type}

theorem vecGet_natCast {β : Type} (v : List β) (i : Nat) : vecGet v (i : Int) = v[i]? := by
  simp [vecGet]

theorem vecGet_eq_some {β : Type} {v : List β} {i : Int} {x : β} (h : vecGet v i = some x) :
    ∃ k : Nat, i = (k : Int) ∧ k < v.length ∧ v[k]? = some x := by
  unfold vecGet at h
  split at h
  · rename_i h0
    refine ⟨i.toNat, (Int.toNat_of_nonneg h0).symm, ?_, h⟩
    exact (List.getElem?_eq_some.mp h).1
  · cases h

theorem vecSet_natCast {β : Type} (v : List β) (i : Nat) (x : β) :
    vecSet v (i : Int) x = if i < v.length then some (v.set i x) else none := by
  simp [vecSet]

theorem vecSet_eq_some {β : Type} {v w : List β} {i : Int} {x : β} (h : vecSet v i x = some w) :
    ∃ k : Nat, i = (k : Int) ∧ k < v.length ∧ w = v.set k x := by
  unfold vecSet at h
  split at h
  · rename_i h0
    refine ⟨i.toNat, (Int.toNat_of_nonneg h0.1).symm, h0.2, ?_⟩
    simpa using h.symm
  · cases h

/-- Partial-correctness rule for a counted loop: an invariant that every
successful step preserves holds of the final state. -/
theorem foldlM_range'_inv {σ : Type} (f : σ → Nat → Option σ) (P : Nat → σ → Prop) :
    ∀ (len s : Nat) (init r : σ), P s init →
      (∀ j st st', s ≤ j → j < s + len → P j st → f st j = some st' → P (j + 1) st') →
      (List.range' s len).foldlM f init = some r → P (s + len) r := by
  intro len
  induction len with
  | zero =>
    intro s init r h0 _ h
    simp at h
    subst h
    simpa using h0
  | succ len ih =>
    intro s init r h0 hstep h
    rw [List.range'_succ, List.foldlM_cons] at h
    cases hf : f init s with
    | none => simp [hf] at h
    | some st1 =>
      simp [hf] at h
      have h1 : P (s + 1) st1 := hstep s init st1 (le_refl _) (by omega) h0 hf
      have := ih (s + 1) st1 r h1
        (fun j st st' hj hj' hP hst => hstep j st st' (by omega) (by omega) hP hst) h
      have e : s + 1 + len = s + (len + 1) := by omega
      rwa [e] at this

/-- Total-correctness rule for a counted loop: when every step from a state
satisfying the invariant succeeds and re-establishes it, the loop succeeds. -/
theorem foldlM_range'_total {σ : Type} (f : σ → Nat → Option σ) (P : Nat → σ → Prop) :
    ∀ (len s : Nat) (init : σ), P s init →
      (∀ j st, s ≤ j → j < s + len → P j st → ∃ st', f st j = some st' ∧ P (j + 1) st') →
      ∃ r, (List.range' s len).foldlM f init = some r ∧ P (s + len) r := by
  intro len
  induction len with
  | zero =>
    intro s init h0 _
    exact ⟨init, by simp, by simpa using h0⟩
  | succ len ih =>
    intro s init h0 hstep
    obtain ⟨st1, hf, h1⟩ := hstep s init (le_refl _) (by omega) h0
    obtain ⟨r, hr, hP⟩ := ih (s + 1) st1 h1
      (fun j st hj hj' hP => hstep j st (by omega) (by omega) hP)
    refine ⟨r, ?_, ?_⟩
    · rw [List.range'_succ, List.foldlM_cons]
      simp [hf, hr]
    · have e : s + 1 + len = s + (len + 1) := by omega
      rwa [e] at hP

theorem Graph.distance_natCast (g : Graph α) (a b : Nat) :
    g.distance (a : Int) (b : Int) = matGet g.adjMatrix_ a b := by
  simp only [Graph.distance, vecGet_natCast, matGet]
  rfl

theorem IsMat.row {β : Type} {n : Nat} {m : List (List β)} (hm : IsMat n m) {a : Nat}
    (ha : a < n) : ∃ row, m[a]? = some row ∧ row.length = n := by
  have h : a < m.length := by rw [hm.1]; exact ha
  exact ⟨m[a], List.getElem?_eq_getElem h, hm.2 _ (List.getElem_mem h)⟩

theorem IsMat.matGet_isSome {β : Type} {n : Nat} {m : List (List β)} (hm : IsMat n m)
    {a b : Nat} (ha : a < n) (hb : b < n) : ∃ x, matGet m a b = some x := by
  obtain ⟨row, hrow, hlen⟩ := hm.row ha
  have h : b < row.length := by rw [hlen]; exact hb
  exact ⟨row[b], by simp [matGet, hrow, List.getElem?_eq_getElem h]⟩

theorem matSet_spec {β : Type} {n : Nat} {m : List (List β)} (hm : IsMat n m) {i j : Nat}
    (hi : i < n) (hj : j < n) (x : β) :
    ∃ m', matSet m (i : Int) (j : Int) x = some m' ∧ IsMat n m' ∧
      ∀ a b, matGet m' a b = if a = i ∧ b = j then some x else matGet m a b := by
  obtain ⟨row, hrow, hlen⟩ := hm.row hi
  have hil : i < m.length := by rw [hm.1]; exact hi
  have hjl : j < row.length := by rw [hlen]; exact hj
  refine ⟨m.set i (row.set j x), ?_, ⟨?_, ?_⟩, ?_⟩
  · simp [matSet, vecGet_natCast, vecSet_natCast, hrow, hil, hjl]
  · simp [hm.1]
  · intro r hr
    rcases List.mem_or_eq_of_mem_set hr with h | h
    · exact hm.2 r h
    · subst h; simp [hlen]
  · intro a b
    unfold matGet
    rw [List.getElem?_set]
    by_cases hai : i = a
    · subst hai
      simp only [hil, if_true, Option.some_bind, true_and, hrow]
      rw [List.getElem?_set]
      by_cases hbj : j = b
      · subst hbj; simp [hjl]
      · simp [hbj, Ne.symm hbj]
    · have : ¬ (a = i ∧ b = j) := fun h => hai h.1.symm
      simp [hai, this]

theorem Graph.fillStep_spec [Sub α] [Zero α] (hypot : α → α → α) (points : List (Point α))
    {i j : Nat} (hij : i < j) (hj : j < points.length) {adj : List (List α)}
    (hm : IsMat points.length adj)
    (hE : ∀ a b, a < points.length → b < points.length →
      matGet adj a b = some (Graph.entryAt hypot points i j a b)) :
    ∃ adj', Graph.fillStep hypot points i adj j = some adj' ∧ IsMat points.length adj' ∧
      ∀ a b, a < points.length → b < points.length →
        matGet adj' a b = some (Graph.entryAt hypot points i (j + 1) a b) := by
  have hi : i < points.length := lt_trans hij hj
  obtain ⟨m1, h1, hm1, hg1⟩ := matSet_spec hm hi hj (Graph.pairDist hypot points i j)
  obtain ⟨m2, h2, hm2, hg2⟩ := matSet_spec hm1 hj hi (Graph.pairDist hypot points i j)
  refine ⟨m2, ?_, hm2, ?_⟩
  · simp only [Graph.fillStep, vecGet_natCast, List.getElem?_eq_getElem hi,
      List.getElem?_eq_getElem hj, Option.bind_eq_bind, Option.some_bind]
    simp only [Graph.pairDist, List.getD_eq_getElem?_getD, List.getElem?_eq_getElem hi,
      List.getElem?_eq_getElem hj, Option.getD_some] at h1 h2
    rw [h1]
    simpa using h2
  · intro a b ha hb
    rw [hg2, hg1, hE a b ha hb]
    unfold Graph.entryAt
    by_cases c1 : a = j ∧ b = i
    · obtain ⟨rfl, rfl⟩ := c1
      have e1 : min a b = b := min_eq_right (le_of_lt hij)
      have e2 : max a b = a := max_eq_left (le_of_lt hij)
      simp [e1, e2, Nat.ne_of_gt hij]
    · by_cases c2 : a = i ∧ b = j
      · obtain ⟨rfl, rfl⟩ := c2
        have e1 : min a b = a := min_eq_left (le_of_lt hij)
        have e2 : max a b = b := max_eq_right (le_of_lt hij)
        simp [e1, e2, Nat.ne_of_lt hij]
      · simp only [c1, c2, if_false]
        congr 1
        have : (min a b = i ∧ max a b < j + 1) ↔ (min a b = i ∧ max a b < j) := by
          constructor
          · rintro ⟨h1, h2⟩
            refine ⟨h1, ?_⟩
            rcases Nat.lt_succ_iff_lt_or_eq.mp h2 with h | h
            · exact h
            · exfalso
              rcases le_total a b with hab | hab
              · rw [min_eq_left hab] at h1; rw [max_eq_right hab] at h
                exact c2 ⟨h1, h⟩
              · rw [min_eq_right hab] at h1; rw [max_eq_left hab] at h
                exact c1 ⟨h, h1⟩
          · rintro ⟨h1, h2⟩
            exact ⟨h1, by omega⟩
        simp only [this]

theorem Graph.fillRow_spec [Sub α] [Zero α] (hypot : α → α → α) (points : List (Point α))
    {i : Nat} (hi : i < points.length) {adj : List (List α)}
    (hm : IsMat points.length adj)
    (hE : ∀ a b, a < points.length → b < points.length →
      matGet adj a b = some (Graph.entryAt hypot points i (i + 1) a b)) :
    ∃ adj', Graph.fillRow hypot points points.length adj i = some adj' ∧
      IsMat points.length adj' ∧
      ∀ a b, a < points.length → b < points.length →
        matGet adj' a b = some (Graph.entryAt hypot points (i + 1) (i + 2) a b) := by
  obtain ⟨r, hr, hmr, hEr⟩ := foldlM_range'_total (Graph.fillStep hypot points i)
    (fun j adj => IsMat points.length adj ∧ ∀ a b, a < points.length → b < points.length →
      matGet adj a b = some (Graph.entryAt hypot points i j a b))
    (points.length - (i + 1)) (i + 1) adj ⟨hm, hE⟩
    (fun j st hj hj2 hP => by
      obtain ⟨adj', h1, h2, h3⟩ := Graph.fillStep_spec hypot points (i := i) (j := j)
        (by omega) (by omega) hP.1 hP.2
      exact ⟨adj', h1, h2, h3⟩)
  refine ⟨r, hr, hmr, ?_⟩
  intro a b ha hb
  rw [hEr a b ha hb]
  congr 1
  unfold Graph.entryAt
  have e : i + 1 + (points.length - (i + 1)) = points.length := by omega
  rw [e]
  have hmax : max a b < points.length := max_lt ha hb
  have hmm : min a b ≤ max a b := le_trans (min_le_left a b) (le_max_left a b)
  by_cases hab : a = b
  · simp [hab]
  · have hlt : min a b < max a b := by
      rcases Nat.lt_or_gt_of_ne hab with h | h
      · rw [min_eq_left (le_of_lt h), max_eq_right (le_of_lt h)]; exact h
      · rw [min_eq_right (le_of_lt h), max_eq_left (le_of_lt h)]; exact h
    have : (min a b < i ∨ min a b = i ∧ max a b < points.length) ↔
        (min a b < i + 1 ∨ min a b = i + 1 ∧ max a b < i + 2) := by
      constructor
      · rintro (h | ⟨h, _⟩)
        · left; omega
        · left; omega
      · rintro (h | ⟨h1, h2⟩)
        · rcases Nat.lt_succ_iff_lt_or_eq.mp h with h | h
          · left; exact h
          · right; exact ⟨h, hmax⟩
        · omega
    simp only [this]

/-- What the constructor builds: it always succeeds, stores the points, and the
matrix is `n × n` with `pairDist` of the ordered pair off the diagonal and `0` on it. -/
theorem Graph.ctor_spec [Sub α] [Zero α] (hypot : α → α → α) (points : List (Point α)) :
    ∃ g, Graph.ctor hypot points = some g ∧ g.points_ = points ∧
      IsMat points.length g.adjMatrix_ ∧
      ∀ a b, a < points.length → b < points.length →
        matGet g.adjMatrix_ a b =
          some (if a = b then 0 else Graph.pairDist hypot points (min a b) (max a b)) := by
  obtain ⟨r, hr, hmr, hEr⟩ := foldlM_range'_total
    (Graph.fillRow hypot points points.length)
    (fun i adj => IsMat points.length adj ∧ ∀ a b, a < points.length → b < points.length →
      matGet adj a b = some (Graph.entryAt hypot points i (i + 1) a b))
    points.length 0 (List.replicate points.length (List.replicate points.length 0))
    (by
      refine ⟨⟨by simp, ?_⟩, ?_⟩
      · intro row hrow
        rw [List.mem_replicate] at hrow
        rw [hrow.2]; simp
      · intro a b ha hb
        have : ¬ (min a b = 0 ∧ max a b < 1 ∧ a ≠ b) := by
          rintro ⟨h1, h2, h3⟩
          have := le_max_left a b
          have := le_max_right a b
          omega
        simp only [matGet, List.getElem?_replicate, ha, hb, if_true, Option.some_bind,
          Graph.entryAt]
        split
        · rename_i h; exact absurd ⟨by omega, h.2.resolve_left (by omega) |>.2, h.1⟩ this
        · rfl)
    (fun i st _ hi2 hP => by
      obtain ⟨adj', h1, h2, h3⟩ := Graph.fillRow_spec hypot points (i := i) (by omega) hP.1 hP.2
      exact ⟨adj', h1, h2, h3⟩)
  refine ⟨⟨points, r⟩, ?_, rfl, hmr, ?_⟩
  · simp only [Graph.ctor, hr]; rfl
  · intro a b ha hb
    show matGet r a b = _
    rw [hEr a b ha hb]
    congr 1
    unfold Graph.entryAt
    have hmin : min a b < points.length := lt_of_le_of_lt (min_le_left a b) ha
    by_cases hab : a = b
    · simp [hab]
    · have : a ≠ b ∧ (min a b < 0 + points.length ∨ min a b = 0 + points.length ∧
          max a b < 0 + points.length + 1) := ⟨hab, Or.inl (by omega)⟩
      rw [if_pos this, if_neg hab]

theorem Graph.ctor_isSome [Sub α] [Zero α] (hypot : α → α → α) (points : List (Point α)) :
    ∃ g, Graph.ctor hypot points = some g := by
  obtain ⟨g, h, _⟩ := Graph.ctor_spec hypot points
  exact ⟨g, h⟩

theorem Graph.ctor_size [Sub α] [Zero α] {hypot : α → α → α} {points : List (Point α)}
    {g : Graph α} (h : Graph.ctor hypot points = some g) : g.size = points.length := by
  obtain ⟨g', h', hp, _⟩ := Graph.ctor_spec hypot points
  rw [h] at h'; cases h'
  simp [Graph.size, hp]

theorem Graph.ctor_wellFormed [Sub α] [Zero α] {hypot : α → α → α} {points : List (Point α)}
    {g : Graph α} (h : Graph.ctor hypot points = some g) : g.WellFormed := by
  obtain ⟨g', h', hp, hm, _⟩ := Graph.ctor_spec hypot points
  rw [h] at h'; cases h'
  simpa [Graph.WellFormed, Graph.size, hp] using hm

theorem Graph.ctor_symmetric [Sub α] [Zero α] {hypot : α → α → α} {points : List (Point α)}
    {g : Graph α} (h : Graph.ctor hypot points = some g) : g.Symmetric := by
  obtain ⟨g', h', hp, _, hE⟩ := Graph.ctor_spec hypot points
  rw [h] at h'; cases h'
  intro a ha b hb
  simp only [Graph.size, hp] at ha hb
  rw [hE a b ha hb, hE b a hb ha, min_comm, max_comm]
  by_cases hab : a = b
  · simp [hab]
  · simp [hab, Ne.symm hab]

theorem Graph.distance_eq_some {g : Graph α} {a b : Int} {x : α}
    (h : g.distance a b = some x) :
    ∃ i j : Nat, a = (i : Int) ∧ b = (j : Int) ∧ matGet g.adjMatrix_ i j = some x := by
  simp only [Graph.distance, Option.bind_eq_bind, Option.bind_eq_some] at h
  obtain ⟨row, h1, h2⟩ := h
  obtain ⟨i, hi, _, hrow⟩ := vecGet_eq_some h1
  obtain ⟨j, hj, _, hx⟩ := vecGet_eq_some h2
  exact ⟨i, j, hi, hj, by simp [matGet, hrow, hx]⟩

theorem matGet_lt {β : Type} {n : Nat} {m : List (List β)} (hm : IsMat n m) {a b : Nat}
    {x : β} (h : matGet m a b = some x) : a < n ∧ b < n := by
  simp only [matGet, Option.bind_eq_some] at h
  obtain ⟨row, h1, h2⟩ := h
  obtain ⟨ha, hrow⟩ := List.getElem?_eq_some.mp h1
  obtain ⟨hb, _⟩ := List.getElem?_eq_some.mp h2
  have : row.length = n := hm.2 row (hrow ▸ List.getElem_mem ha)
  exact ⟨hm.1 ▸ ha, this ▸ hb⟩

theorem Graph.distance_isSome [Zero α] {g : Graph α} (hg : g.WellFormed) {a b : Int}
    (ha : 0 ≤ a ∧ a < (g.size : Int)) (hb : 0 ≤ b ∧ b < (g.size : Int)) :
    g.distance a b = some (g.dist a b) := by
  obtain ⟨i, rfl⟩ := Int.eq_ofNat_of_zero_le ha.1
  obtain ⟨j, rfl⟩ := Int.eq_ofNat_of_zero_le hb.1
  obtain ⟨x, hx⟩ := hg.matGet_isSome (a := i) (b := j) (by omega) (by omega)
  simp [Graph.dist, Graph.distance_natCast, hx]

theorem Graph.dist_symm [Zero α] {g : Graph α} (hg : g.WellFormed) (hs : g.Symmetric)
    (a b : Int) : g.dist a b = g.dist b a := by
  unfold Graph.dist
  cases h1 : g.distance a b with
  | some x =>
    obtain ⟨i, j, rfl, rfl, hx⟩ := Graph.distance_eq_some h1
    obtain ⟨hi, hj⟩ := matGet_lt hg hx
    rw [Graph.distance_natCast, ← hs i hi j hj, hx]
  | none =>
    cases h2 : g.distance b a with
    | none => rfl
    | some y =>
      obtain ⟨i, j, rfl, rfl, hy⟩ := Graph.distance_eq_some h2
      obtain ⟨hi, hj⟩ := matGet_lt hg hy
      rw [Graph.distance_natCast, ← hs i hi j hj, hy] at h1
      cases h1

section PathLen
variable [LinearOrderedField α] (d : Int → Int → α)

theorem pathLen_append_cons (A : List Int) (a b : Int) (B : List Int) :
    pathLen d (A ++ a :: b :: B) = pathLen d (A ++ [a]) + d a b + pathLen d (b :: B) := by
  induction A with
  | nil => simp [pathLen]
  | cons x A ih =>
    cases A with
    | nil => simp [pathLen]; ring
    | cons y A =>
      have e1 : x :: y :: A ++ a :: b :: B = x :: y :: (A ++ a :: b :: B) := rfl
      have e2 : x :: y :: A ++ [a] = x :: y :: (A ++ [a]) := rfl
      have e3 : y :: A ++ a :: b :: B = y :: (A ++ a :: b :: B) := rfl
      have e4 : y :: A ++ [a] = y :: (A ++ [a]) := rfl
      rw [e3, e4] at ih
      rw [e1, e2, pathLen, pathLen, ih]; ring

theorem pathLen_concat (A : List Int) (a b : Int) :
    pathLen d (A ++ [a] ++ [b]) = pathLen d (A ++ [a]) + d a b := by
  have := pathLen_append_cons d A a b []
  simpa [pathLen] using this

theorem pathLen_reverse (hs : ∀ x y, d x y = d y x) (l : List Int) :
    pathLen d l.reverse = pathLen d l := by
  induction l with
  | nil => rfl
  | cons a l ih =>
    cases l with
    | nil => rfl
    | cons b l =>
      have e : (a :: b :: l).reverse = l.reverse ++ [b] ++ [a] := by simp
      rw [e, pathLen_concat]
      have e2 : l.reverse ++ [b] = (b :: l).reverse := by simp
      rw [e2, ih, hs b a]
      simp [pathLen]; ring

/-- Reversing a segment `S` (first node `b`, last node `c`) between a node `a`
and a node `e` removes the edges `a—b`, `c—e` and adds `a—c`, `b—e`. -/
theorem pathLen_reverse_segment (hs : ∀ x y, d x y = d y x) (A : List Int) (a : Int)
    (S : List Int) (b : Int) (S1 : List Int) (c : Int) (S2 : List Int) (e : Int)
    (E : List Int) (hb : S = b :: S1) (hc : S = S2 ++ [c]) :
    pathLen d (A ++ [a] ++ S.reverse ++ e :: E)
      = pathLen d (A ++ [a] ++ S ++ e :: E) + ((d a c + d b e) - (d a b + d c e)) := by
  have hrev := pathLen_reverse d hs S
  have l1 : A ++ [a] ++ S.reverse ++ e :: E = A ++ a :: c :: (S2.reverse ++ e :: E) := by
    rw [hc]; simp
  have l2 : c :: (S2.reverse ++ e :: E) = S1.reverse ++ b :: e :: E := by
    have : c :: S2.reverse = S1.reverse ++ [b] := by
      have := congrArg List.reverse (hb.symm.trans hc)
      simpa using this.symm
    calc c :: (S2.reverse ++ e :: E) = (c :: S2.reverse) ++ e :: E := rfl
      _ = S1.reverse ++ b :: e :: E := by rw [this]; simp
  have l3 : S1.reverse ++ [b] = S.reverse := by rw [hb]; simp
  have r1 : A ++ [a] ++ S ++ e :: E = A ++ a :: b :: (S1 ++ e :: E) := by
    rw [hb]; simp
  have r2 : b :: (S1 ++ e :: E) = S2 ++ c :: e :: E := by
    calc b :: (S1 ++ e :: E) = (b :: S1) ++ e :: E := rfl
      _ = S2 ++ c :: e :: E := by rw [← hb, hc]; simp
  have r3 : S2 ++ [c] = S := hc.symm
  rw [l1, pathLen_append_cons, l2, pathLen_append_cons, l3, hrev,
    r1, pathLen_append_cons, r2, pathLen_append_cons, r3]
  ring

end PathLen

theorem take_succ_getElem {β : Type} (l : List β) {i : Nat} (h : i < l.length) :
    l.take (i + 1) = l.take i ++ [l[i]] := by
  rw [List.take_succ, List.getElem?_eq_getElem h]; rfl

theorem pathLen_snoc [LinearOrderedField α] (d : Int → Int → α) {l L : List Int} {b : Int}
    (h : l = L ++ [b]) (x : Int) : pathLen d (l ++ [x]) = pathLen d l + d b x := by
  subst h
  exact pathLen_concat d L b x

theorem Tour.InRange.getElem {t : Tour} {n : Nat} (h : t.InRange n) {i : Nat}
    (hi : i < t.tour_.length) : 0 ≤ t.tour_[i] ∧ t.tour_[i] < (n : Int) :=
  h _ (List.getElem_mem hi)

/-- The method `Tour::length` returns the length of the closed tour (`cycleLen`)
whenever every route entry is a node of the graph. -/
theorem Tour.length_eq_cycleLen [LinearOrderedField α] {g : Graph α} (hg : g.WellFormed)
    {t : Tour} (ht : t.InRange g.size) :
    t.length g = some (cycleLen g.dist t.tour_) := by
  unfold Tour.length cycleLen
  simp only [Tour.size]
  by_cases hn : t.tour_.length < 2
  · simp [hn]
  · simp only [hn, if_false]
    have hn2 : 2 ≤ t.tour_.length := by omega
    obtain ⟨sum, hsum, hP⟩ := foldlM_range'_total
      (fun (sum : α) (i : Nat) => do
        let a ← vecGet t.tour_ i
        let b ← vecGet t.tour_ ((i : Int) + 1)
        let d ← g.distance a b
        pure (sum + d))
      (fun i sum => sum = pathLen g.dist (t.tour_.take (i + 1)))
      (t.tour_.length - 1) 0 0
      (by
        have h0 : 0 < t.tour_.length := by omega
        beta_reduce
        rw [take_succ_getElem _ h0]; simp [pathLen])
      (fun i sum _ hi hP => by
        have h1 : i < t.tour_.length := by omega
        have h2 : i + 1 < t.tour_.length := by omega
        have e : ((i : Int) + 1) = ((i + 1 : Nat) : Int) := by push_cast; rfl
        refine ⟨sum + g.dist t.tour_[i] t.tour_[i + 1], ?_, ?_⟩
        · simp only [e, vecGet_natCast, List.getElem?_eq_getElem h1,
            List.getElem?_eq_getElem h2, Option.bind_eq_bind, Option.some_bind,
            Graph.distance_isSome hg (ht.getElem h1) (ht.getElem h2)]
          rfl
        · beta_reduce at hP ⊢
          rw [hP, take_succ_getElem _ h2, take_succ_getElem _ h1, pathLen_concat])
    have hlast : t.tour_.length - 1 < t.tour_.length := by omega
    have h0 : 0 < t.tour_.length := by omega
    have e : ((t.tour_.length : Int) - 1) = ((t.tour_.length - 1 : Nat) : Int) := by
      omega
    have e0 : (0 : Int) = ((0 : Nat) : Int) := rfl
    rw [hsum]
    simp only [e, vecGet_natCast, List.getElem?_eq_getElem hlast, Option.bind_eq_bind,
      Option.some_bind]
    rw [e0, vecGet_natCast, List.getElem?_eq_getElem h0]
    simp only [Option.some_bind, Graph.distance_isSome hg (ht.getElem hlast) (ht.getElem h0)]
    rw [hP]
    have hfull : List.take (0 + (t.tour_.length - 1) + 1) t.tour_ = t.tour_ := by
      apply List.take_of_length_le; omega
    have hsplit : t.tour_ = t.tour_.take (t.tour_.length - 1) ++ [t.tour_[t.tour_.length - 1]] := by
      have := take_succ_getElem t.tour_ hlast
      rw [← this]
      symm; apply List.take_of_length_le; omega
    have hhead : ∀ z : Int, t.tour_.headD z = t.tour_[0] := by
      intro z
      rw [List.headD_eq_head?, List.head?_eq_getElem?, List.getElem?_eq_getElem h0]; rfl
    rw [hfull, hhead]
    rw [pathLen_snoc g.dist hsplit]
    rfl

theorem Tour.twoOptSwap_natCast (t : Tour) {i k : Nat} (hik : i ≤ k + 1)
    (hk : k + 1 ≤ t.tour_.length) :
    t.twoOptSwap (i : Int) (k : Int) = some { tour_ := reverseSeg t.tour_ i k } := by
  have e : ((k : Int) + 1).toNat = k + 1 := by omega
  have c : 0 ≤ (i : Int) ∧ (i : Int) ≤ (k : Int) + 1 ∧ (k : Int) + 1 ≤ (t.tour_.length : Int) :=
    ⟨by omega, by omega, by omega⟩
  simp only [Tour.twoOptSwap, c, and_self, if_true, e, Int.toNat_ofNat, reverseSeg]

theorem Tour.twoOptSwap_eq_some {t t1 : Tour} {i k : Int} (h : t.twoOptSwap i k = some t1) :
    ∃ a b : Nat, a ≤ b ∧ b ≤ t.tour_.length ∧ i = (a : Int) ∧ k + 1 = (b : Int) ∧
      t1.tour_ = t.tour_.take a ++ ((t.tour_.drop a).take (b - a)).reverse ++ t.tour_.drop b := by
  unfold Tour.twoOptSwap at h
  split at h
  · rename_i c
    cases h
    exact ⟨i.toNat, (k + 1).toNat, by omega, by omega, by omega, by omega, rfl⟩
  · cases h

theorem reverse_window_perm {β : Type} (r : List β) {a b : Nat} (hab : a ≤ b) :
    (r.take a ++ ((r.drop a).take (b - a)).reverse ++ r.drop b).Perm r := by
  have h1 : r.take a ++ (r.drop a).take (b - a) ++ r.drop b = r := by
    have := List.take_add r a (b - a)
    rw [Nat.add_sub_cancel' hab] at this
    rw [← this, List.take_append_drop]
  have h2 : (r.take a ++ ((r.drop a).take (b - a)).reverse ++ r.drop b).Perm
      (r.take a ++ (r.drop a).take (b - a) ++ r.drop b) :=
    List.Perm.append (List.Perm.append (List.Perm.refl _) (List.reverse_perm _))
      (List.Perm.refl _)
  rw [h1] at h2
  exact h2

/-- The method `twoOptSwap` rearranges the route. -/
theorem Tour.twoOptSwap_perm {t t1 : Tour} {i k : Int} (h : t.twoOptSwap i k = some t1) :
    t1.tour_.Perm t.tour_ := by
  obtain ⟨a, b, hab, _, _, _, ht1⟩ := Tour.twoOptSwap_eq_some h
  rw [ht1]
  exact reverse_window_perm _ hab

theorem Tour.InRange.of_perm {t t1 : Tour} {n : Nat} (h : t.InRange n)
    (hp : t1.tour_.Perm t.tour_) : t1.InRange n :=
  fun x hx => h x (hp.subset hx)

theorem getD_eq_getElem {β : Type} (l : List β) {i : Nat} (h : i < l.length) (z : β) :
    l.getD i z = l[i] := by
  rw [List.getD_eq_getElem?_getD, List.getElem?_eq_getElem h]; rfl

/-- Reversing the segment `[i..k]` of a route changes the length of the closed
tour by exactly the `delta` of `run2Opt`, when distances are symmetric. -/
theorem cycleLen_reverseSeg [LinearOrderedField α] (d : Int → Int → α)
    (hs : ∀ x y, d x y = d y x) (r : List Int) {i k : Nat} (hi : 1 ≤ i) (hik : i ≤ k)
    (hk : k < r.length) :
    cycleLen d (reverseSeg r i k) = cycleLen d r +
      ((d (r.getD (i - 1) 0) (r.getD k 0) + d (r.getD i 0) (r.getD ((k + 1) % r.length) 0))
        - (d (r.getD (i - 1) 0) (r.getD i 0) + d (r.getD k 0) (r.getD ((k + 1) % r.length) 0))) := by
  have hi1 : i - 1 < r.length := by omega
  have hil : i < r.length := by omega
  have h0 : 0 < r.length := by omega
  -- the pieces of the route
  have hA : r.take i = r.take (i - 1) ++ [r[i - 1]] := by
    have := take_succ_getElem r hi1
    rwa [Nat.sub_add_cancel hi] at this
  have hSb : (r.drop i).take (k + 1 - i) = r[i] :: (r.drop (i + 1)).take (k - i) := by
    rw [List.drop_eq_getElem_cons hil]
    have : k + 1 - i = (k - i) + 1 := by omega
    rw [this, List.take_succ_cons]
  have hSc : (r.drop i).take (k + 1 - i) = (r.drop i).take (k - i) ++ [r[k]] := by
    have hlen : k - i < (r.drop i).length := by rw [List.length_drop]; omega
    have := take_succ_getElem (r.drop i) hlen
    have e : k - i + 1 = k + 1 - i := by omega
    rw [e] at this
    rw [this, List.getElem_drop]
    congr 3
    omega
  have hsplit : r = r.take i ++ (r.drop i).take (k + 1 - i) ++ r.drop (k + 1) := by
    have := List.take_add r i (k + 1 - i)
    rw [Nat.add_sub_cancel' (by omega : i ≤ k + 1)] at this
    rw [← this, List.take_append_drop]
  have hhead : ∀ X : List Int, (r.take i ++ X).headD 0 = r[0] := by
    intro X
    rw [List.headD_eq_head?, List.head?_eq_getElem?, List.getElem?_append_left (by
      rw [List.length_take]; omega), List.getElem?_take_of_lt (by omega),
      List.getElem?_eq_getElem h0]
    rfl
  have hheadr : r.headD 0 = r[0] := by
    rw [List.headD_eq_head?, List.head?_eq_getElem?, List.getElem?_eq_getElem h0]; rfl
  -- the node after the segment, cyclically
  obtain ⟨E, hE⟩ : ∃ E, r.drop (k + 1) ++ [r[0]] = r.getD ((k + 1) % r.length) 0 :: E := by
    by_cases hk1 : k + 1 < r.length
    · refine ⟨r.drop (k + 2) ++ [r[0]], ?_⟩
      rw [Nat.mod_eq_of_lt hk1, getD_eq_getElem r hk1, List.drop_eq_getElem_cons hk1]
      rfl
    · have e : k + 1 = r.length := by omega
      refine ⟨[], ?_⟩
      rw [e, Nat.mod_self, getD_eq_getElem r h0, List.drop_length]
      rfl
  have hlen : (reverseSeg r i k).length = r.length := by
    have := (reverse_window_perm r (by omega : i ≤ k + 1)).length_eq
    simpa [reverseSeg] using this
  have hn2 : ¬ r.length < 2 := by omega
  unfold cycleLen
  rw [hlen, if_neg hn2, if_neg hn2, hheadr]
  have e1 : (reverseSeg r i k).headD 0 = r[0] := by
    unfold reverseSeg
    rw [List.append_assoc]
    exact hhead _
  rw [e1]
  have l1 : reverseSeg r i k ++ [r[0]]
      = r.take (i - 1) ++ [r[i - 1]] ++ ((r.drop i).take (k + 1 - i)).reverse
        ++ r.getD ((k + 1) % r.length) 0 :: E := by
    unfold reverseSeg
    rw [List.append_assoc _ _ [r[0]], hE, hA]
  have l2 : r ++ [r[0]]
      = r.take (i - 1) ++ [r[i - 1]] ++ (r.drop i).take (k + 1 - i)
        ++ r.getD ((k + 1) % r.length) 0 :: E := by
    have := congrArg (fun l => l ++ [r[0]]) hsplit
    beta_reduce at this
    rw [this, List.append_assoc _ _ [r[0]], hE, hA]
  rw [l1, l2, pathLen_reverse_segment d hs _ _ _ _ _ _ _ _ _ hSb hSc,
    getD_eq_getElem r hi1, getD_eq_getElem r hil, getD_eq_getElem r hk]

namespace TSPSolver

theorem scanStep_inv
    [LinearOrder α] [Add α] [Sub α] [Zero α]
    (g : Graph α) (route : List Int) {n i k : Nat}
    (hi : 1 ≤ i) (hik : i < k) (hk : k < n) {st st1 : α × Int × Int}
    (hP : ScanInv g route n i k st) (h : scanStep g route n i st k = some st1) :
    ScanInv g route n i (k + 1) st1 := by
  simp only [scanStep, Option.bind_eq_bind, Option.bind_eq_some] at h
  obtain ⟨dl, hdl, hst⟩ := h
  obtain ⟨h1, h2, h3⟩ := hP
  have hcase : ∀ i2 k2, Scanned n i (k + 1) i2 k2 →
      Scanned n i k i2 k2 ∨ (i2 = i ∧ k2 = k) := by
    rintro i2 k2 ⟨a, b, c, e⟩
    rcases e with e | ⟨e1, e2⟩
    · exact Or.inl ⟨a, b, c, Or.inl e⟩
    · rcases Nat.lt_succ_iff_lt_or_eq.mp e2 with e2 | e2
      · exact Or.inl ⟨a, b, c, Or.inr ⟨e1, e2⟩⟩
      · exact Or.inr ⟨e1, e2⟩
  have hmono : ∀ i2 k2, Scanned n i k i2 k2 → Scanned n i (k + 1) i2 k2 := by
    rintro i2 k2 ⟨a, b, c, e⟩
    refine ⟨a, b, c, ?_⟩
    rcases e with e | ⟨e1, e2⟩
    · exact Or.inl e
    · exact Or.inr ⟨e1, by omega⟩
  have hnew : Scanned n i (k + 1) i k := ⟨hi, hik, hk, Or.inr ⟨rfl, by omega⟩⟩
  by_cases hlt : dl < st.1
  · rw [if_pos hlt] at hst
    cases hst
    refine ⟨le_of_lt (lt_of_lt_of_le hlt h1), ?_, ?_⟩
    · intro i2 k2 hs
      rcases hcase i2 k2 hs with hs | ⟨rfl, rfl⟩
      · obtain ⟨d2, hd2, hle⟩ := h2 i2 k2 hs
        exact ⟨d2, hd2, le_trans (le_of_lt hlt) hle⟩
      · exact ⟨dl, hdl, le_refl _⟩
    · intro _
      exact ⟨i, k, hnew, rfl, hdl⟩
  · rw [if_neg hlt] at hst
    cases hst
    refine ⟨h1, ?_, ?_⟩
    · intro i2 k2 hs
      rcases hcase i2 k2 hs with hs | ⟨rfl, rfl⟩
      · exact h2 i2 k2 hs
      · exact ⟨dl, hdl, not_lt.mp hlt⟩
    · intro hneg
      obtain ⟨i2, k2, hs, e, hd⟩ := h3 hneg
      exact ⟨i2, k2, hmono i2 k2 hs, e, hd⟩

theorem scanRow_inv
    [LinearOrder α] [Add α] [Sub α] [Zero α]
    (g : Graph α) (route : List Int) {n i : Nat}
    (hi : 1 ≤ i) (hin : i + 1 < n) {st st1 : α × Int × Int}
    (hP : ScanInv g route n i (i + 1) st) (h : scanRow g route n st i = some st1) :
    ScanInv g route n (i + 1) (i + 2) st1 := by
  have := foldlM_range'_inv (scanStep g route n i) (fun k st => ScanInv g route n i k st)
    (n - (i + 1)) (i + 1) st st1 hP
    (fun k s s1 hk1 hk2 hs hstep => scanStep_inv g route hi (by omega) (by omega) hs hstep) h
  have e : i + 1 + (n - (i + 1)) = n := by omega
  rw [e] at this
  obtain ⟨h1, h2, h3⟩ := this
  have hiff : ∀ i2 k2, Scanned n i n i2 k2 ↔ Scanned n (i + 1) (i + 2) i2 k2 := by
    intro i2 k2
    unfold Scanned
    constructor
    · rintro ⟨a, b, c, e⟩
      exact ⟨a, b, c, Or.inl (by omega)⟩
    · rintro ⟨a, b, c, e⟩
      refine ⟨a, b, c, ?_⟩
      rcases e with e | ⟨e1, e2⟩
      · rcases Nat.lt_succ_iff_lt_or_eq.mp e with e | e
        · exact Or.inl e
        · exact Or.inr ⟨e, c⟩
      · omega
  refine ⟨h1, fun i2 k2 hs => h2 i2 k2 ((hiff i2 k2).mpr hs), fun hneg => ?_⟩
  obtain ⟨i2, k2, hs, e, hd⟩ := h3 hneg
  exact ⟨i2, k2, (hiff i2 k2).mp hs, e, hd⟩

/-- What one scan of `run2Opt` returns: `bestDelta ≤ 0`, `bestDelta` is at most
the `delta` of every pair `1 ≤ i < k < n`, and a negative `bestDelta` is the
`delta` of the pair `(bestI, bestK)`, which is such a pair. -/
theorem scan_spec
    [LinearOrder α] [Add α] [Sub α] [Zero α]
    (g : Graph α) (route : List Int) (n : Nat)
    {st : α × Int × Int} (h : scan g route n = some st) :
    st.1 ≤ 0 ∧
    (∀ i k, 1 ≤ i → i < k → k < n → ∃ dl, delta g route n i k = some dl ∧ st.1 ≤ dl) ∧
    (st.1 < 0 → ∃ i k, 1 ≤ i ∧ i < k ∧ k < n ∧ st.2 = ((i : Int), (k : Int)) ∧
      delta g route n i k = some st.1) := by
  have := foldlM_range'_inv (scanRow g route n)
    (fun i st => ScanInv g route n i (i + 1) st) (n - 2) 1 ((0 : α), (-1 : Int), (-1 : Int)) st
    (by
      refine ⟨le_refl _, ?_, fun hneg => absurd hneg (lt_irrefl _)⟩
      rintro i2 k2 ⟨a, b, c, e⟩
      omega)
    (fun i s s1 hi1 hi2 hs hstep => scanRow_inv g route hi1 (by omega) hs hstep) h
  obtain ⟨h1, h2, h3⟩ := this
  refine ⟨h1, ?_, ?_⟩
  · intro i k hi hik hk
    exact h2 i k ⟨hi, hik, hk, Or.inl (by omega)⟩
  · intro hneg
    obtain ⟨i2, k2, ⟨a, b, c, _⟩, e, hd⟩ := h3 hneg
    exact ⟨i2, k2, a, b, c, e, hd⟩

/-- The scan succeeds when `delta` is defined at every pair it visits. -/
theorem scan_isSome
    [LinearOrder α] [Add α] [Sub α] [Zero α]
    (g : Graph α) (route : List Int) (n : Nat)
    (hd : ∀ i k, 1 ≤ i → i < k → k < n → ∃ dl, delta g route n i k = some dl) :
    ∃ st, scan g route n = some st := by
  obtain ⟨st, hst, _⟩ := foldlM_range'_total (scanRow g route n) (fun _ _ => True)
    (n - 2) 1 ((0 : α), (-1 : Int), (-1 : Int)) trivial
    (fun i s hi1 hi2 _ => by
      obtain ⟨s1, hs1, _⟩ := foldlM_range'_total (scanStep g route n i) (fun _ _ => True)
        (n - (i + 1)) (i + 1) s trivial
        (fun k s2 hk1 hk2 _ => by
          obtain ⟨dl, hdl⟩ := hd i k hi1 (by omega) (by omega)
          refine ⟨if dl < s2.1 then (dl, (i : Int), (k : Int)) else s2, ?_, trivial⟩
          simp only [scanStep, hdl, Option.bind_eq_bind, Option.some_bind]
          split <;> rfl)
      exact ⟨s1, hs1, trivial⟩)
  exact ⟨st, hst⟩

end TSPSolver

namespace TSPSolver

theorem neg_eps_lt_zero [LT α] [Neg α] [Zero α] [Tolerance α] : -(eps : α) < 0 :=
  Tolerance.neg_eps_lt_zero

theorem eps_pos [LinearOrderedField α] : (0 : α) < eps := by
  show (0 : α) < 1 / 1000000000
  positivity

/-- On a route over the graph's nodes, `delta` is defined at every pair the scan visits. -/
theorem delta_eq_deltaVal [Add α] [Sub α] [Zero α] {g : Graph α} (hg : g.WellFormed)
    {t : Tour} (ht : t.InRange g.size) {i k : Nat} (hi : 1 ≤ i) (hik : i ≤ k)
    (hk : k < t.tour_.length) :
    delta g t.route t.tour_.length i k = some (deltaVal g.dist t.tour_ i k) := by
  have hi1 : i - 1 < t.tour_.length := by omega
  have hil : i < t.tour_.length := by omega
  have hm : (k + 1) % t.tour_.length < t.tour_.length := Nat.mod_lt _ (by omega)
  have e : ((i : Int) - 1) = ((i - 1 : Nat) : Int) := by omega
  simp only [delta, Tour.route, e, vecGet_natCast, List.getElem?_eq_getElem hi1,
    List.getElem?_eq_getElem hil, List.getElem?_eq_getElem hk, List.getElem?_eq_getElem hm,
    Option.bind_eq_bind, Option.some_bind,
    Graph.distance_isSome hg (ht.getElem hi1) (ht.getElem hk),
    Graph.distance_isSome hg (ht.getElem hil) (ht.getElem hm),
    Graph.distance_isSome hg (ht.getElem hi1) (ht.getElem hil),
    Graph.distance_isSome hg (ht.getElem hk) (ht.getElem hm),
    deltaVal, getD_eq_getElem _ hi1, getD_eq_getElem _ hil, getD_eq_getElem _ hk,
    getD_eq_getElem _ hm]
  rfl

/-- The two ways a pass can end: no swap (the tour is returned as it was, with
`improvement = false`), or the swap of the recorded pair. -/
theorem pass_eq_some
    [LinearOrder α] [Add α] [Sub α] [Neg α] [Zero α] [Tolerance α]
    {g : Graph α} {t t1 : Tour} {imp : Bool}
    (h : pass g t = some (t1, imp)) :
    ∃ st, scan g t.route t.size = some st ∧
      ((imp = false ∧ t1 = t ∧ ¬ st.1 < -(eps : α)) ∨
       (imp = true ∧ st.1 < -(eps : α) ∧ t.twoOptSwap st.2.1 st.2.2 = some t1)) := by
  simp only [pass, Option.bind_eq_bind, Option.bind_eq_some] at h
  obtain ⟨⟨bd, bi, bk⟩, hscan, hrest⟩ := h
  refine ⟨(bd, bi, bk), hscan, ?_⟩
  by_cases hlt : bd < -(eps : α)
  · simp only [hlt, if_true, Option.bind_eq_some] at hrest
    obtain ⟨t2, ht2, hpure⟩ := hrest
    cases hpure
    exact Or.inr ⟨rfl, hlt, ht2⟩
  · simp only [hlt, if_false] at hrest
    cases hrest
    exact Or.inl ⟨rfl, rfl, hlt⟩

theorem pass_perm
    [LinearOrder α] [Add α] [Sub α] [Neg α] [Zero α] [Tolerance α]
    {g : Graph α} {t t1 : Tour} {imp : Bool}
    (h : pass g t = some (t1, imp)) : t1.tour_.Perm t.tour_ := by
  obtain ⟨st, _, hc⟩ := pass_eq_some h
  rcases hc with ⟨_, rfl, _⟩ | ⟨_, _, hsw⟩
  · exact List.Perm.refl _
  · exact Tour.twoOptSwap_perm hsw

/-- A pass that applies a swap shortens the closed tour by more than `eps`. -/
theorem pass_decrease [LinearOrderedField α] {g : Graph α} (hg : g.WellFormed)
    (hs : g.Symmetric) {t t1 : Tour} (ht : t.InRange g.size)
    (h : pass g t = some (t1, true)) :
    cycleLen g.dist t1.tour_ < cycleLen g.dist t.tour_ - eps := by
  obtain ⟨st, hscan, hc⟩ := pass_eq_some h
  rcases hc with ⟨hf, _, _⟩ | ⟨_, hlt, hsw⟩
  · cases hf
  · obtain ⟨_, _, h3⟩ := scan_spec g t.route t.size hscan
    have hneg : st.1 < 0 := lt_trans hlt neg_eps_lt_zero
    obtain ⟨i, k, hi, hik, hk, hst, hd⟩ := h3 hneg
    rw [hst] at hsw
    simp only at hsw
    have hk2 : k < t.tour_.length := hk
    rw [Tour.twoOptSwap_natCast t (by omega) (by omega)] at hsw
    cases hsw
    rw [show t.size = t.tour_.length from rfl,
      delta_eq_deltaVal hg ht hi (le_of_lt hik) hk2] at hd
    have hd2 : deltaVal g.dist t.tour_ i k = st.1 := by simpa using hd
    have := cycleLen_reverseSeg g.dist (Graph.dist_symm hg hs) t.tour_ hi (le_of_lt hik) hk2
    simp only
    rw [this]
    unfold deltaVal at hd2
    rw [hd2]
    linarith

/-- A pass succeeds on every tour over the graph's nodes. -/
theorem pass_isSome
    [LinearOrder α] [Add α] [Sub α] [Neg α] [Zero α] [Tolerance α]
    {g : Graph α} (hg : g.WellFormed)
    {t : Tour} (ht : t.InRange g.size) : ∃ res, pass g t = some res := by
  obtain ⟨st, hscan⟩ := scan_isSome g t.route t.size (fun i k hi hik hk =>
    ⟨_, delta_eq_deltaVal hg ht hi (le_of_lt hik) hk⟩)
  obtain ⟨bd, bi, bk⟩ := st
  by_cases hlt : bd < -(eps : α)
  · obtain ⟨_, _, h3⟩ := scan_spec g t.route t.size hscan
    have hneg : bd < 0 := lt_trans hlt neg_eps_lt_zero
    obtain ⟨i, k, hi, hik, hk, hst, hd⟩ := h3 hneg
    have hk2 : k < t.tour_.length := hk
    simp only [Prod.mk.injEq] at hst
    refine ⟨({ tour_ := reverseSeg t.tour_ i k }, true), ?_⟩
    simp only [pass, hscan, Option.bind_eq_bind, Option.some_bind, hlt, if_true, hst.1, hst.2,
      Tour.twoOptSwap_natCast t (by omega : i ≤ k + 1) (by omega : k + 1 ≤ t.tour_.length)]
    rfl
  · refine ⟨(t, false), ?_⟩
    simp only [pass, hscan, Option.bind_eq_bind, Option.some_bind, hlt, if_false]
    rfl

end TSPSolver

namespace TSPSolver

theorem run2OptLoop_succ
    [LinearOrder α] [Add α] [Sub α] [Neg α] [Zero α] [Tolerance α]
    (g : Graph α) (fuel : Nat) (t : Tour) :
    run2OptLoop g (fuel + 1) t =
      (pass g t).bind (fun res => if res.2 then run2OptLoop g fuel res.1 else some res.1) := by
  rw [run2OptLoop]
  cases pass g t with
  | none => rfl
  | some res =>
    obtain ⟨t1, imp⟩ := res
    cases imp <;> rfl

/-- Induction principle for a returning run of the loop of `run2Opt`: a property
of (input, result) that holds when the first pass stops, and that is carried
backwards over a pass that swapped, holds of every returning run. -/
theorem run2OptLoop_induct
    [LinearOrder α] [Add α] [Sub α] [Neg α] [Zero α] [Tolerance α]
    {g : Graph α} (Q : Tour → Tour → Prop)
    (hstop : ∀ t, pass g t = some (t, false) → Q t t)
    (hswap : ∀ t t1 r, pass g t = some (t1, true) → Q t1 r → Q t r) :
    ∀ (fuel : Nat) (t r : Tour), run2OptLoop g fuel t = some r → Q t r := by
  intro fuel
  induction fuel with
  | zero => intro t r h; simp [run2OptLoop] at h
  | succ fuel ih =>
    intro t r h
    rw [run2OptLoop_succ] at h
    cases hp : pass g t with
    | none => simp [hp] at h
    | some res =>
      obtain ⟨t1, imp⟩ := res
      rw [hp] at h
      cases imp with
      | true =>
        simp only [Option.some_bind, if_true] at h
        exact hswap t t1 r hp (ih t1 r h)
      | false =>
        simp only [Option.some_bind] at h
        have e : t1 = r := by simpa using h
        subst e
        obtain ⟨st, _, hc⟩ := pass_eq_some hp
        rcases hc with ⟨_, e, _⟩ | ⟨hf, _, _⟩
        · subst e; exact hstop _ hp
        · cases hf

theorem run2OptLoop_perm
    [LinearOrder α] [Add α] [Sub α] [Neg α] [Zero α] [Tolerance α]
    {g : Graph α} {fuel : Nat} {t r : Tour}
    (h : run2OptLoop g fuel t = some r) : r.tour_.Perm t.tour_ :=
  run2OptLoop_induct (g := g) (fun t r => r.tour_.Perm t.tour_)
    (fun _ _ => List.Perm.refl _)
    (fun _ _ _ hp hq => hq.trans (pass_perm hp)) fuel t r h

/-- The last pass of a returning run found nothing to swap. -/
theorem run2OptLoop_final
    [LinearOrder α] [Add α] [Sub α] [Neg α] [Zero α] [Tolerance α]
    {g : Graph α} {fuel : Nat} {t r : Tour}
    (h : run2OptLoop g fuel t = some r) : pass g r = some (r, false) :=
  run2OptLoop_induct (g := g) (fun _ r => pass g r = some (r, false))
    (fun _ hp => hp) (fun _ _ _ _ hq => hq) fuel t r h

theorem run2OptLoop_of_stop
    [LinearOrder α] [Add α] [Sub α] [Neg α] [Zero α] [Tolerance α]
    {g : Graph α} {t : Tour}
    (h : pass g t = some (t, false)) (fuel : Nat) : run2OptLoop g (fuel + 1) t = some t := by
  rw [run2OptLoop_succ, h]; rfl

/-- More fuel does not change the result of a returning run. -/
theorem run2OptLoop_mono
    [LinearOrder α] [Add α] [Sub α] [Neg α] [Zero α] [Tolerance α]
    {g : Graph α} :
    ∀ (fuel : Nat) (t r : Tour), run2OptLoop g fuel t = some r →
      ∀ fuel2, fuel ≤ fuel2 → run2OptLoop g fuel2 t = some r := by
  intro fuel
  induction fuel with
  | zero => intro t r h; simp [run2OptLoop] at h
  | succ fuel ih =>
    intro t r h fuel2 hle
    obtain ⟨m, rfl⟩ : ∃ m, fuel2 = m + 1 := ⟨fuel2 - 1, by omega⟩
    rw [run2OptLoop_succ] at h ⊢
    cases hp : pass g t with
    | none => simp [hp] at h
    | some res =>
      obtain ⟨t1, imp⟩ := res
      rw [hp] at h
      cases imp with
      | true =>
        simp only [Option.some_bind, if_true] at h ⊢
        exact ih t1 r h m (by omega)
      | false => simpa using h

theorem run2OptLoop_le [LinearOrderedField α] {g : Graph α} (hg : g.WellFormed)
    (hs : g.Symmetric) {fuel : Nat} {t r : Tour} (ht : t.InRange g.size)
    (h : run2OptLoop g fuel t = some r) :
    cycleLen g.dist r.tour_ ≤ cycleLen g.dist t.tour_ := by
  have := run2OptLoop_induct (g := g)
    (fun t r => t.InRange g.size → cycleLen g.dist r.tour_ ≤ cycleLen g.dist t.tour_)
    (fun _ _ _ => le_refl _)
    (fun t t1 r hp hq ht => by
      have h1 := pass_decrease hg hs ht hp
      have h2 := hq (ht.of_perm (pass_perm hp))
      have := eps_pos (α := α)
      linarith) fuel t r h
  exact this ht

theorem countP_lt_countP {β : Type} (p q : β → Bool) (hpq : ∀ x, p x = true → q x = true)
    {x0 : β} (hq : q x0 = true) (hp : p x0 = false) :
    ∀ l : List β, x0 ∈ l → l.countP p < l.countP q := by
  intro l
  induction l with
  | nil => intro h; cases h
  | cons y l ih =>
    intro hmem
    have hle : l.countP p ≤ l.countP q := List.countP_mono_left (fun x _ => hpq x)
    by_cases hy : y = x0
    · subst hy
      rw [List.countP_cons_of_neg _ _ (by simp [hp]), List.countP_cons_of_pos _ _ hq]
      omega
    · have hx : x0 ∈ l := by
        rcases List.mem_cons.mp hmem with h | h
        · exact absurd h.symm hy
        · exact h
      have := ih hx
      by_cases hpy : p y = true
      · rw [List.countP_cons_of_pos _ _ hpy, List.countP_cons_of_pos _ _ (hpq y hpy)]
        omega
      · rw [List.countP_cons_of_neg _ _ hpy]
        by_cases hqy : q y = true
        · rw [List.countP_cons_of_pos _ _ hqy]; omega
        · rw [List.countP_cons_of_neg _ _ hqy]; exact this

/-- The loop of `run2Opt` returns on every tour over the nodes of a well-formed
symmetric graph: each swapping pass strictly shortens the tour, so no
rearrangement of the route is visited twice, and there are finitely many
(the number of passes is at most the number of rearrangements plus one). -/
theorem run2OptLoop_terminates [LinearOrderedField α] {g : Graph α} (hg : g.WellFormed)
    (hs : g.Symmetric) {t : Tour} (ht : t.InRange g.size) :
    ∃ fuel r, fuel ≤ t.tour_.permutations.length + 1 ∧ run2OptLoop g fuel t = some r := by
  let mu : Tour → Nat := fun s =>
    t.tour_.permutations.countP (fun p => decide (cycleLen g.dist p < cycleLen g.dist s.tour_))
  have key : ∀ m : Nat, ∀ s : Tour, s.tour_.Perm t.tour_ → mu s ≤ m →
      ∃ fuel r, fuel ≤ m + 1 ∧ run2OptLoop g fuel s = some r := by
    intro m
    induction m with
    | zero =>
      intro s hperm hmu
      have hsr : s.InRange g.size := ht.of_perm hperm
      obtain ⟨⟨s1, imp⟩, hp⟩ := pass_isSome hg hsr
      cases imp with
      | false =>
        obtain ⟨st, _, hc⟩ := pass_eq_some hp
        rcases hc with ⟨_, e, _⟩ | ⟨hf, _, _⟩
        · subst e; exact ⟨1, s1, le_refl _, run2OptLoop_of_stop hp 0⟩
        · cases hf
      | true =>
        exfalso
        have hdec := pass_decrease hg hs hsr hp
        have h1 : s1.tour_ ∈ t.tour_.permutations :=
          List.mem_permutations.mpr ((pass_perm hp).trans hperm)
        have : 0 < mu s := List.countP_pos_iff.mpr ⟨s1.tour_, h1, by
          have := eps_pos (α := α)
          simp only [decide_eq_true_eq]; linarith⟩
        omega
    | succ m ih =>
      intro s hperm hmu
      have hsr : s.InRange g.size := ht.of_perm hperm
      obtain ⟨⟨s1, imp⟩, hp⟩ := pass_isSome hg hsr
      cases imp with
      | false =>
        obtain ⟨st, _, hc⟩ := pass_eq_some hp
        rcases hc with ⟨_, e, _⟩ | ⟨hf, _, _⟩
        · subst e; exact ⟨1, s1, by omega, run2OptLoop_of_stop hp 0⟩
        · cases hf
      | true =>
        have hdec := pass_decrease hg hs hsr hp
        have hpos := eps_pos (α := α)
        have hperm1 : s1.tour_.Perm t.tour_ := (pass_perm hp).trans hperm
        have h1 : s1.tour_ ∈ t.tour_.permutations := List.mem_permutations.mpr hperm1
        have hlt : mu s1 < mu s := by
          apply countP_lt_countP _ _ _ _ _ _ h1
          · intro x hx
            simp only [decide_eq_true_eq] at hx ⊢
            linarith
          · simp only [decide_eq_true_eq]; linarith
          · simp
        obtain ⟨fuel, r, hfuel, hr⟩ := ih s1 hperm1 (by omega)
        refine ⟨fuel + 1, r, by omega, ?_⟩
        rw [run2OptLoop_succ, hp]
        simpa using hr
  have hmu : mu t ≤ t.tour_.permutations.length := List.countP_le_length _
  exact key _ t (List.Perm.refl _) hmu

end TSPSolver

theorem idRoute_length (n : Nat) : (idRoute n).length = n := by simp [idRoute]

theorem idRoute_getElem? {n j : Nat} (h : j < n) : (idRoute n)[j]? = some (j : Int) := by
  simp [idRoute, List.getElem?_map, List.getElem?_range h]

/-- The constructor `Tour(n)` always succeeds and builds the identity route. -/
theorem Tour.ctor_eq (n : Nat) : Tour.ctor n = some { tour_ := idRoute n } := by
  obtain ⟨r, hr, hlen, hP⟩ := foldlM_range'_total
    (fun (r : List Int) (i : Nat) => vecSet r i (i : Int))
    (fun i r => r.length = n ∧ ∀ j, j < n → r[j]? = some (if j < i then (j : Int) else 0))
    n 0 (List.replicate n (0 : Int))
    (by
      refine ⟨by simp, ?_⟩
      intro j hj
      simp [List.getElem?_replicate, hj])
    (fun i r _ hi hP => by
      have hil : i < r.length := by rw [hP.1]; omega
      refine ⟨r.set i (i : Int), by simp [vecSet_natCast, hil], by simp [hP.1], ?_⟩
      intro j hj
      rw [List.getElem?_set]
      by_cases hij : i = j
      · subst hij; simp [hil]
      · rw [if_neg hij, hP.2 j hj]
        have : (j < i + 1) ↔ (j < i) := by omega
        simp only [this])
  have : r = idRoute n := by
    apply List.ext_getElem?
    intro j
    by_cases hj : j < n
    · rw [hP j hj, idRoute_getElem? hj, if_pos (by omega)]
    · rw [List.getElem?_eq_none (by omega), List.getElem?_eq_none (by
        rw [idRoute_length]; omega)]
  subst this
  simp only [Tour.ctor, hr, Option.bind_eq_bind, Option.some_bind]
  rfl

namespace TSPSolver

theorem nnScanStep_spec [LinearOrder α] {g : Graph α} (hg : g.WellFormed) {P : List Int}
    {visited : List Bool} {current : Int}
    (hv : ∀ j, j < g.size → visited[j]? = some (decide ((j : Int) ∈ P)))
    (hc : 0 ≤ current ∧ current < (g.size : Int)) [Zero α] {j : Nat} (hj : j < g.size)
    {st : WithTop α × Int} (hP : NNScanInv g P current j st) :
    ∃ st1, nnScanStep g visited current st j = some st1 ∧ NNScanInv g P current (j + 1) st1 := by
  have hjr : 0 ≤ (j : Int) ∧ (j : Int) < (g.size : Int) := ⟨by omega, by omega⟩
  have hd := Graph.distance_isSome hg hc hjr
  by_cases hmem : (j : Int) ∈ P
  · refine ⟨st, by simp [nnScanStep, vecGet_natCast, hv j hj, hmem], ?_⟩
    rcases hP with ⟨h1, h2, h3⟩ | ⟨m, d, hm, h2, h3, h4, h5, h6⟩
    · refine Or.inl ⟨h1, h2, ?_⟩
      intro j2 hj2
      rcases Nat.lt_succ_iff_lt_or_eq.mp hj2 with h | h
      · exact h3 j2 h
      · subst h; exact hmem
    · refine Or.inr ⟨m, d, by omega, h2, h3, h4, h5, ?_⟩
      intro j2 hj2 hn
      rcases Nat.lt_succ_iff_lt_or_eq.mp hj2 with h | h
      · exact h6 j2 h hn
      · subst h; exact absurd hmem hn
  · by_cases hlt : ((g.dist current j : α) : WithTop α) < st.1
    · refine ⟨(((g.dist current j : α) : WithTop α), (j : Int)),
        by simp [nnScanStep, vecGet_natCast, hv j hj, hmem, hd, hlt], ?_⟩
      refine Or.inr ⟨j, g.dist current j, by omega, rfl, hmem, hd, rfl, ?_⟩
      intro j2 hj2 hn
      rcases Nat.lt_succ_iff_lt_or_eq.mp hj2 with h | h
      · rcases hP with ⟨_, _, h3⟩ | ⟨m, d, hm, h2, h3, h4, h5, h6⟩
        · exact absurd (h3 j2 h) hn
        · obtain ⟨d2, hd2, hle, _⟩ := h6 j2 h hn
          rw [h5, WithTop.coe_lt_coe] at hlt
          refine ⟨d2, hd2, le_of_lt (lt_of_lt_of_le hlt hle), ?_⟩
          intro e
          rw [e] at hle
          exact absurd hlt (not_lt.mpr hle)
      · subst h
        exact ⟨_, hd, le_refl _, fun _ => le_refl _⟩
    · refine ⟨st, by simp [nnScanStep, vecGet_natCast, hv j hj, hmem, hd, hlt], ?_⟩
      rcases hP with ⟨h1, _, _⟩ | ⟨m, d, hm, h2, h3, h4, h5, h6⟩
      · rw [h1] at hlt
        exact absurd (WithTop.coe_lt_top _) hlt
      · refine Or.inr ⟨m, d, by omega, h2, h3, h4, h5, ?_⟩
        intro j2 hj2 hn
        rcases Nat.lt_succ_iff_lt_or_eq.mp hj2 with h | h
        · exact h6 j2 h hn
        · subst h
          rw [h5, WithTop.coe_lt_coe] at hlt
          exact ⟨_, hd, not_lt.mp hlt, fun _ => le_of_lt hm⟩

/-- The inner scan of `runNearestNeighbor`, run while some node is still
unvisited, succeeds and leaves in `nextNode` a node chosen by `NNChoice`. -/
theorem nnScan_spec [LinearOrder α] [Zero α] {g : Graph α} (hg : g.WellFormed) {P : List Int}
    {visited : List Bool} {current : Int}
    (hv : ∀ j, j < g.size → visited[j]? = some (decide ((j : Int) ∈ P)))
    (hc : 0 ≤ current ∧ current < (g.size : Int))
    (hex : ∃ j : Nat, j < g.size ∧ (j : Int) ∉ P) :
    ∃ st, (List.range' 0 g.size).foldlM (nnScanStep g visited current)
        ((⊤ : WithTop α), (-1 : Int)) = some st ∧ NNChoice g g.size P current st.2 := by
  obtain ⟨st, hst, hP⟩ := foldlM_range'_total (nnScanStep g visited current)
    (fun j st => NNScanInv g P current j st) g.size 0 ((⊤ : WithTop α), (-1 : Int))
    (Or.inl ⟨rfl, rfl, fun j2 h => absurd h (Nat.not_lt_zero _)⟩)
    (fun j s _ hj hs => nnScanStep_spec hg hv hc (by omega) hs)
  refine ⟨st, hst, ?_⟩
  rw [Nat.zero_add] at hP
  rcases hP with ⟨_, _, h3⟩ | ⟨m, d, hm, h2, h3, h4, _, h6⟩
  · obtain ⟨j, hj, hn⟩ := hex
    exact absurd (h3 j hj) hn
  · rw [h2]
    refine ⟨by omega, by omega, h3, d, h4, ?_⟩
    intro y hy0 hyn hyP
    obtain ⟨j2, rfl⟩ := Int.eq_ofNat_of_zero_le hy0
    obtain ⟨d2, hd2, hle, hfirst⟩ := h6 j2 (by omega) hyP
    exact ⟨d2, hd2, hle, fun e => by have := hfirst e; omega⟩

end TSPSolver

theorem idRoute_nodup (n : Nat) : (idRoute n).Nodup :=
  List.Nodup.map (fun a b h => by simpa using h) (List.nodup_range n)

theorem mem_idRoute {n : Nat} {x : Int} : x ∈ idRoute n ↔ 0 ≤ x ∧ x < (n : Int) := by
  simp only [idRoute, List.mem_map, List.mem_range]
  constructor
  · rintro ⟨a, ha, rfl⟩; omega
  · rintro ⟨h0, h1⟩
    exact ⟨x.toNat, by omega, by omega⟩

/-- Fewer than `n` entries cannot cover all `n` node indices. -/
theorem exists_not_mem_of_length_lt {P : List Int} {n : Nat} (h : P.length < n) :
    ∃ j : Nat, j < n ∧ (j : Int) ∉ P := by
  by_contra hcon
  push_neg at hcon
  have hsub : idRoute n ⊆ P := by
    intro x hx
    obtain ⟨h0, h1⟩ := mem_idRoute.mp hx
    obtain ⟨j, rfl⟩ := Int.eq_ofNat_of_zero_le h0
    exact hcon j (by omega)
  have := (List.subperm_of_subset (idRoute_nodup n) hsub).length_le
  rw [idRoute_length] at this
  omega

/-- Distinct node indices, `n` of them, are a rearrangement of `0..n-1`. -/
theorem perm_idRoute_of_nodup {r : List Int} {n : Nat} (hlen : r.length = n) (hnd : r.Nodup)
    (hr : ∀ x ∈ r, 0 ≤ x ∧ x < (n : Int)) : r.Perm (idRoute n) := by
  have hsub : r ⊆ idRoute n := fun x hx => mem_idRoute.mpr (hr x hx)
  exact (List.subperm_of_subset hnd hsub).perm_of_length_le (by
    rw [idRoute_length, hlen])

theorem take_set_of_le {β : Type} (l : List β) {m i : Nat} (h : m ≤ i) (x : β) :
    (l.set i x).take m = l.take m := by
  apply List.ext_getElem?
  intro j
  by_cases hj : j < m
  · rw [List.getElem?_take_of_lt hj, List.getElem?_take_of_lt hj,
      List.getElem?_set_ne (by omega)]
  · rw [List.getElem?_eq_none (by simp; omega), List.getElem?_eq_none (by simp; omega)]

theorem take_succ_set {β : Type} (l : List β) {i : Nat} (h : i < l.length) (x : β) :
    (l.set i x).take (i + 1) = l.take i ++ [x] := by
  rw [take_succ_getElem _ (by simpa using h), take_set_of_le l (le_refl _)]
  simp

namespace TSPSolver

theorem nnStep_spec [LinearOrder α] [Zero α] {g : Graph α} (hg : g.WellFormed) {start : Int}
    {i : Nat} (hi : 1 ≤ i) (hin : i < g.size) {st : List Int × List Bool × Int}
    (hP : NNInv g start i st) :
    ∃ st1, nnStep g g.size st i = some st1 ∧ NNInv g start (i + 1) st1 := by
  obtain ⟨route, visited, current⟩ := st
  obtain ⟨ha, hb, hc, hd, he, hf, hg0, hh⟩ := hP
  simp only at ha hb hc hd he hf hg0 hh
  have hil : i < route.length := by omega
  have hcur : current ∈ route.take i := by
    rw [List.mem_iff_getElem?]
    exact ⟨i - 1, by rw [List.getElem?_take_of_lt (by omega), hf]⟩
  have hex : ∃ j : Nat, j < g.size ∧ (j : Int) ∉ route.take i :=
    exists_not_mem_of_length_lt (by rw [List.length_take]; omega)
  obtain ⟨⟨bd, x⟩, hscan, hch⟩ := nnScan_spec hg he (hd current hcur) hex
  simp only at hch
  obtain ⟨hx0, hxn, hxP, _⟩ := id hch
  obtain ⟨xn, rfl⟩ := Int.eq_ofNat_of_zero_le hx0
  have hxl : xn < visited.length := by omega
  refine ⟨(route.set i (xn : Int), visited.set xn true, (xn : Int)), ?_, ?_⟩
  · simp only [nnStep, hscan, Option.bind_eq_bind, Option.some_bind, vecSet_natCast, hil, hxl,
      if_true]
    rfl
  · have htake : (route.set i (xn : Int)).take (i + 1) = route.take i ++ [(xn : Int)] :=
      take_succ_set route hil _
    refine ⟨by simpa using ha, by simpa using hb, ?_, ?_, ?_, ?_, ?_, ?_⟩
    · show ((route.set i (xn : Int)).take (i + 1)).Nodup
      rw [htake]
      exact List.Nodup.append hc (List.nodup_singleton _) (by
        intro y hy hy2
        rw [List.mem_singleton] at hy2
        subst hy2
        exact hxP hy)
    · show ∀ y ∈ (route.set i (xn : Int)).take (i + 1), _
      rw [htake]
      intro y hy
      rcases List.mem_append.mp hy with h | h
      · exact hd y h
      · rw [List.mem_singleton] at h; subst h; exact ⟨hx0, hxn⟩
    · show ∀ j, j < g.size → (visited.set xn true)[j]? =
        some (decide ((j : Int) ∈ (route.set i (xn : Int)).take (i + 1)))
      rw [htake]
      intro j hj
      rw [List.getElem?_set]
      by_cases hxj : xn = j
      · subst hxj; simp [hxl]
      · rw [if_neg hxj, he j hj]
        have : (j : Int) ≠ (xn : Int) := by omega
        simp [this]
    · show (route.set i (xn : Int))[i + 1 - 1]? = some (xn : Int)
      simp [hil]
    · show (route.set i (xn : Int))[0]? = some start
      rw [List.getElem?_set_ne (by omega)]; exact hg0
    · show ∀ m, 1 ≤ m → m < i + 1 → NNChoice g g.size ((route.set i (xn : Int)).take m)
        ((route.set i (xn : Int)).getD (m - 1) 0) ((route.set i (xn : Int)).getD m 0)
      intro m hm1 hm2
      rw [take_set_of_le route (by omega : m ≤ i)]
      have e1 : (route.set i (xn : Int)).getD (m - 1) 0 = route.getD (m - 1) 0 := by
        rw [List.getD_eq_getElem?_getD, List.getD_eq_getElem?_getD,
          List.getElem?_set_ne (by omega)]
      rw [e1]
      rcases Nat.lt_succ_iff_lt_or_eq.mp hm2 with h | h
      · have e2 : (route.set i (xn : Int)).getD m 0 = route.getD m 0 := by
          rw [List.getD_eq_getElem?_getD, List.getD_eq_getElem?_getD,
            List.getElem?_set_ne (by omega)]
        rw [e2]
        exact hh m hm1 h
      · subst h
        have e2 : (route.set m (xn : Int)).getD m 0 = (xn : Int) := by
          rw [List.getD_eq_getElem?_getD, List.getElem?_set_self hil]; rfl
        have e3 : route.getD (m - 1) 0 = current := by
          rw [List.getD_eq_getElem?_getD, hf]; rfl
        rw [e2, e3]
        exact hch

end TSPSolver

namespace TSPSolver

/-- What `runNearestNeighbor` returns on a graph with at least one node, from a
valid start: a route of `n` distinct nodes beginning at `start`, each later
entry chosen by `NNChoice` from the entries before it. -/
theorem runNearestNeighbor_spec [LinearOrder α] [Zero α] {g : Graph α} (hg : g.WellFormed)
    (hn : 1 ≤ g.size) {start : Int} (hs : 0 ≤ start ∧ start < (g.size : Int)) :
    ∃ r, runNearestNeighbor g start = some r ∧ r.tour_.length = g.size ∧
      r.tour_[0]? = some start ∧ r.tour_.Nodup ∧
      (∀ x ∈ r.tour_, 0 ≤ x ∧ x < (g.size : Int)) ∧
      ∀ m, 1 ≤ m → m < g.size →
        NNChoice g g.size (r.tour_.take m) (r.tour_.getD (m - 1) 0) (r.tour_.getD m 0) := by
  obtain ⟨sn, rfl⟩ := Int.eq_ofNat_of_zero_le hs.1
  have hsn : sn < g.size := by omega
  have h0 : 0 < (idRoute g.size).length := by rw [idRoute_length]; omega
  have hinit : NNInv g (sn : Int) 1
      ((idRoute g.size).set 0 (sn : Int), (List.replicate g.size false).set sn true,
        (sn : Int)) := by
    have htake : ((idRoute g.size).set 0 (sn : Int)).take 1 = [(sn : Int)] := by
      have := take_succ_set (idRoute g.size) h0 (sn : Int)
      simpa using this
    refine ⟨by simp [idRoute_length], by simp, ?_, ?_, ?_, ?_, ?_, ?_⟩
    · show (((idRoute g.size).set 0 (sn : Int)).take 1).Nodup
      rw [htake]; exact List.nodup_singleton _
    · show ∀ x ∈ ((idRoute g.size).set 0 (sn : Int)).take 1, _
      rw [htake]
      intro x hx
      rw [List.mem_singleton] at hx
      subst hx; exact hs
    · show ∀ j, j < g.size → ((List.replicate g.size false).set sn true)[j]? =
        some (decide ((j : Int) ∈ ((idRoute g.size).set 0 (sn : Int)).take 1))
      rw [htake]
      intro j hj
      rw [List.getElem?_set]
      by_cases hxj : sn = j
      · subst hxj; simp [hsn]
      · rw [if_neg hxj, List.getElem?_replicate, if_pos hj]
        have : (j : Int) ≠ (sn : Int) := by omega
        simp [this]
    · show ((idRoute g.size).set 0 (sn : Int))[1 - 1]? = some (sn : Int)
      simp [h0]
    · show ((idRoute g.size).set 0 (sn : Int))[0]? = some (sn : Int)
      simp [h0]
    · intro m hm1 hm2
      omega
  obtain ⟨⟨route, visited, current⟩, hloop, hfin⟩ := foldlM_range'_total (nnStep g g.size)
    (fun i st => NNInv g (sn : Int) i st) (g.size - 1) 1 _ hinit
    (fun i st hi1 hi2 hP => nnStep_spec hg hi1 (by omega) hP)
  have e : 1 + (g.size - 1) = g.size := by omega
  rw [e] at hfin
  obtain ⟨ha, _, hc, hd, _, _, hg0, hh⟩ := hfin
  simp only at ha hc hd hg0 hh
  have hfull : route.take g.size = route := List.take_of_length_le (by omega)
  rw [hfull] at hc hd
  refine ⟨{ tour_ := route }, ?_, ha, hg0, hc, hd, hh⟩
  have e0 : (0 : Int) = ((0 : Nat) : Int) := rfl
  simp only [runNearestNeighbor, Tour.ctor_eq, Option.bind_eq_bind, Option.some_bind,
    Tour.route]
  rw [e0, vecSet_natCast, if_pos h0]
  simp only [Option.some_bind, vecSet_natCast, List.length_replicate, hsn, if_true, hloop]
  rfl

end TSPSolver

namespace TSPSolver

theorem run2OptLoop_unique
    [LinearOrder α] [Add α] [Sub α] [Neg α] [Zero α] [Tolerance α]
    {g : Graph α} {t r1 r2 : Tour} {f1 f2 : Nat}
    (h1 : run2OptLoop g f1 t = some r1) (h2 : run2OptLoop g f2 t = some r2) : r1 = r2 := by
  rcases le_total f1 f2 with h | h
  · have := run2OptLoop_mono f1 t r1 h1 f2 h
    rw [h2] at this
    exact (Option.some.inj this).symm
  · have := run2OptLoop_mono f2 t r2 h2 f1 h
    rw [h1] at this
    exact Option.some.inj this

/-- The result of a returning run is a local optimum. -/
theorem localOpt_of_returns
    [LinearOrder α] [Add α] [Sub α] [Neg α] [Zero α] [Tolerance α]
    {g : Graph α} {fuel : Nat} {t r : Tour}
    (h : run2OptLoop g fuel t = some r) : LocalOpt g r := by
  obtain ⟨st, hscan, hc⟩ := pass_eq_some (run2OptLoop_final h)
  rcases hc with ⟨_, _, hnlt⟩ | ⟨hf, _, _⟩
  · obtain ⟨_, h2, _⟩ := scan_spec g r.route r.size hscan
    intro i k hi hik hk
    obtain ⟨dl, hdl, hle⟩ := h2 i k hi hik hk
    exact ⟨dl, hdl, fun hlt => hnlt (lt_of_le_of_lt hle hlt)⟩
  · cases hf

/-- On a local optimum the first pass finds nothing to swap. -/
theorem pass_of_localOpt
    [LinearOrder α] [Add α] [Sub α] [Neg α] [Zero α] [Tolerance α]
    {g : Graph α} {t : Tour}
    (h : LocalOpt g t) : pass g t = some (t, false) := by
  obtain ⟨st, hscan⟩ := scan_isSome g t.route t.size (fun i k hi hik hk => by
    obtain ⟨dl, hdl, _⟩ := h i k hi hik hk
    exact ⟨dl, hdl⟩)
  obtain ⟨_, _, h3⟩ := scan_spec g t.route t.size hscan
  have hnlt : ¬ st.1 < -(eps : α) := by
    intro hlt
    have hneg : st.1 < 0 := lt_trans hlt neg_eps_lt_zero
    obtain ⟨i, k, hi, hik, hk, _, hd⟩ := h3 hneg
    obtain ⟨dl, hdl, hn⟩ := h i k hi hik hk
    rw [hd] at hdl
    cases hdl
    exact hn hlt
  obtain ⟨bd, bi, bk⟩ := st
  simp only [pass, hscan, Option.bind_eq_bind, Option.some_bind]
  simp only at hnlt
  rw [if_neg hnlt]
  rfl

end TSPSolver

theorem reverseSeg_append (A S D : List Int) {i k : Nat} (hA : A.length = i)
    (hS : S.length = k + 1 - i) (hik : i ≤ k + 1) :
    reverseSeg (A ++ S ++ D) i k = A ++ S.reverse ++ D := by
  unfold reverseSeg
  have h1 : (A ++ S ++ D).take i = A := by
    rw [List.append_assoc, List.take_left' hA]
  have h2 : (A ++ S ++ D).drop i = S ++ D := by
    rw [List.append_assoc, List.drop_left' hA]
  have h3 : (S ++ D).take (k + 1 - i) = S := List.take_left' hS
  have h4 : (A ++ S ++ D).drop (k + 1) = D := by
    apply List.drop_left'
    rw [List.length_append, hA, hS]; omega
  rw [h1, h2, h3, h4]

theorem reverseSeg_reverseSeg (r : List Int) {i k : Nat} (hik : i ≤ k + 1)
    (hk : k + 1 ≤ r.length) : reverseSeg (reverseSeg r i k) i k = r := by
  have hsplit : r = r.take i ++ (r.drop i).take (k + 1 - i) ++ r.drop (k + 1) := by
    have := List.take_add r i (k + 1 - i)
    rw [Nat.add_sub_cancel' hik] at this
    rw [← this, List.take_append_drop]
  have hA : (r.take i).length = i := by rw [List.length_take]; omega
  have hS : ((r.drop i).take (k + 1 - i)).length = k + 1 - i := by
    rw [List.length_take, List.length_drop]; omega
  have e1 : reverseSeg r i k
      = r.take i ++ ((r.drop i).take (k + 1 - i)).reverse ++ r.drop (k + 1) := rfl
  rw [e1, reverseSeg_append _ _ _ hA (by rw [List.length_reverse, hS]) hik,
    List.reverse_reverse, ← hsplit]

theorem reverseSeg_length (r : List Int) {i k : Nat} (hik : i ≤ k + 1) :
    (reverseSeg r i k).length = r.length := by
  have := (reverse_window_perm r hik).length_eq
  simpa [reverseSeg] using this

/-! ## Nearest-neighbour construction -/

/-- C1: on a graph with `n ≥ 1` nodes (an `n × n` matrix of finite distances, as
the constructor builds) and a start with `0 ≤ start < n`, `runNearestNeighbor`
returns a tour whose route has length `n`, has `route[0] = start`, and is a
permutation of `0..n-1`: every index appears exactly once. -/
theorem TSPSolver.runNearestNeighbor_permutation [LinearOrderedField α] (g : Graph α)
    (start : Int) (hg : g.WellFormed) (hn : 1 ≤ g.size) (hs0 : 0 ≤ start)
    (hs1 : start < (g.size : Int)) :
    ∃ r, TSPSolver.runNearestNeighbor g start = some r ∧ r.route.length = g.size ∧
      r.route[0]? = some start ∧ r.route.Perm (idRoute g.size) ∧
      ∀ j : Nat, j < g.size → r.route.count (j : Int) = 1 := by
  obtain ⟨r, hr, hlen, h0, hnd, hrange, _⟩ :=
    TSPSolver.runNearestNeighbor_spec hg hn ⟨hs0, hs1⟩
  have hperm : r.tour_.Perm (idRoute g.size) := perm_idRoute_of_nodup hlen hnd hrange
  refine ⟨r, hr, hlen, h0, hperm, ?_⟩
  intro j hj
  have hmem : (j : Int) ∈ r.tour_ :=
    hperm.symm.subset (mem_idRoute.mpr ⟨by omega, by omega⟩)
  exact List.count_eq_one_of_mem hnd hmem

/-- Witness of C1 on the 3 × 4 rectangle, from corner 2. -/
theorem TSPSolver.runNearestNeighbor_permutation_witness :
    rectGraph.WellFormed ∧ 1 ≤ rectGraph.size ∧
    ∃ r, TSPSolver.runNearestNeighbor rectGraph 2 = some r ∧ r.route.length = rectGraph.size ∧
      r.route[0]? = some 2 ∧ r.route.Perm (idRoute rectGraph.size) ∧
      ∀ j : Nat, j < rectGraph.size → r.route.count (j : Int) = 1 :=
  ⟨by decide, by decide,
    TSPSolver.runNearestNeighbor_permutation rectGraph 2 (by decide) (by decide) (by decide)
      (by decide)⟩

/-- C7: at every step `1 ≤ i < n` of `runNearestNeighbor` the node `route[i]` is
not among `route[0..i-1]`, its distance from `route[i-1]` is minimal among the
nodes not in `route[0..i-1]`, and it is the smallest index among the unvisited
nodes at that minimal distance. -/
theorem TSPSolver.runNearestNeighbor_nearest_first [LinearOrderedField α] (g : Graph α)
    (start : Int) (hg : g.WellFormed) (hn : 1 ≤ g.size) (hs0 : 0 ≤ start)
    (hs1 : start < (g.size : Int)) :
    ∃ r, TSPSolver.runNearestNeighbor g start = some r ∧
      ∀ i : Nat, 1 ≤ i → i < g.size →
        ∃ cur x d, r.route[i - 1]? = some cur ∧ r.route[i]? = some x ∧
          x ∉ r.route.take i ∧ g.distance cur x = some d ∧
          ∀ y : Int, 0 ≤ y → y < (g.size : Int) → y ∉ r.route.take i →
            ∃ d2, g.distance cur y = some d2 ∧ d ≤ d2 ∧ (d2 = d → x ≤ y) := by
  obtain ⟨r, hr, hlen, _, _, _, hch⟩ := TSPSolver.runNearestNeighbor_spec hg hn ⟨hs0, hs1⟩
  refine ⟨r, hr, ?_⟩
  intro i hi1 hi2
  obtain ⟨_, _, hnot, d, hd, hmin⟩ := hch i hi1 hi2
  have h1 : i - 1 < r.tour_.length := by omega
  have h2 : i < r.tour_.length := by omega
  refine ⟨r.tour_.getD (i - 1) 0, r.tour_.getD i 0, d, ?_, ?_, hnot, hd, hmin⟩
  · rw [getD_eq_getElem _ h1]; exact List.getElem?_eq_getElem h1
  · rw [getD_eq_getElem _ h2]; exact List.getElem?_eq_getElem h2

/-- Witness of C7 on the 3 × 4 rectangle, from corner 0. -/
theorem TSPSolver.runNearestNeighbor_nearest_first_witness :
    rectGraph.WellFormed ∧ 1 ≤ rectGraph.size ∧
    ∃ r, TSPSolver.runNearestNeighbor rectGraph 0 = some r ∧
      ∀ i : Nat, 1 ≤ i → i < rectGraph.size →
        ∃ cur x d, r.route[i - 1]? = some cur ∧ r.route[i]? = some x ∧
          x ∉ r.route.take i ∧ rectGraph.distance cur x = some d ∧
          ∀ y : Int, 0 ≤ y → y < (rectGraph.size : Int) → y ∉ r.route.take i →
            ∃ d2, rectGraph.distance cur y = some d2 ∧ d ≤ d2 ∧ (d2 = d → x ≤ y) :=
  ⟨by decide, by decide,
    TSPSolver.runNearestNeighbor_nearest_first rectGraph 0 (by decide) (by decide) (by decide)
      (by decide)⟩

/-! ## 2-opt local search -/

/-- C2: when the input route is a permutation of `0..n-1`, every route that
`run2Opt` returns has the same length `n` and is again a permutation of `0..n-1`,
a rearrangement of the input route; and on a graph as the constructor builds
(square symmetric matrix, at least `n` nodes) `run2Opt` does return. -/
theorem TSPSolver.run2Opt_permutation [LinearOrderedField α] (g : Graph α) (t : Tour)
    (n : Nat) (hperm : t.route.Perm (idRoute n)) :
    (∀ fuel r, TSPSolver.run2Opt fuel g t = some r →
      r.route.length = n ∧ r.route.Perm (idRoute n) ∧ r.route.Perm t.route) ∧
    (g.WellFormed → g.Symmetric → n ≤ g.size →
      ∃ fuel r, TSPSolver.run2Opt fuel g t = some r) := by
  constructor
  · intro fuel r h
    have hp : r.tour_.Perm t.tour_ := TSPSolver.run2OptLoop_perm h
    have hp2 : r.tour_.Perm (idRoute n) := hp.trans hperm
    exact ⟨by rw [Tour.route, hp2.length_eq, idRoute_length], hp2, hp⟩
  · intro hg hs hn
    have ht : t.InRange g.size := by
      intro x hx
      obtain ⟨h0, h1⟩ := mem_idRoute.mp (hperm.subset hx)
      exact ⟨h0, by omega⟩
    obtain ⟨fuel, r, _, hr⟩ := TSPSolver.run2OptLoop_terminates hg hs ht
    exact ⟨fuel, r, hr⟩

/-- Witness of C2: the crossing tour `0, 2, 1, 3` of the 3 × 4 rectangle. -/
theorem TSPSolver.run2Opt_permutation_witness :
    (Tour.mk [0, 2, 1, 3]).route.Perm (idRoute 4) ∧
    TSPSolver.run2Opt 2 rectGraph (Tour.mk [0, 2, 1, 3]) = some (Tour.mk [0, 1, 2, 3]) ∧
    ((Tour.mk [0, 1, 2, 3]).route.length = 4 ∧ (Tour.mk [0, 1, 2, 3]).route.Perm (idRoute 4) ∧
      (Tour.mk [0, 1, 2, 3]).route.Perm (Tour.mk [0, 2, 1, 3]).route) ∧
    ∃ fuel r, TSPSolver.run2Opt fuel rectGraph (Tour.mk [0, 2, 1, 3]) = some r :=
  ⟨by decide, by decide!,
    (TSPSolver.run2Opt_permutation rectGraph (Tour.mk [0, 2, 1, 3]) 4 (by decide)).1 2 _
      (by decide!),
    (TSPSolver.run2Opt_permutation rectGraph (Tour.mk [0, 2, 1, 3]) 4 (by decide)).2
      (by decide) (by decide!) (by decide)⟩

/-- C3: on the graph the constructor builds from a list of points (exact
arithmetic) and an input tour over its node indices, `run2Opt` returns a tour
that is not longer than the input: `length(run2Opt(g, t)) ≤ length(t)`. -/
theorem TSPSolver.run2Opt_length_le [LinearOrderedField α] (hypot : α → α → α)
    (points : List (Point α)) (t : Tour) (ht : t.InRange points.length) :
    ∃ g, Graph.ctor hypot points = some g ∧
      ∃ fuel r L L2, TSPSolver.run2Opt fuel g t = some r ∧
        t.length g = some L ∧ r.length g = some L2 ∧ L2 ≤ L := by
  obtain ⟨g, hctor⟩ := Graph.ctor_isSome hypot points
  have hg := Graph.ctor_wellFormed hctor
  have hs := Graph.ctor_symmetric hctor
  have ht2 : t.InRange g.size := by rw [Graph.ctor_size hctor]; exact ht
  obtain ⟨fuel, r, _, hr⟩ := TSPSolver.run2OptLoop_terminates hg hs ht2
  have hr2 : r.InRange g.size := ht2.of_perm (TSPSolver.run2OptLoop_perm hr)
  exact ⟨g, hctor, fuel, r, _, _, hr, Tour.length_eq_cycleLen hg ht2,
    Tour.length_eq_cycleLen hg hr2, TSPSolver.run2OptLoop_le hg hs ht2 hr⟩

/-- Witness of C3: the crossing tour `0, 2, 1, 3` of the unit square, with the
Euclidean `hypot` on the reals. -/
theorem TSPSolver.run2Opt_length_le_witness :
    (Tour.mk [0, 2, 1, 3]).InRange (unitSquare (α := ℝ)).length ∧
    ∃ g, Graph.ctor (fun dx dy : ℝ => Real.sqrt (dx * dx + dy * dy)) unitSquare = some g ∧
      ∃ fuel r L L2, TSPSolver.run2Opt fuel g (Tour.mk [0, 2, 1, 3]) = some r ∧
        (Tour.mk [0, 2, 1, 3]).length g = some L ∧ r.length g = some L2 ∧ L2 ≤ L :=
  ⟨by decide, TSPSolver.run2Opt_length_le _ unitSquare (Tour.mk [0, 2, 1, 3]) (by decide)⟩

/-- C4: the route `r` that `run2Opt` returns is a 2-opt local optimum: at every
pair `(i, k)` with `1 ≤ i < k ≤ n-1` the value `delta` of the loop body is
defined and is not less than `-1e-9`. Only the order of the arithmetic is used,
so `delta` and `-1e-9` are the values the code computes in `double`. -/
theorem TSPSolver.run2Opt_local_optimum
    [LinearOrder α] [Add α] [Sub α] [Neg α] [Zero α] [Tolerance α]
    (g : Graph α) (t r : Tour)
    (fuel : Nat) (h : TSPSolver.run2Opt fuel g t = some r) (i k : Nat) (hi : 1 ≤ i)
    (hik : i < k) (hk : k < r.size) :
    ∃ dl, TSPSolver.delta g r.route r.size i k = some dl ∧ ¬ dl < -(TSPSolver.eps : α) :=
  TSPSolver.localOpt_of_returns h i k hi hik hk

/-- Witness of C4: the result on the crossing tour of the 3 × 4 rectangle, at the
pair `(1, 2)`. -/
theorem TSPSolver.run2Opt_local_optimum_witness :
    TSPSolver.run2Opt 2 rectGraph (Tour.mk [0, 2, 1, 3]) = some (Tour.mk [0, 1, 2, 3]) ∧
    ∃ dl, TSPSolver.delta rectGraph (Tour.mk [0, 1, 2, 3]).route (Tour.mk [0, 1, 2, 3]).size 1 2
        = some dl ∧ ¬ dl < -(TSPSolver.eps : ℚ) :=
  ⟨by decide!,
    TSPSolver.run2Opt_local_optimum rectGraph (Tour.mk [0, 2, 1, 3]) (Tour.mk [0, 1, 2, 3]) 2
      (by decide!) 1 2 (by decide) (by decide) (by decide)⟩

/-- C5: on the graph the constructor builds from a list of points (symmetric
distances, exact arithmetic) the `while` loop of `run2Opt` ends after finitely
many passes, at most one more than the number of rearrangements of the route;
and a pass from any tour over the nodes succeeds, and either applies a swap and
shortens the tour by more than `1e-9`, or leaves the tour as it is and ends the
loop. -/
theorem TSPSolver.run2Opt_terminates [LinearOrderedField α] (hypot : α → α → α)
    (points : List (Point α)) (t : Tour) (ht : t.InRange points.length) :
    ∃ g, Graph.ctor hypot points = some g ∧
      (∃ fuel r, fuel ≤ Nat.factorial t.size + 1 ∧ TSPSolver.run2Opt fuel g t = some r) ∧
      ∃ t1 improvement L L1, TSPSolver.pass g t = some (t1, improvement) ∧
        t.length g = some L ∧ t1.length g = some L1 ∧
        if improvement = true then L1 < L - TSPSolver.eps else t1 = t := by
  obtain ⟨g, hctor⟩ := Graph.ctor_isSome hypot points
  have hg := Graph.ctor_wellFormed hctor
  have hs := Graph.ctor_symmetric hctor
  have ht2 : t.InRange g.size := by rw [Graph.ctor_size hctor]; exact ht
  refine ⟨g, hctor, ?_, ?_⟩
  · obtain ⟨fuel, r, hf, hr⟩ := TSPSolver.run2OptLoop_terminates hg hs ht2
    rw [List.length_permutations] at hf
    exact ⟨fuel, r, hf, hr⟩
  · obtain ⟨⟨t1, imp⟩, hp⟩ := TSPSolver.pass_isSome hg ht2
    have ht1 : t1.InRange g.size := ht2.of_perm (TSPSolver.pass_perm hp)
    refine ⟨t1, imp, _, _, hp, Tour.length_eq_cycleLen hg ht2,
      Tour.length_eq_cycleLen hg ht1, ?_⟩
    cases imp with
    | true => simpa using TSPSolver.pass_decrease hg hs ht2 hp
    | false =>
      obtain ⟨st, _, hc⟩ := TSPSolver.pass_eq_some hp
      rcases hc with ⟨_, e, _⟩ | ⟨hf, _, _⟩
      · simpa using e
      · cases hf

/-- Witness of C5: the crossing tour `0, 2, 1, 3` of the unit square, with the
Euclidean `hypot` on the reals. -/
theorem TSPSolver.run2Opt_terminates_witness :
    (Tour.mk [0, 2, 1, 3]).InRange (unitSquare (α := ℝ)).length ∧
    ∃ g, Graph.ctor (fun dx dy : ℝ => Real.sqrt (dx * dx + dy * dy)) unitSquare = some g ∧
      (∃ fuel r, fuel ≤ Nat.factorial (Tour.mk [0, 2, 1, 3]).size + 1 ∧
        TSPSolver.run2Opt fuel g (Tour.mk [0, 2, 1, 3]) = some r) ∧
      ∃ t1 improvement L L1, TSPSolver.pass g (Tour.mk [0, 2, 1, 3]) = some (t1, improvement) ∧
        (Tour.mk [0, 2, 1, 3]).length g = some L ∧ t1.length g = some L1 ∧
        if improvement = true then L1 < L - TSPSolver.eps else t1 = Tour.mk [0, 2, 1, 3] :=
  ⟨by decide, TSPSolver.run2Opt_terminates _ unitSquare (Tour.mk [0, 2, 1, 3]) (by decide)⟩

/-- C9: `run2Opt` is idempotent. Run again on a route `r` it returned, with any
positive number of passes allowed, it returns `r` itself (so the length is the
same); more generally it returns unchanged every tour `s` in which no pair
`(i, k)` has `delta < -1e-9`. Only the order of the arithmetic is used, so
`delta` and `-1e-9` are the values the code computes in `double`. -/
theorem TSPSolver.run2Opt_idempotent
    [LinearOrder α] [Add α] [Sub α] [Neg α] [Zero α] [Tolerance α]
    (g : Graph α) (t r s : Tour)
    (fuel : Nat) (h : TSPSolver.run2Opt fuel g t = some r) (hs : TSPSolver.LocalOpt g s) :
    (∀ fuel2, TSPSolver.run2Opt (fuel2 + 1) g r = some r) ∧
    (∀ fuel2 r2, TSPSolver.run2Opt fuel2 g r = some r2 → r2 = r ∧ r2.length g = r.length g) ∧
    (∀ fuel2, TSPSolver.run2Opt (fuel2 + 1) g s = some s) := by
  have h1 : ∀ fuel2, TSPSolver.run2Opt (fuel2 + 1) g r = some r := fun fuel2 =>
    TSPSolver.run2OptLoop_of_stop (TSPSolver.run2OptLoop_final h) fuel2
  refine ⟨h1, ?_, fun fuel2 => TSPSolver.run2OptLoop_of_stop (TSPSolver.pass_of_localOpt hs) fuel2⟩
  intro fuel2 r2 h2
  have e : r2 = r := TSPSolver.run2OptLoop_unique h2 (h1 0)
  exact ⟨e, by rw [e]⟩

/-- Witness of C9: the crossing tour of the 3 × 4 rectangle, and the locally
optimal tour `0, 1, 2, 3`. -/
theorem TSPSolver.run2Opt_idempotent_witness :
    TSPSolver.run2Opt 2 rectGraph (Tour.mk [0, 2, 1, 3]) = some (Tour.mk [0, 1, 2, 3]) ∧
    TSPSolver.LocalOpt rectGraph (Tour.mk [0, 1, 2, 3]) ∧
    ((∀ fuel2, TSPSolver.run2Opt (fuel2 + 1) rectGraph (Tour.mk [0, 1, 2, 3])
        = some (Tour.mk [0, 1, 2, 3])) ∧
    (∀ fuel2 r2, TSPSolver.run2Opt fuel2 rectGraph (Tour.mk [0, 1, 2, 3]) = some r2 →
      r2 = Tour.mk [0, 1, 2, 3] ∧ r2.length rectGraph = (Tour.mk [0, 1, 2, 3]).length rectGraph) ∧
    (∀ fuel2, TSPSolver.run2Opt (fuel2 + 1) rectGraph (Tour.mk [0, 1, 2, 3])
        = some (Tour.mk [0, 1, 2, 3]))) :=
  have h : TSPSolver.run2Opt 2 rectGraph (Tour.mk [0, 2, 1, 3]) = some (Tour.mk [0, 1, 2, 3]) := by
    decide!
  ⟨h, TSPSolver.localOpt_of_returns h,
    TSPSolver.run2Opt_idempotent rectGraph (Tour.mk [0, 2, 1, 3]) (Tour.mk [0, 1, 2, 3])
      (Tour.mk [0, 1, 2, 3]) 2 h (TSPSolver.localOpt_of_returns h)⟩

/-! ## Segment reversal -/

/-- C10: for a tour of size `n` and `0 ≤ i ≤ k < n`, applying `twoOptSwap(i, k)`
twice in a row gives back exactly the original route. -/
theorem Tour.twoOptSwap_twice (t : Tour) (i k : Int) (hi : 0 ≤ i) (hik : i ≤ k)
    (hk : k < (t.size : Int)) :
    (t.twoOptSwap i k).bind (fun t1 => t1.twoOptSwap i k) = some t := by
  obtain ⟨a, rfl⟩ := Int.eq_ofNat_of_zero_le hi
  obtain ⟨b, rfl⟩ := Int.eq_ofNat_of_zero_le (le_trans hi hik)
  have hab : a ≤ b + 1 := by omega
  have hb : b + 1 ≤ t.tour_.length := by
    have : (b : Int) < (t.tour_.length : Int) := hk
    omega
  rw [Tour.twoOptSwap_natCast t hab hb, Option.some_bind,
    Tour.twoOptSwap_natCast _ hab (by simpa [reverseSeg_length _ hab] using hb)]
  simp only [reverseSeg_reverseSeg _ hab hb]

/-- Witness of C10: reversing positions `1..3` of `0, 1, 2, 3, 4` twice. -/
theorem Tour.twoOptSwap_twice_witness :
    (0 : Int) ≤ 1 ∧ (1 : Int) ≤ 3 ∧ (3 : Int) < ((Tour.mk [0, 1, 2, 3, 4]).size : Int) ∧
    ((Tour.mk [0, 1, 2, 3, 4]).twoOptSwap 1 3).bind (fun t1 => t1.twoOptSwap 1 3)
      = some (Tour.mk [0, 1, 2, 3, 4]) :=
  ⟨by decide, by decide, by decide,
    Tour.twoOptSwap_twice (Tour.mk [0, 1, 2, 3, 4]) 1 3 (by decide) (by decide) (by decide)⟩

/-! ## The unit square of `tests/test_basic.cpp` -/

theorem squareGraph_size [LinearOrderedField α] (s : α) : (squareGraph s).size = 4 := rfl

theorem vecGet_lit {β : Type} (v : List β) :
    vecGet v 0 = v[0]? ∧ vecGet v 1 = v[1]? ∧ vecGet v 2 = v[2]? ∧ vecGet v 3 = v[3]? :=
  ⟨vecGet_natCast v 0, vecGet_natCast v 1, vecGet_natCast v 2, vecGet_natCast v 3⟩

theorem vecSet_lit {β : Type} (v : List β) (x : β) :
    vecSet v 0 x = (if 0 < v.length then some (v.set 0 x) else none) ∧
    vecSet v 1 x = (if 1 < v.length then some (v.set 1 x) else none) ∧
    vecSet v 2 x = (if 2 < v.length then some (v.set 2 x) else none) ∧
    vecSet v 3 x = (if 3 < v.length then some (v.set 3 x) else none) :=
  ⟨vecSet_natCast v 0 x, vecSet_natCast v 1 x, vecSet_natCast v 2 x, vecSet_natCast v 3 x⟩

/-- The inner scans of nearest-neighbour on the unit square: from each corner,
with the corners visited so far, the first nearest unvisited corner is at distance `1`. -/
theorem nnScan_square [LinearOrderedField α] (s : α) (hs : 1 < s) :

    (List.range' 0 4).foldlM (TSPSolver.nnScanStep (squareGraph s) [true, false, false, false] 0)
      ((⊤ : WithTop α), (-1 : Int)) = some (((1 : α) : WithTop α), 1) ∧
    (List.range' 0 4).foldlM (TSPSolver.nnScanStep (squareGraph s) [true, true, false, false] 1)
      ((⊤ : WithTop α), (-1 : Int)) = some (((1 : α) : WithTop α), 2) ∧
    (List.range' 0 4).foldlM (TSPSolver.nnScanStep (squareGraph s) [true, true, true, false] 2)
      ((⊤ : WithTop α), (-1 : Int)) = some (((1 : α) : WithTop α), 3) ∧
    (List.range' 0 4).foldlM (TSPSolver.nnScanStep (squareGraph s) [false, true, false, false] 1)
      ((⊤ : WithTop α), (-1 : Int)) = some (((1 : α) : WithTop α), 0) ∧
    (List.range' 0 4).foldlM (TSPSolver.nnScanStep (squareGraph s) [true, true, false, false] 0)
      ((⊤ : WithTop α), (-1 : Int)) = some (((1 : α) : WithTop α), 3) ∧
    (List.range' 0 4).foldlM (TSPSolver.nnScanStep (squareGraph s) [true, true, false, true] 3)
      ((⊤ : WithTop α), (-1 : Int)) = some (((1 : α) : WithTop α), 2) ∧
    (List.range' 0 4).foldlM (TSPSolver.nnScanStep (squareGraph s) [false, false, true, false] 2)
      ((⊤ : WithTop α), (-1 : Int)) = some (((1 : α) : WithTop α), 1) ∧
    (List.range' 0 4).foldlM (TSPSolver.nnScanStep (squareGraph s) [false, true, true, false] 1)
      ((⊤ : WithTop α), (-1 : Int)) = some (((1 : α) : WithTop α), 0) ∧
    (List.range' 0 4).foldlM (TSPSolver.nnScanStep (squareGraph s) [true, true, true, false] 0)
      ((⊤ : WithTop α), (-1 : Int)) = some (((1 : α) : WithTop α), 3) ∧
    (List.range' 0 4).foldlM (TSPSolver.nnScanStep (squareGraph s) [false, false, false, true] 3)
      ((⊤ : WithTop α), (-1 : Int)) = some (((1 : α) : WithTop α), 0) ∧
    (List.range' 0 4).foldlM (TSPSolver.nnScanStep (squareGraph s) [true, false, false, true] 0)
      ((⊤ : WithTop α), (-1 : Int)) = some (((1 : α) : WithTop α), 1) ∧
    (List.range' 0 4).foldlM (TSPSolver.nnScanStep (squareGraph s) [true, true, false, true] 1)
      ((⊤ : WithTop α), (-1 : Int)) = some (((1 : α) : WithTop α), 2) := by
  have h1 : ¬ s < 1 := not_lt.mpr hs.le
  have h2 : ¬ (1 : α) < 1 := lt_irrefl _
  have r4 : List.range' 0 4 = [0, 1, 2, 3] := rfl
  have c0 : (((0 : Nat) : Int)) = 0 := rfl
  have c1 : (((1 : Nat) : Int)) = 1 := rfl
  have c2 : (((2 : Nat) : Int)) = 2 := rfl
  have c3 : (((3 : Nat) : Int)) = 3 := rfl
  refine ⟨?_, ?_, ?_, ?_, ?_, ?_, ?_, ?_, ?_, ?_, ?_, ?_⟩ <;>
    simp only [r4, List.foldlM_cons, List.foldlM_nil, TSPSolver.nnScanStep, vecGet_natCast,
      List.getElem?_cons_zero, List.getElem?_cons_succ, Option.bind_eq_bind, Option.some_bind,
      Option.pure_def, Bool.not_true, Bool.not_false, if_true, if_false, Bool.false_eq_true,
      c0, c1, c2, c3, Graph.distance, squareGraph, vecGet_lit, WithTop.coe_lt_top,
      WithTop.coe_lt_coe, hs, h1, h2]

/-- The steps of the outer loop of nearest-neighbour on the unit square. -/
theorem nnStep_square [LinearOrderedField α] (s : α) (hs : 1 < s) :

    TSPSolver.nnStep (squareGraph s) 4 ([0, 1, 2, 3], [true, false, false, false], 0) 1
      = some ([0, 1, 2, 3], [true, true, false, false], 1) ∧
    TSPSolver.nnStep (squareGraph s) 4 ([0, 1, 2, 3], [true, true, false, false], 1) 2
      = some ([0, 1, 2, 3], [true, true, true, false], 2) ∧
    TSPSolver.nnStep (squareGraph s) 4 ([0, 1, 2, 3], [true, true, true, false], 2) 3
      = some ([0, 1, 2, 3], [true, true, true, true], 3) ∧
    TSPSolver.nnStep (squareGraph s) 4 ([1, 1, 2, 3], [false, true, false, false], 1) 1
      = some ([1, 0, 2, 3], [true, true, false, false], 0) ∧
    TSPSolver.nnStep (squareGraph s) 4 ([1, 0, 2, 3], [true, true, false, false], 0) 2
      = some ([1, 0, 3, 3], [true, true, false, true], 3) ∧
    TSPSolver.nnStep (squareGraph s) 4 ([1, 0, 3, 3], [true, true, false, true], 3) 3
      = some ([1, 0, 3, 2], [true, true, true, true], 2) ∧
    TSPSolver.nnStep (squareGraph s) 4 ([2, 1, 2, 3], [false, false, true, false], 2) 1
      = some ([2, 1, 2, 3], [false, true, true, false], 1) ∧
    TSPSolver.nnStep (squareGraph s) 4 ([2, 1, 2, 3], [false, true, true, false], 1) 2
      = some ([2, 1, 0, 3], [true, true, true, false], 0) ∧
    TSPSolver.nnStep (squareGraph s) 4 ([2, 1, 0, 3], [true, true, true, false], 0) 3
      = some ([2, 1, 0, 3], [true, true, true, true], 3) ∧
    TSPSolver.nnStep (squareGraph s) 4 ([3, 1, 2, 3], [false, false, false, true], 3) 1
      = some ([3, 0, 2, 3], [true, false, false, true], 0) ∧
    TSPSolver.nnStep (squareGraph s) 4 ([3, 0, 2, 3], [true, false, false, true], 0) 2
      = some ([3, 0, 1, 3], [true, true, false, true], 1) ∧
    TSPSolver.nnStep (squareGraph s) 4 ([3, 0, 1, 3], [true, true, false, true], 1) 3
      = some ([3, 0, 1, 2], [true, true, true, true], 2) := by
  obtain ⟨a1, a2, a3, a4, a5, a6, a7, a8, a9, a10, a11, a12⟩ := nnScan_square s hs
  have l4 : ∀ a b c d : Int, [a, b, c, d].length = 4 := fun _ _ _ _ => rfl
  have lb4 : ∀ a b c d : Bool, [a, b, c, d].length = 4 := fun _ _ _ _ => rfl
  have n1 : (1 : Nat) < 4 := by decide
  have n2 : (2 : Nat) < 4 := by decide
  have n3 : (3 : Nat) < 4 := by decide
  refine ⟨?_, ?_, ?_, ?_, ?_, ?_, ?_, ?_, ?_, ?_, ?_, ?_⟩ <;>
    simp only [TSPSolver.nnStep, a1, a2, a3, a4, a5, a6, a7, a8, a9, a10, a11, a12,
      Option.bind_eq_bind, Option.some_bind, Option.pure_def, vecSet_natCast, vecSet_lit, l4, lb4,
      Nat.ofNat_pos, n1, n2, n3, if_true, List.set_cons_zero, List.set_cons_succ]

/-- Nearest-neighbour on the unit square walks round the perimeter. -/
theorem runNearestNeighbor_square [LinearOrderedField α] (s : α) (hs : 1 < s) (c : Fin 4) :
    TSPSolver.runNearestNeighbor (squareGraph s) ((c : Nat) : Int)
      = some (Tour.mk (squareRoute c)) := by
  obtain ⟨a1, a2, a3, a4, a5, a6, a7, a8, a9, a10, a11, a12⟩ := nnStep_square s hs
  have n0 : (0 : Nat) < 4 := by decide
  have n1 : (1 : Nat) < 4 := by decide
  have n2 : (2 : Nat) < 4 := by decide
  have n3 : (3 : Nat) < 4 := by decide
  have r13 : List.range' 1 (4 - 1) = [1, 2, 3] := rfl
  have init : ∀ k : Nat, k < 4 → TSPSolver.runNearestNeighbor (squareGraph s) (k : Int)
      = ((List.range' 1 (4 - 1)).foldlM (TSPSolver.nnStep (squareGraph s) 4)
          ((idRoute 4).set 0 (k : Int), (List.replicate 4 false).set k true, (k : Int))).bind
          (fun st => some (Tour.mk st.1)) := by
    intro k hk
    have e0 : (0 : Int) = ((0 : Nat) : Int) := rfl
    simp only [TSPSolver.runNearestNeighbor, squareGraph_size, Tour.ctor_eq,
      Option.bind_eq_bind, Option.some_bind, Option.pure_def, Tour.route]
    rw [e0, vecSet_natCast, vecSet_natCast]
    simp only [idRoute_length, List.length_replicate, n0, hk, if_true, Option.some_bind]
  fin_cases c
  · have e : TSPSolver.runNearestNeighbor (squareGraph s) ((0 : Nat) : Int)
        = ((List.range' 1 (4 - 1)).foldlM (TSPSolver.nnStep (squareGraph s) 4)
            ([0, 1, 2, 3], [true, false, false, false], 0)).bind (fun st => some (Tour.mk st.1)) :=
      init 0 (by decide)
    show TSPSolver.runNearestNeighbor (squareGraph s) ((0 : Nat) : Int) = _
    rw [e, r13]
    simp only [List.foldlM_cons, List.foldlM_nil, a1, a2, a3, Option.bind_eq_bind,
      Option.some_bind, Option.pure_def]
    rfl
  · have e : TSPSolver.runNearestNeighbor (squareGraph s) ((1 : Nat) : Int)
        = ((List.range' 1 (4 - 1)).foldlM (TSPSolver.nnStep (squareGraph s) 4)
            ([1, 1, 2, 3], [false, true, false, false], 1)).bind (fun st => some (Tour.mk st.1)) :=
      init 1 (by decide)
    show TSPSolver.runNearestNeighbor (squareGraph s) ((1 : Nat) : Int) = _
    rw [e, r13]
    simp only [List.foldlM_cons, List.foldlM_nil, a4, a5, a6, Option.bind_eq_bind,
      Option.some_bind, Option.pure_def]
    rfl
  · have e : TSPSolver.runNearestNeighbor (squareGraph s) ((2 : Nat) : Int)
        = ((List.range' 1 (4 - 1)).foldlM (TSPSolver.nnStep (squareGraph s) 4)
            ([2, 1, 2, 3], [false, false, true, false], 2)).bind (fun st => some (Tour.mk st.1)) :=
      init 2 (by decide)
    show TSPSolver.runNearestNeighbor (squareGraph s) ((2 : Nat) : Int) = _
    rw [e, r13]
    simp only [List.foldlM_cons, List.foldlM_nil, a7, a8, a9, Option.bind_eq_bind,
      Option.some_bind, Option.pure_def]
    rfl
  · have e : TSPSolver.runNearestNeighbor (squareGraph s) ((3 : Nat) : Int)
        = ((List.range' 1 (4 - 1)).foldlM (TSPSolver.nnStep (squareGraph s) 4)
            ([3, 1, 2, 3], [false, false, false, true], 3)).bind (fun st => some (Tour.mk st.1)) :=
      init 3 (by decide)
    show TSPSolver.runNearestNeighbor (squareGraph s) ((3 : Nat) : Int) = _
    rw [e, r13]
    simp only [List.foldlM_cons, List.foldlM_nil, a10, a11, a12, Option.bind_eq_bind,
      Option.some_bind, Option.pure_def]
    rfl

/-- Each perimeter tour of the unit square has length `4`. -/
theorem length_square [LinearOrderedField α] (s : α) (c : Fin 4) :
    (Tour.mk (squareRoute c)).length (squareGraph s) = some 4 := by
  have r3 : List.range' 0 (4 - 1) = [0, 1, 2] := rfl
  fin_cases c <;>
  · simp only [Tour.length, Tour.size, squareRoute, List.length_cons, List.length_nil, r3,
      List.foldlM_cons, List.foldlM_nil, Option.bind_eq_bind, Option.pure_def]
    simp [vecGet, Graph.distance, squareGraph]
    norm_num

/-- Each perimeter tour of the unit square is a local optimum of `run2Opt`. -/
theorem localOpt_square [LinearOrderedField α] (s : α) (hs : 1 < s) (c : Fin 4) :
    TSPSolver.LocalOpt (squareGraph s) (Tour.mk (squareRoute c)) := by
  have hpos := TSPSolver.eps_pos (α := α)
  have hsz : (Tour.mk (squareRoute c)).size = 4 := by fin_cases c <;> rfl
  have e1 : (((1 : Nat) : Int) - 1) = 0 := rfl
  have e2 : (((2 : Nat) : Int) - 1) = 1 := rfl
  have m2 : ((2 + 1) % 4 : Nat) = 3 := rfl
  have m3 : ((3 + 1) % 4 : Nat) = 0 := rfl
  intro i k hi hik hk
  rw [hsz] at hk ⊢
  have hcases : (i = 1 ∧ k = 2) ∨ (i = 1 ∧ k = 3) ∨ (i = 2 ∧ k = 3) := by omega
  rcases hcases with ⟨rfl, rfl⟩ | ⟨rfl, rfl⟩ | ⟨rfl, rfl⟩
  · refine ⟨(s + s) - (1 + 1), ?_, by linarith⟩
    fin_cases c <;>
    · simp only [TSPSolver.delta, Tour.route, squareRoute, e1, e2, m2, m3, vecGet_natCast,
        Option.bind_eq_bind, List.getElem?_cons_zero, List.getElem?_cons_succ,
        Option.some_bind, Graph.distance, squareGraph, vecGet_lit]
      rfl
  · refine ⟨(1 + 1) - (1 + 1), ?_, by linarith⟩
    fin_cases c <;>
    · simp only [TSPSolver.delta, Tour.route, squareRoute, e1, e2, m2, m3, vecGet_natCast,
        Option.bind_eq_bind, List.getElem?_cons_zero, List.getElem?_cons_succ,
        Option.some_bind, Graph.distance, squareGraph, vecGet_lit]
      rfl
  · refine ⟨(s + s) - (1 + 1), ?_, by linarith⟩
    fin_cases c <;>
    · simp only [TSPSolver.delta, Tour.route, squareRoute, e1, e2, m2, m3, vecGet_natCast,
        Option.bind_eq_bind, List.getElem?_cons_zero, List.getElem?_cons_succ,
        Option.some_bind, Graph.distance, squareGraph, vecGet_lit]
      rfl

theorem unitSquare_ctor :
    Graph.ctor (fun dx dy : ℝ => Real.sqrt (dx * dx + dy * dy)) unitSquare
      = some (squareGraph (Real.sqrt 2)) := by
  have h : Graph.ctor (fun dx dy : ℝ => Real.sqrt (dx * dx + dy * dy)) unitSquare
      = some { points_ := unitSquare
               adjMatrix_ := [[0, Real.sqrt ((0 - 1) * (0 - 1) + (0 - 0) * (0 - 0)),
                    Real.sqrt ((0 - 1) * (0 - 1) + (0 - 1) * (0 - 1)),
                    Real.sqrt ((0 - 0) * (0 - 0) + (0 - 1) * (0 - 1))],
                  [Real.sqrt ((0 - 1) * (0 - 1) + (0 - 0) * (0 - 0)), 0,
                    Real.sqrt ((1 - 1) * (1 - 1) + (0 - 1) * (0 - 1)),
                    Real.sqrt ((1 - 0) * (1 - 0) + (0 - 1) * (0 - 1))],
                  [Real.sqrt ((0 - 1) * (0 - 1) + (0 - 1) * (0 - 1)),
                    Real.sqrt ((1 - 1) * (1 - 1) + (0 - 1) * (0 - 1)), 0,
                    Real.sqrt ((1 - 0) * (1 - 0) + (1 - 1) * (1 - 1))],
                  [Real.sqrt ((0 - 0) * (0 - 0) + (0 - 1) * (0 - 1)),
                    Real.sqrt ((1 - 0) * (1 - 0) + (0 - 1) * (0 - 1)),
                    Real.sqrt ((1 - 0) * (1 - 0) + (1 - 1) * (1 - 1)), 0]] } := rfl
  rw [h]
  simp only [squareGraph]
  norm_num

/-- C8: on the graph built from the unit-square corners `(0,0), (1,0), (1,1), (0,1)`
with the Euclidean `hypot` on the reals, from every start corner the tour of
`runNearestNeighbor` has length at most `6`, and `run2Opt` applied to it returns
a tour whose length differs from `4` by less than `1e-6`. -/
theorem TSPSolver.unitSquare_known_optimum :
    ∃ g, Graph.ctor (fun dx dy : ℝ => Real.sqrt (dx * dx + dy * dy)) unitSquare = some g ∧
      ∀ c : Fin 4, ∃ nn L, TSPSolver.runNearestNeighbor g ((c : Nat) : Int) = some nn ∧
        nn.length g = some L ∧ L ≤ 6 ∧
        ∃ fuel r L2, TSPSolver.run2Opt fuel g nn = some r ∧ r.length g = some L2 ∧
          |L2 - 4| < 1 / 1000000 := by
  have hs : (1 : ℝ) < Real.sqrt 2 := by
    rw [Real.lt_sqrt (by norm_num)]; norm_num
  refine ⟨squareGraph (Real.sqrt 2), unitSquare_ctor, ?_⟩
  intro c
  exact ⟨_, 4, runNearestNeighbor_square _ hs c, length_square _ c, by norm_num, 1, _, 4,
    TSPSolver.run2OptLoop_of_stop (TSPSolver.pass_of_localOpt (localOpt_square _ hs c)) 0,
    length_square _ c, by norm_num⟩

/-! ## The empty graph -/

/-- C6 (the code at the failing input): on the graph of the empty point list
`Tour(0)` has an empty route, the first write `route[0] = current` of
`runNearestNeighbor` is out of range, and no tour is returned. -/
theorem TSPSolver.runNearestNeighbor_empty_graph [LinearOrderedField α] (hypot : α → α → α)
    (start : Int) :
    ∃ g, Graph.ctor hypot ([] : List (Point α)) = some g ∧ g.size = 0 ∧
      Tour.ctor g.size = some (Tour.mk []) ∧ vecSet (Tour.mk []).route 0 start = none ∧
      TSPSolver.runNearestNeighbor g start = none := by
  refine ⟨⟨[], []⟩, rfl, rfl, rfl, ?_, ?_⟩
  · simp [vecSet, Tour.route]
  · have h : Tour.ctor (Graph.size (⟨[], []⟩ : Graph α)) = some (Tour.mk []) := rfl
    simp [TSPSolver.runNearestNeighbor, h, vecSet, Tour.route]

/-! ## Segment reversal, entry by entry -/

/-- Entry `j` of the route after reversing positions `i..k`: the mirrored entry
inside the window, the same entry outside it. -/
theorem reverseSeg_getElem? (r : List Int) {i k : Nat} (hik : i ≤ k) (hk : k < r.length)
    (j : Nat) :
    (reverseSeg r i k)[j]? = if i ≤ j ∧ j ≤ k then r[i + k - j]? else r[j]? := by
  unfold reverseSeg
  have hA : (r.take i).length = i := by rw [List.length_take]; omega
  have hS : ((r.drop i).take (k + 1 - i)).length = k + 1 - i := by
    rw [List.length_take, List.length_drop]; omega
  by_cases h1 : j < i
  · have hc : ¬ (i ≤ j ∧ j ≤ k) := by omega
    rw [if_neg hc, List.append_assoc, List.getElem?_append_left (by omega),
      List.getElem?_take_of_lt h1]
  · by_cases h2 : j ≤ k
    · have hc : i ≤ j ∧ j ≤ k := ⟨by omega, h2⟩
      rw [if_pos hc, List.getElem?_append_left (by
        rw [List.length_append, List.length_reverse, hA, hS]; omega),
        List.getElem?_append_right (by omega), hA,
        List.getElem?_reverse (by rw [hS]; omega), hS,
        List.getElem?_take_of_lt (by omega), List.getElem?_drop]
      congr 1
      omega
    · have hc : ¬ (i ≤ j ∧ j ≤ k) := by omega
      rw [if_neg hc, List.getElem?_append_right (by
        rw [List.length_append, List.length_reverse, hA, hS]; omega),
        List.length_append, List.length_reverse, hA, hS, List.getElem?_drop]
      congr 1
      omega

theorem vecGet_neg {β : Type} (v : List β) {j : Int} (h : j < 0) : vecGet v j = none := by
  simp [vecGet, not_le.mpr h]

/-- C11: for a route `r` of size `n` and `0 ≤ i ≤ k < n`, `twoOptSwap(i, k)`
gives a route `r'` of the same size with `r'[j] = r[i + k - j]` for every
`i ≤ j ≤ k` and `r'[j] = r[j]` for every `j` outside `[i, k]`. -/
theorem Tour.twoOptSwap_frame (t : Tour) (i k : Int) (hi : 0 ≤ i) (hik : i ≤ k)
    (hk : k < (t.size : Int)) :
    ∃ t1, t.twoOptSwap i k = some t1 ∧ t1.size = t.size ∧
      (∀ j : Int, i ≤ j → j ≤ k →
        ∃ x, vecGet t1.route j = some x ∧ vecGet t.route (i + k - j) = some x) ∧
      (∀ j : Int, j < i ∨ k < j → vecGet t1.route j = vecGet t.route j) := by
  obtain ⟨a, rfl⟩ := Int.eq_ofNat_of_zero_le hi
  obtain ⟨b, rfl⟩ := Int.eq_ofNat_of_zero_le (le_trans hi hik)
  have hab : a ≤ b := by omega
  have hb : b < t.tour_.length := by
    have : (b : Int) < (t.tour_.length : Int) := hk
    omega
  refine ⟨{ tour_ := reverseSeg t.tour_ a b },
    Tour.twoOptSwap_natCast t (by omega) (by omega), reverseSeg_length _ (by omega), ?_, ?_⟩
  · intro j hj1 hj2
    obtain ⟨c, rfl⟩ := Int.eq_ofNat_of_zero_le (le_trans hi hj1)
    have e : ((a : Int) + (b : Int) - (c : Int)) = ((a + b - c : Nat) : Int) := by omega
    have hlt : a + b - c < t.tour_.length := by omega
    refine ⟨t.tour_[a + b - c], ?_, ?_⟩
    · show vecGet (reverseSeg t.tour_ a b) (c : Int) = _
      rw [vecGet_natCast, reverseSeg_getElem? _ hab hb, if_pos ⟨by omega, by omega⟩,
        List.getElem?_eq_getElem hlt]
    · show vecGet t.tour_ _ = _
      rw [e, vecGet_natCast, List.getElem?_eq_getElem hlt]
  · intro j hj
    show vecGet (reverseSeg t.tour_ a b) j = vecGet t.tour_ j
    by_cases hj0 : 0 ≤ j
    · obtain ⟨c, rfl⟩ := Int.eq_ofNat_of_zero_le hj0
      rw [vecGet_natCast, vecGet_natCast, reverseSeg_getElem? _ hab hb, if_neg (by omega)]
    · rw [vecGet_neg _ (by omega), vecGet_neg _ (by omega)]

/-- Witness of C11: reversing positions `1..3` of `10, 11, 12, 13, 14`. -/
theorem Tour.twoOptSwap_frame_witness :
    (0 : Int) ≤ 1 ∧ (1 : Int) ≤ 3 ∧ (3 : Int) < ((Tour.mk [10, 11, 12, 13, 14]).size : Int) ∧
    ∃ t1, (Tour.mk [10, 11, 12, 13, 14]).twoOptSwap 1 3 = some t1 ∧
      t1.size = (Tour.mk [10, 11, 12, 13, 14]).size ∧
      (∀ j : Int, 1 ≤ j → j ≤ 3 →
        ∃ x, vecGet t1.route j = some x ∧
          vecGet (Tour.mk [10, 11, 12, 13, 14]).route (1 + 3 - j) = some x) ∧
      (∀ j : Int, j < 1 ∨ 3 < j →
        vecGet t1.route j = vecGet (Tour.mk [10, 11, 12, 13, 14]).route j) :=
  ⟨by decide, by decide, by decide,
    Tour.twoOptSwap_frame (Tour.mk [10, 11, 12, 13, 14]) 1 3 (by decide) (by decide)
      (by decide)⟩

/-! ## The distance matrix of the constructor -/

/-- C12: in the graph the constructor builds from a list of points, for all
indices `0 ≤ i, j < n`, `distance(i, j) = distance(j, i)` and `distance(i, i) = 0`. -/
theorem Graph.ctor_distance_symm [LinearOrderedField α] (hypot : α → α → α)
    (points : List (Point α)) (i j : Int) (hi0 : 0 ≤ i) (hi : i < (points.length : Int))
    (hj0 : 0 ≤ j) (hj : j < (points.length : Int)) :
    ∃ g, Graph.ctor hypot points = some g ∧
      (∃ d, g.distance i j = some d ∧ g.distance j i = some d) ∧
      g.distance i i = some 0 := by
  obtain ⟨g, hctor, _, _, hE⟩ := Graph.ctor_spec hypot points
  obtain ⟨a, rfl⟩ := Int.eq_ofNat_of_zero_le hi0
  obtain ⟨b, rfl⟩ := Int.eq_ofNat_of_zero_le hj0
  have ha : a < points.length := by omega
  have hb : b < points.length := by omega
  refine ⟨g, hctor,
    ⟨if a = b then 0 else Graph.pairDist hypot points (min a b) (max a b), ?_, ?_⟩, ?_⟩
  · rw [Graph.distance_natCast, hE a b ha hb]
  · rw [Graph.distance_natCast, hE b a hb ha, min_comm, max_comm]
    by_cases hab : a = b
    · simp [hab]
    · simp [hab, Ne.symm hab]
  · rw [Graph.distance_natCast, hE a a ha ha, if_pos rfl]

/-- Witness of C12: corners 2 and 0 of the unit square, Euclidean `hypot` on the reals. -/
theorem Graph.ctor_distance_symm_witness :
    (0 : Int) ≤ 2 ∧ (2 : Int) < ((unitSquare (α := ℝ)).length : Int) ∧
    (0 : Int) ≤ 0 ∧ (0 : Int) < ((unitSquare (α := ℝ)).length : Int) ∧
    ∃ g, Graph.ctor (fun dx dy : ℝ => Real.sqrt (dx * dx + dy * dy)) unitSquare = some g ∧
      (∃ d, g.distance 2 0 = some d ∧ g.distance 0 2 = some d) ∧
      g.distance 2 2 = some 0 :=
  ⟨by decide, by decide, by decide, by decide,
    Graph.ctor_distance_symm _ unitSquare 2 0 (by decide) (by decide) (by decide) (by decide)⟩

/-- In exact real arithmetic, with `hypot(dx, dy) = sqrt(dx * dx + dy * dy)`, the
graph the constructor builds from `n` points has `size() = n`, and for all
`i, j < n` (also `i > j` and `i = j`) `distance(i, j)` is the Euclidean distance
`sqrt((x_i - x_j)^2 + (y_i - y_j)^2)` of the two input points. -/
theorem Graph.ctor_euclidean_exact (points : List (Point ℝ)) (i j : Nat)
    (hi : i < points.length) (hj : j < points.length) :
    ∃ g, Graph.ctor (fun dx dy : ℝ => Real.sqrt (dx * dx + dy * dy)) points = some g ∧
      g.size = points.length ∧
      g.distance (i : Int) (j : Int) = some (Real.sqrt
        ((points[i].x - points[j].x) ^ 2 + (points[i].y - points[j].y) ^ 2)) := by
  obtain ⟨g, hctor, _, _, hE⟩ := Graph.ctor_spec
    (fun dx dy : ℝ => Real.sqrt (dx * dx + dy * dy)) points
  refine ⟨g, hctor, Graph.ctor_size hctor, ?_⟩
  rw [Graph.distance_natCast, hE i j hi hj]
  congr 1
  by_cases hij : i = j
  · subst hij
    simp
  · rw [if_neg hij]
    have hpd : ∀ a b (ha : a < points.length) (hb : b < points.length),
        Graph.pairDist (fun dx dy : ℝ => Real.sqrt (dx * dx + dy * dy)) points a b
          = Real.sqrt ((points[a].x - points[b].x) ^ 2 + (points[a].y - points[b].y) ^ 2) := by
      intro a b ha hb
      simp only [Graph.pairDist, Point.distanceTo, getD_eq_getElem _ ha, getD_eq_getElem _ hb]
      congr 1
      ring
    rcases Nat.lt_or_gt_of_ne hij with h | h
    · have e1 : min i j = i := min_eq_left (le_of_lt h)
      have e2 : max i j = j := max_eq_right (le_of_lt h)
      simp only [e1, e2]
      exact hpd i j hi hj
    · have e1 : min i j = j := min_eq_right (le_of_lt h)
      have e2 : max i j = i := max_eq_left (le_of_lt h)
      simp only [e1, e2]
      rw [hpd j i hj hi]
      congr 1
      ring

/-- C13 (counterexample): on the unit square, with the values `std::hypot`
returns in `double`, the constructor stores `0x1.6a09e667f3bcdp+0` as
`distance(2, 0)`, which is not the Euclidean distance `sqrt((1 - 0)^2 + (1 - 0)^2)`
of the corners `(1, 1)` and `(0, 0)`. No rounding could make it so: every finite
`double` is a rational number and `sqrt 2` is irrational, so with any `hypot` on
rational values the stored distance differs from the Euclidean one. -/
theorem Graph.ctor_distance_not_euclidean :
    (∃ g, Graph.ctor hypotOnUnitSquare unitSquare = some g ∧ g.size = 4 ∧
      g.distance 2 0 = some (6369051672525773 / 4503599627370496) ∧
      ((6369051672525773 / 4503599627370496 : ℚ) : ℝ)
        ≠ Real.sqrt (((1 : ℝ) - 0) ^ 2 + ((1 : ℝ) - 0) ^ 2)) ∧
    ¬ ∃ (hypot : ℚ → ℚ → ℚ) (g : Graph ℚ) (d : ℚ),
        Graph.ctor hypot unitSquare = some g ∧ g.distance 2 0 = some d ∧
        (d : ℝ) = Real.sqrt (((1 : ℝ) - 0) ^ 2 + ((1 : ℝ) - 0) ^ 2) := by
  have e : ((1 : ℝ) - 0) ^ 2 + ((1 : ℝ) - 0) ^ 2 = 2 := by norm_num
  rw [e]
  constructor
  · obtain ⟨g, hctor, _, _, hE⟩ := Graph.ctor_spec hypotOnUnitSquare (unitSquare (α := ℚ))
    have h20 : g.distance ((2 : Nat) : Int) ((0 : Nat) : Int) = _ :=
      (Graph.distance_natCast g 2 0).trans (hE 2 0 (by decide) (by decide))
    have hval : (if (2 : Nat) = 0 then (0 : ℚ)
        else Graph.pairDist hypotOnUnitSquare unitSquare (min 2 0) (max 2 0))
        = 6369051672525773 / 4503599627370496 := by decide!
    rw [hval] at h20
    exact ⟨g, hctor, Graph.ctor_size hctor, h20, (irrational_sqrt_two.ne_rat _).symm⟩
  · rintro ⟨hypot, g, d, _, _, hd⟩
    exact irrational_sqrt_two.ne_rat d hd.symm

/-- C13 (amended): the graph the constructor builds from `n` points has
`size() = n`, and for all `i, j < n`, `distance(i, j)` is `0` when `i = j` and
otherwise the value `hypot` returns, in the arithmetic of the code, for the
coordinate differences of the lower-indexed point minus the higher-indexed
point; in exact real arithmetic with `hypot(dx, dy) = sqrt(dx * dx + dy * dy)`
this is the Euclidean distance `sqrt((x_a - x_b)^2 + (y_a - y_b)^2)`, also for
`a > b` and `a = b`. -/
theorem Graph.ctor_distance_hypot [Sub α] [Zero α] (hypot : α → α → α)
    (points : List (Point α)) (i j : Nat) (hi : i < points.length) (hj : j < points.length)
    (rpoints : List (Point ℝ)) (a b : Nat) (ha : a < rpoints.length)
    (hb : b < rpoints.length) :
    (∃ g p q, Graph.ctor hypot points = some g ∧ g.size = points.length ∧
      points[min i j]? = some p ∧ points[max i j]? = some q ∧
      g.distance (i : Int) (j : Int)
        = some (if i = j then 0 else hypot (p.x - q.x) (p.y - q.y))) ∧
    (∃ g, Graph.ctor (fun dx dy : ℝ => Real.sqrt (dx * dx + dy * dy)) rpoints = some g ∧
      g.size = rpoints.length ∧
      g.distance (a : Int) (b : Int) = some (Real.sqrt
        ((rpoints[a].x - rpoints[b].x) ^ 2 + (rpoints[a].y - rpoints[b].y) ^ 2))) := by
  refine ⟨?_, Graph.ctor_euclidean_exact rpoints a b ha hb⟩
  obtain ⟨g, hctor, _, _, hE⟩ := Graph.ctor_spec hypot points
  have hmin : min i j < points.length := lt_of_le_of_lt (min_le_left i j) hi
  have hmax : max i j < points.length := max_lt hi hj
  refine ⟨g, points[min i j], points[max i j], hctor, Graph.ctor_size hctor,
    List.getElem?_eq_getElem hmin, List.getElem?_eq_getElem hmax, ?_⟩
  rw [Graph.distance_natCast, hE i j hi hj]
  simp only [Graph.pairDist, Point.distanceTo, getD_eq_getElem _ hmin, getD_eq_getElem _ hmax]

/-- Witness of the amended C13: corners 2 and 0 of the unit square, with the
Euclidean `hypot` on the reals. -/
theorem Graph.ctor_distance_hypot_witness :
    (∃ g p q, Graph.ctor (fun dx dy : ℝ => Real.sqrt (dx * dx + dy * dy)) unitSquare = some g ∧
      g.size = (unitSquare (α := ℝ)).length ∧
      (unitSquare (α := ℝ))[min 2 0]? = some p ∧ (unitSquare (α := ℝ))[max 2 0]? = some q ∧
      g.distance ((2 : Nat) : Int) ((0 : Nat) : Int)
        = some (if 2 = 0 then 0 else (fun dx dy : ℝ => Real.sqrt (dx * dx + dy * dy))
            (p.x - q.x) (p.y - q.y))) ∧
    (∃ g, Graph.ctor (fun dx dy : ℝ => Real.sqrt (dx * dx + dy * dy)) unitSquare = some g ∧
      g.size = (unitSquare (α := ℝ)).length ∧
      g.distance ((2 : Nat) : Int) ((0 : Nat) : Int) = some (Real.sqrt
        (((unitSquare (α := ℝ))[2].x - (unitSquare (α := ℝ))[0].x) ^ 2
          + ((unitSquare (α := ℝ))[2].y - (unitSquare (α := ℝ))[0].y) ^ 2))) :=
  Graph.ctor_distance_hypot _ unitSquare 2 0 (by decide) (by decide) unitSquare 2 0
    (by decide) (by decide)

/-! ## The identity tour -/

/-- C15: for every `n ≥ 0`, `Tour(n)` has a route of size `n` with `route[i] = i`
for every `i` in `0..n-1`, the identity permutation; for `n = 0` the route is empty. -/
theorem Tour.ctor_identity (n : Nat) :
    ∃ t, Tour.ctor n = some t ∧ t.size = n ∧ t.route = idRoute n ∧
      (∀ i : Fin n, vecGet t.route ((i : Nat) : Int) = some ((i : Nat) : Int)) ∧
      ∃ t0, Tour.ctor 0 = some t0 ∧ t0.route = [] := by
  refine ⟨{ tour_ := idRoute n }, Tour.ctor_eq n, idRoute_length n, rfl, ?_,
    { tour_ := [] }, rfl, rfl⟩
  intro i
  show vecGet (idRoute n) _ = _
  rw [vecGet_natCast, idRoute_getElem? i.isLt]

/-! ## Tour length as a sum, and the exact effect of a swap -/

theorem pathLen_eq_sum [LinearOrderedField α] (d : Int → Int → α) (r : List Int) :
    pathLen d r = ∑ i in Finset.range (r.length - 1), d (r.getD i 0) (r.getD (i + 1) 0) := by
  induction r with
  | nil => simp [pathLen]
  | cons a r ih =>
    cases r with
    | nil => simp [pathLen]
    | cons b r =>
      have e : (a :: b :: r).length - 1 = ((b :: r).length - 1) + 1 := by simp
      rw [pathLen, ih, e, Finset.sum_range_succ']
      simp only [List.getD_cons_succ, List.getD_cons_zero]
      ring

/-- In exact arithmetic `Tour::length` is `0` when `n < 2`, and otherwise the
finite sum of `distance(r[i], r[i+1])` for `i = 0..n-2` plus the closing edge
`distance(r[n-1], r[0])`. -/
theorem Tour.length_finsetSum [LinearOrderedField α] (g : Graph α) (t : Tour) (hg : g.WellFormed)
    (ht : t.InRange g.size) :
    (t.size < 2 → t.length g = some 0) ∧
    (2 ≤ t.size → ∃ (e : Nat → α) (c : α),
      (∀ i : Nat, i < t.size - 1 → ∃ a b, vecGet t.route (i : Int) = some a ∧
        vecGet t.route ((i : Int) + 1) = some b ∧ g.distance a b = some (e i)) ∧
      (∃ a b, vecGet t.route ((t.size : Int) - 1) = some a ∧ vecGet t.route 0 = some b ∧
        g.distance a b = some c) ∧
      t.length g = some ((∑ i in Finset.range (t.size - 1), e i) + c)) := by
  have hlen := Tour.length_eq_cycleLen hg ht
  constructor
  · intro h
    have h2 : t.tour_.length < 2 := h
    rw [hlen, cycleLen, if_pos h2]
  · intro h
    have h0 : 0 < t.tour_.length := by have : t.size = t.tour_.length := rfl; omega
    have hl : t.tour_.length - 1 < t.tour_.length := by omega
    refine ⟨fun i => g.dist (t.tour_.getD i 0) (t.tour_.getD (i + 1) 0),
      g.dist (t.tour_.getD (t.tour_.length - 1) 0) (t.tour_.getD 0 0), ?_, ?_, ?_⟩
    · intro i hi
      have h1 : i < t.tour_.length := by have : t.size = t.tour_.length := rfl; omega
      have h2 : i + 1 < t.tour_.length := by have : t.size = t.tour_.length := rfl; omega
      have e : ((i : Int) + 1) = ((i + 1 : Nat) : Int) := by push_cast; rfl
      refine ⟨t.tour_[i], t.tour_[i + 1], ?_, ?_, ?_⟩
      · show vecGet t.tour_ _ = _
        rw [vecGet_natCast, List.getElem?_eq_getElem h1]
      · show vecGet t.tour_ _ = _
        rw [e, vecGet_natCast, List.getElem?_eq_getElem h2]
      · beta_reduce
        rw [Graph.distance_isSome hg (ht.getElem h1) (ht.getElem h2),
          getD_eq_getElem _ h1, getD_eq_getElem _ h2]
    · have e : ((t.size : Int) - 1) = ((t.tour_.length - 1 : Nat) : Int) := by
        have : t.size = t.tour_.length := rfl
        omega
      refine ⟨t.tour_[t.tour_.length - 1], t.tour_[0], ?_, ?_, ?_⟩
      · show vecGet t.tour_ _ = _
        rw [e, vecGet_natCast, List.getElem?_eq_getElem hl]
      · show vecGet t.tour_ ((0 : Nat) : Int) = _
        rw [vecGet_natCast, List.getElem?_eq_getElem h0]
      · rw [Graph.distance_isSome hg (ht.getElem hl) (ht.getElem h0),
          getD_eq_getElem _ hl, getD_eq_getElem _ h0]
    · have hn2 : ¬ t.tour_.length < 2 := by have : t.size = t.tour_.length := rfl; omega
      have hsplit : t.tour_ = t.tour_.take (t.tour_.length - 1)
          ++ [t.tour_[t.tour_.length - 1]] := by
        have := take_succ_getElem t.tour_ hl
        rw [← this]
        symm; apply List.take_of_length_le; omega
      have hhead : t.tour_.headD 0 = t.tour_.getD 0 0 := by
        rw [List.headD_eq_head?, List.head?_eq_getElem?, List.getD_eq_getElem?_getD]
      rw [hlen, cycleLen, if_neg hn2, pathLen_snoc g.dist hsplit, pathLen_eq_sum, hhead,
        getD_eq_getElem _ hl]
      rfl

/-- C14: on a graph and a tour with route `r` of size `n` over valid node
indices, `Tour::length` returns `0` when `n < 2`, and otherwise the sum of
`distance(r[i], r[i+1])` for `i = 0..n-2`, accumulated from `0.0` in index order
with the addition of the arithmetic, plus the closing edge
`distance(r[n-1], r[0])`. No law of the addition is used, so this is the value
the code computes in `double`. -/
theorem Tour.length_sum [Add α] [Zero α] (g : Graph α) (t : Tour) (hg : g.WellFormed)
    (ht : t.InRange g.size) :
    (t.size < 2 → t.length g = some 0) ∧
    (2 ≤ t.size → ∃ (e : Nat → α) (c : α),
      (∀ i : Nat, i < t.size - 1 → ∃ a b, vecGet t.route (i : Int) = some a ∧
        vecGet t.route ((i : Int) + 1) = some b ∧ g.distance a b = some (e i)) ∧
      (∃ a b, vecGet t.route ((t.size : Int) - 1) = some a ∧ vecGet t.route 0 = some b ∧
        g.distance a b = some c) ∧
      t.length g = some ((List.range (t.size - 1)).foldl (fun sum i => sum + e i) 0 + c)) := by
  have hsz : t.size = t.tour_.length := rfl
  constructor
  · intro h
    simp [Tour.length, h]
  · intro h
    have h0 : 0 < t.tour_.length := by omega
    have hl : t.tour_.length - 1 < t.tour_.length := by omega
    have hn2 : ¬ t.size < 2 := by omega
    have he : ∀ i : Nat, i < t.size - 1 → ∃ a b, vecGet t.route (i : Int) = some a ∧
        vecGet t.route ((i : Int) + 1) = some b ∧
        g.distance a b = some (g.dist (t.tour_.getD i 0) (t.tour_.getD (i + 1) 0)) := by
      intro i hi
      have h1 : i < t.tour_.length := by omega
      have h2 : i + 1 < t.tour_.length := by omega
      have e : ((i : Int) + 1) = ((i + 1 : Nat) : Int) := by push_cast; rfl
      refine ⟨t.tour_[i], t.tour_[i + 1], ?_, ?_, ?_⟩
      · show vecGet t.tour_ _ = _
        rw [vecGet_natCast, List.getElem?_eq_getElem h1]
      · show vecGet t.tour_ _ = _
        rw [e, vecGet_natCast, List.getElem?_eq_getElem h2]
      · rw [Graph.distance_isSome hg (ht.getElem h1) (ht.getElem h2),
          getD_eq_getElem _ h1, getD_eq_getElem _ h2]
    have hc : ∃ a b, vecGet t.route ((t.size : Int) - 1) = some a ∧ vecGet t.route 0 = some b ∧
        g.distance a b
          = some (g.dist (t.tour_.getD (t.tour_.length - 1) 0) (t.tour_.getD 0 0)) := by
      have e : ((t.size : Int) - 1) = ((t.tour_.length - 1 : Nat) : Int) := by omega
      refine ⟨t.tour_[t.tour_.length - 1], t.tour_[0], ?_, ?_, ?_⟩
      · show vecGet t.tour_ _ = _
        rw [e, vecGet_natCast, List.getElem?_eq_getElem hl]
      · show vecGet t.tour_ ((0 : Nat) : Int) = _
        rw [vecGet_natCast, List.getElem?_eq_getElem h0]
      · rw [Graph.distance_isSome hg (ht.getElem hl) (ht.getElem h0),
          getD_eq_getElem _ hl, getD_eq_getElem _ h0]
    refine ⟨fun i => g.dist (t.tour_.getD i 0) (t.tour_.getD (i + 1) 0),
      g.dist (t.tour_.getD (t.tour_.length - 1) 0) (t.tour_.getD 0 0), he, hc, ?_⟩
    obtain ⟨sum, hsum, hP⟩ := foldlM_range'_total
      (fun (sum : α) (i : Nat) => do
        let a ← vecGet t.tour_ i
        let b ← vecGet t.tour_ ((i : Int) + 1)
        let d ← g.distance a b
        pure (sum + d))
      (fun i sum => sum = (List.range i).foldl
        (fun sum i => sum + g.dist (t.tour_.getD i 0) (t.tour_.getD (i + 1) 0)) 0)
      (t.size - 1) 0 0 rfl
      (fun i sum _ hi hP => by
        obtain ⟨a, b, ha, hb, hd⟩ := he i (by omega)
        refine ⟨sum + g.dist (t.tour_.getD i 0) (t.tour_.getD (i + 1) 0), ?_, ?_⟩
        · have ha2 : vecGet t.tour_ (i : Int) = some a := ha
          have hb2 : vecGet t.tour_ ((i : Int) + 1) = some b := hb
          simp only [ha2, hb2, hd, Option.bind_eq_bind, Option.some_bind]
          rfl
        · beta_reduce at hP ⊢
          rw [List.range_succ, List.foldl_append, ← hP]
          rfl)
    obtain ⟨a, b, ha, hb, hd⟩ := hc
    have ha2 : vecGet t.tour_ ((t.size : Int) - 1) = some a := ha
    have hb2 : vecGet t.tour_ 0 = some b := hb
    rw [Nat.zero_add] at hP
    simp only [Option.bind_eq_bind] at hsum
    simp only [Tour.length, hn2, if_false, hsum, ha2, hb2, hd, Option.bind_eq_bind,
      Option.some_bind]
    rw [hP]
    rfl

/-- Witness of C14: the tour `0, 2, 1, 3` of the 3 × 4 rectangle. -/
theorem Tour.length_sum_witness :
    rectGraph.WellFormed ∧ (Tour.mk [0, 2, 1, 3]).InRange rectGraph.size ∧
    ((Tour.mk [0, 2, 1, 3]).size < 2 → (Tour.mk [0, 2, 1, 3]).length rectGraph = some 0) ∧
    (2 ≤ (Tour.mk [0, 2, 1, 3]).size → ∃ (e : Nat → ℚ) (c : ℚ),
      (∀ i : Nat, i < (Tour.mk [0, 2, 1, 3]).size - 1 → ∃ a b,
        vecGet (Tour.mk [0, 2, 1, 3]).route (i : Int) = some a ∧
        vecGet (Tour.mk [0, 2, 1, 3]).route ((i : Int) + 1) = some b ∧
        rectGraph.distance a b = some (e i)) ∧
      (∃ a b, vecGet (Tour.mk [0, 2, 1, 3]).route (((Tour.mk [0, 2, 1, 3]).size : Int) - 1)
          = some a ∧ vecGet (Tour.mk [0, 2, 1, 3]).route 0 = some b ∧
        rectGraph.distance a b = some c) ∧
      (Tour.mk [0, 2, 1, 3]).length rectGraph
        = some ((List.range ((Tour.mk [0, 2, 1, 3]).size - 1)).foldl
            (fun sum i => sum + e i) 0 + c)) :=
  ⟨by decide, by decide,
    Tour.length_sum rectGraph (Tour.mk [0, 2, 1, 3]) (by decide) (by decide)⟩

/-- C16: with symmetric distances, for a tour of size `n` over the graph's nodes
and a pair `1 ≤ i < k ≤ n-1`, the `delta` computed in `run2Opt` is exactly the
change of the tour length under `twoOptSwap(i, k)`:
`length(after) - length(before) = delta`, also when `k = n-1` (where `d = r[0]`). -/
theorem TSPSolver.delta_exact [LinearOrderedField α] (g : Graph α) (t : Tour) (i k : Nat)
    (hg : g.WellFormed) (hs : g.Symmetric) (ht : t.InRange g.size) (hi : 1 ≤ i) (hik : i < k)
    (hk : k < t.size) :
    ∃ t1 L L1 dl, t.twoOptSwap (i : Int) (k : Int) = some t1 ∧ t.length g = some L ∧
      t1.length g = some L1 ∧ TSPSolver.delta g t.route t.size i k = some dl ∧
      L1 - L = dl := by
  have hk2 : k < t.tour_.length := hk
  have hsw := Tour.twoOptSwap_natCast t (by omega : i ≤ k + 1) (by omega : k + 1 ≤ t.tour_.length)
  have ht1 : (Tour.mk (reverseSeg t.tour_ i k)).InRange g.size :=
    ht.of_perm (Tour.twoOptSwap_perm hsw)
  refine ⟨_, _, _, _, hsw, Tour.length_eq_cycleLen hg ht, Tour.length_eq_cycleLen hg ht1,
    TSPSolver.delta_eq_deltaVal hg ht hi (le_of_lt hik) hk2, ?_⟩
  rw [cycleLen_reverseSeg g.dist (Graph.dist_symm hg hs) t.tour_ hi (le_of_lt hik) hk2]
  unfold deltaVal
  ring

/-- Witness of C16: the pair `(1, 3)` (wrap-around, `k = n-1`) on the tour
`0, 2, 1, 3` of the 3 × 4 rectangle. -/
theorem TSPSolver.delta_exact_witness :
    rectGraph.WellFormed ∧ rectGraph.Symmetric ∧
    (Tour.mk [0, 2, 1, 3]).InRange rectGraph.size ∧
    ∃ t1 L L1 dl, (Tour.mk [0, 2, 1, 3]).twoOptSwap ((1 : Nat) : Int) ((3 : Nat) : Int) = some t1 ∧
      (Tour.mk [0, 2, 1, 3]).length rectGraph = some L ∧ t1.length rectGraph = some L1 ∧
      TSPSolver.delta rectGraph (Tour.mk [0, 2, 1, 3]).route (Tour.mk [0, 2, 1, 3]).size 1 3
        = some dl ∧ L1 - L = dl :=
  ⟨by decide, by decide!, by decide,
    TSPSolver.delta_exact rectGraph (Tour.mk [0, 2, 1, 3]) 1 3 (by decide) (by decide!)
      (by decide) (by decide) (by decide) (by decide)⟩

/-! ## One pass of `run2Opt` is a best-improvement step -/

namespace TSPSolver

theorem scanStep_first
    [LinearOrder α] [Add α] [Sub α] [Zero α]
    (g : Graph α) (route : List Int) {n i k : Nat}
    (hi : 1 ≤ i) (hik : i < k) (hk : k < n) {st st1 : α × Int × Int}
    (hP : ScanFirstInv g route n i k st) (h : scanStep g route n i st k = some st1) :
    ScanFirstInv g route n i (k + 1) st1 := by
  refine ⟨scanStep_inv g route hi hik hk hP.1 h, ?_⟩
  simp only [scanStep, Option.bind_eq_bind, Option.bind_eq_some] at h
  obtain ⟨dl, hdl, hst⟩ := h
  obtain ⟨⟨h1, h2, h3⟩, h4⟩ := hP
  have hcase : ∀ i2 k2, Scanned n i (k + 1) i2 k2 →
      Scanned n i k i2 k2 ∨ (i2 = i ∧ k2 = k) := by
    rintro i2 k2 ⟨a, b, c, e⟩
    rcases e with e | ⟨e1, e2⟩
    · exact Or.inl ⟨a, b, c, Or.inl e⟩
    · rcases Nat.lt_succ_iff_lt_or_eq.mp e2 with e2 | e2
      · exact Or.inl ⟨a, b, c, Or.inr ⟨e1, e2⟩⟩
      · exact Or.inr ⟨e1, e2⟩
  by_cases hlt : dl < st.1
  · rw [if_pos hlt] at hst
    cases hst
    intro _
    refine ⟨i, k, rfl, ?_⟩
    intro i3 k3 hs hd
    rcases hcase i3 k3 hs with hs | ⟨rfl, rfl⟩
    · obtain ⟨d2, hd2, hle⟩ := h2 i3 k3 hs
      rw [hd] at hd2
      cases hd2
      exact absurd hlt (not_lt.mpr hle)
    · exact Or.inr ⟨rfl, le_refl _⟩
  · rw [if_neg hlt] at hst
    cases hst
    intro hneg
    obtain ⟨i2, k2, e, hfirst⟩ := h4 hneg
    refine ⟨i2, k2, e, ?_⟩
    intro i3 k3 hs hd
    rcases hcase i3 k3 hs with hs | ⟨rfl, rfl⟩
    · exact hfirst i3 k3 hs hd
    · obtain ⟨i4, k4, ⟨_, _, _, hbefore⟩, e4, _⟩ := h3 hneg
      rw [e] at e4
      simp only [Prod.mk.injEq, Int.natCast_inj] at e4
      obtain ⟨rfl, rfl⟩ := e4
      rcases hbefore with hb | ⟨hb1, hb2⟩
      · exact Or.inl hb
      · exact Or.inr ⟨hb1, le_of_lt hb2⟩

theorem scanRow_first
    [LinearOrder α] [Add α] [Sub α] [Zero α]
    (g : Graph α) (route : List Int) {n i : Nat}
    (hi : 1 ≤ i) (hin : i + 1 < n) {st st1 : α × Int × Int}
    (hP : ScanFirstInv g route n i (i + 1) st) (h : scanRow g route n st i = some st1) :
    ScanFirstInv g route n (i + 1) (i + 2) st1 := by
  refine ⟨scanRow_inv g route hi hin hP.1 h, ?_⟩
  have := foldlM_range'_inv (scanStep g route n i) (fun k st => ScanFirstInv g route n i k st)
    (n - (i + 1)) (i + 1) st st1 hP
    (fun k s s1 hk1 hk2 hs hstep => scanStep_first g route hi (by omega) (by omega) hs hstep) h
  have e : i + 1 + (n - (i + 1)) = n := by omega
  rw [e] at this
  obtain ⟨_, h4⟩ := this
  intro hneg
  obtain ⟨i2, k2, e2, hfirst⟩ := h4 hneg
  refine ⟨i2, k2, e2, ?_⟩
  rintro i3 k3 ⟨a, b, c, e3⟩ hd
  refine hfirst i3 k3 ⟨a, b, c, ?_⟩ hd
  rcases e3 with e3 | ⟨e3, e4⟩
  · rcases Nat.lt_succ_iff_lt_or_eq.mp e3 with e3 | e3
    · exact Or.inl e3
    · exact Or.inr ⟨e3, c⟩
  · omega

/-- The tie-break of the scan: a negative `bestDelta` is recorded at the first
pair, in scan order, among the pairs `1 ≤ i < k < n` whose `delta` equals it. -/
theorem scan_first
    [LinearOrder α] [Add α] [Sub α] [Zero α]
    (g : Graph α) (route : List Int) (n : Nat)
    {st : α × Int × Int} (h : scan g route n = some st) (hneg : st.1 < 0) :
    ∃ i k : Nat, st.2 = ((i : Int), (k : Int)) ∧
      ∀ i3 k3, 1 ≤ i3 → i3 < k3 → k3 < n → delta g route n i3 k3 = some st.1 →
        ScanLe i k i3 k3 := by
  have := foldlM_range'_inv (scanRow g route n)
    (fun i st => ScanFirstInv g route n i (i + 1) st) (n - 2) 1
    ((0 : α), (-1 : Int), (-1 : Int)) st
    (by
      refine ⟨⟨le_refl _, ?_, fun hneg => absurd hneg (lt_irrefl _)⟩,
        fun hneg => absurd hneg (lt_irrefl _)⟩
      rintro i2 k2 ⟨a, b, c, e⟩
      omega)
    (fun i s s1 hi1 hi2 hs hstep => scanRow_first g route hi1 (by omega) hs hstep) h
  obtain ⟨_, h4⟩ := this
  obtain ⟨i, k, e, hfirst⟩ := h4 hneg
  refine ⟨i, k, e, ?_⟩
  intro i3 k3 a b c hd
  exact hfirst i3 k3 ⟨a, b, c, Or.inl (by omega)⟩ hd

end TSPSolver

/-- C17: each pass of `run2Opt` is a best-improvement step. It evaluates `delta`
at every pair `1 ≤ i < k ≤ n-1` on the route as it stands at the start of the
pass. If some `delta` is less than `-1e-9`, the pass applies exactly one
reversal `twoOptSwap(i*, k*)`, where `(i*, k*)` has the least `delta` and is the
first pair in scan order with that `delta`, and a new pass follows. Otherwise
the pass leaves the route unchanged and the search stops. Only the order of the
arithmetic is used, so `delta` and `-1e-9` are the values the code computes in
`double`, and ties are ties of those values. -/
theorem TSPSolver.pass_best_improvement
    [LinearOrder α] [Add α] [Sub α] [Neg α] [Zero α] [Tolerance α]
    (g : Graph α) (t : Tour)
    (hg : g.WellFormed) (ht : t.InRange g.size) :
    ∃ t1 improvement, TSPSolver.pass g t = some (t1, improvement) ∧
      (∀ i k : Nat, 1 ≤ i → i < k → k < t.size →
        ∃ dl, TSPSolver.delta g t.route t.size i k = some dl) ∧
      ((∃ i k dl, 1 ≤ i ∧ i < k ∧ k < t.size ∧
          TSPSolver.delta g t.route t.size i k = some dl ∧ dl < -(TSPSolver.eps : α)) →
        improvement = true ∧
        (∃ i k dl, 1 ≤ i ∧ i < k ∧ k < t.size ∧
          TSPSolver.delta g t.route t.size i k = some dl ∧ dl < -(TSPSolver.eps : α) ∧
          (∀ i2 k2 : Nat, 1 ≤ i2 → i2 < k2 → k2 < t.size →
            ∃ d2, TSPSolver.delta g t.route t.size i2 k2 = some d2 ∧ dl ≤ d2 ∧
              (d2 = dl → ScanLe i k i2 k2)) ∧
          t.twoOptSwap (i : Int) (k : Int) = some t1) ∧
        ∀ fuel, TSPSolver.run2Opt (fuel + 1) g t = TSPSolver.run2Opt fuel g t1) ∧
      ((∀ i k dl, 1 ≤ i → i < k → k < t.size →
          TSPSolver.delta g t.route t.size i k = some dl → ¬ dl < -(TSPSolver.eps : α)) →
        improvement = false ∧ t1 = t ∧
        ∀ fuel, TSPSolver.run2Opt (fuel + 1) g t = some t) := by
  obtain ⟨⟨t1, imp⟩, hp⟩ := TSPSolver.pass_isSome hg ht
  obtain ⟨st, hscan, hc⟩ := TSPSolver.pass_eq_some hp
  obtain ⟨_, h2, h3⟩ := TSPSolver.scan_spec g t.route t.size hscan
  refine ⟨t1, imp, hp, ?_, ?_, ?_⟩
  · intro i k hi hik hk
    obtain ⟨dl, hdl, _⟩ := h2 i k hi hik hk
    exact ⟨dl, hdl⟩
  · rintro ⟨i0, k0, d0, hi0, hik0, hk0, hd0, hlt0⟩
    obtain ⟨d0', hd0', hle0⟩ := h2 i0 k0 hi0 hik0 hk0
    rw [hd0] at hd0'
    cases hd0'
    have hst : st.1 < -(TSPSolver.eps : α) := lt_of_le_of_lt hle0 hlt0
    rcases hc with ⟨_, _, hn⟩ | ⟨himp, _, hsw⟩
    · exact absurd hst hn
    · have hneg : st.1 < 0 := lt_trans hst TSPSolver.neg_eps_lt_zero
      obtain ⟨i, k, hi, hik, hk, e, hd⟩ := h3 hneg
      obtain ⟨i', k', e', hfirst⟩ := TSPSolver.scan_first g t.route t.size hscan hneg
      rw [e] at e'
      simp only [Prod.mk.injEq, Int.natCast_inj] at e'
      obtain ⟨rfl, rfl⟩ := e'
      rw [e] at hsw
      refine ⟨himp, ⟨i, k, st.1, hi, hik, hk, hd, hst, ?_, hsw⟩, ?_⟩
      · intro i2 k2 hi2 hik2 hk2
        obtain ⟨d2, hd2, hle⟩ := h2 i2 k2 hi2 hik2 hk2
        refine ⟨d2, hd2, hle, ?_⟩
        intro heq
        rw [heq] at hd2
        exact hfirst i2 k2 hi2 hik2 hk2 hd2
      · intro fuel
        subst himp
        show TSPSolver.run2OptLoop g (fuel + 1) t = TSPSolver.run2OptLoop g fuel t1
        rw [TSPSolver.run2OptLoop_succ, hp]
        rfl
  · intro hall
    rcases hc with ⟨himp, e, _⟩ | ⟨_, hlt, _⟩
    · subst himp
      subst e
      exact ⟨rfl, rfl, fun fuel => TSPSolver.run2OptLoop_of_stop hp fuel⟩
    · have hneg : st.1 < 0 := lt_trans hlt TSPSolver.neg_eps_lt_zero
      obtain ⟨i, k, hi, hik, hk, _, hd⟩ := h3 hneg
      exact absurd hlt (hall i k st.1 hi hik hk hd)

/-- Witness of C17: the pass on the crossing tour `0, 2, 1, 3` of the 3 × 4
rectangle. -/
theorem TSPSolver.pass_best_improvement_witness :
    rectGraph.WellFormed ∧ (Tour.mk [0, 2, 1, 3]).InRange rectGraph.size ∧
    TSPSolver.pass rectGraph (Tour.mk [0, 2, 1, 3]) = some (Tour.mk [0, 1, 2, 3], true) ∧
    ∃ t1 improvement, TSPSolver.pass rectGraph (Tour.mk [0, 2, 1, 3]) = some (t1, improvement) ∧
      (∀ i k : Nat, 1 ≤ i → i < k → k < (Tour.mk [0, 2, 1, 3]).size →
        ∃ dl, TSPSolver.delta rectGraph (Tour.mk [0, 2, 1, 3]).route
          (Tour.mk [0, 2, 1, 3]).size i k = some dl) ∧
      ((∃ i k dl, 1 ≤ i ∧ i < k ∧ k < (Tour.mk [0, 2, 1, 3]).size ∧
          TSPSolver.delta rectGraph (Tour.mk [0, 2, 1, 3]).route
            (Tour.mk [0, 2, 1, 3]).size i k = some dl ∧ dl < -(TSPSolver.eps : ℚ)) →
        improvement = true ∧
        (∃ i k dl, 1 ≤ i ∧ i < k ∧ k < (Tour.mk [0, 2, 1, 3]).size ∧
          TSPSolver.delta rectGraph (Tour.mk [0, 2, 1, 3]).route
            (Tour.mk [0, 2, 1, 3]).size i k = some dl ∧ dl < -(TSPSolver.eps : ℚ) ∧
          (∀ i2 k2 : Nat, 1 ≤ i2 → i2 < k2 → k2 < (Tour.mk [0, 2, 1, 3]).size →
            ∃ d2, TSPSolver.delta rectGraph (Tour.mk [0, 2, 1, 3]).route
              (Tour.mk [0, 2, 1, 3]).size i2 k2 = some d2 ∧ dl ≤ d2 ∧
              (d2 = dl → ScanLe i k i2 k2)) ∧
          (Tour.mk [0, 2, 1, 3]).twoOptSwap (i : Int) (k : Int) = some t1) ∧
        ∀ fuel, TSPSolver.run2Opt (fuel + 1) rectGraph (Tour.mk [0, 2, 1, 3])
          = TSPSolver.run2Opt fuel rectGraph t1) ∧
      ((∀ i k dl, 1 ≤ i → i < k → k < (Tour.mk [0, 2, 1, 3]).size →
          TSPSolver.delta rectGraph (Tour.mk [0, 2, 1, 3]).route
            (Tour.mk [0, 2, 1, 3]).size i k = some dl → ¬ dl < -(TSPSolver.eps : ℚ)) →
        improvement = false ∧ t1 = Tour.mk [0, 2, 1, 3] ∧
        ∀ fuel, TSPSolver.run2Opt (fuel + 1) rectGraph (Tour.mk [0, 2, 1, 3])
          = some (Tour.mk [0, 2, 1, 3])) :=
  ⟨by decide, by decide, by decide!,
    TSPSolver.pass_best_improvement rectGraph (Tour.mk [0, 2, 1, 3]) (by decide) (by decide)⟩

/-! ## Small tours, and the first position -/

namespace TSPSolver

/-- A pass does not move the first entry of the route. -/
theorem pass_first
    [LinearOrder α] [Add α] [Sub α] [Neg α] [Zero α] [Tolerance α]
    {g : Graph α} {t t1 : Tour} {imp : Bool}
    (h : pass g t = some (t1, imp)) : t1.tour_[0]? = t.tour_[0]? := by
  obtain ⟨st, hscan, hc⟩ := pass_eq_some h
  rcases hc with ⟨_, rfl, _⟩ | ⟨_, hlt, hsw⟩
  · rfl
  · obtain ⟨_, _, h3⟩ := scan_spec g t.route t.size hscan
    have hneg : st.1 < 0 := lt_trans hlt neg_eps_lt_zero
    obtain ⟨i, k, hi, hik, hk, e, _⟩ := h3 hneg
    have hk2 : k < t.tour_.length := hk
    rw [e] at hsw
    simp only at hsw
    rw [Tour.twoOptSwap_natCast t (by omega) (by omega)] at hsw
    cases hsw
    show (reverseSeg t.tour_ i k)[0]? = _
    rw [reverseSeg_getElem? _ (le_of_lt hik) hk2, if_neg (by omega)]

/-- Whenever `runNearestNeighbor` returns, the route begins with the start node. -/
theorem runNearestNeighbor_first [LinearOrder α] {g : Graph α} {start : Int} {t : Tour}
    (h : runNearestNeighbor g start = some t) : t.tour_[0]? = some start := by
  simp only [runNearestNeighbor, Tour.ctor_eq, Option.bind_eq_bind, Option.some_bind,
    Option.bind_eq_some, Tour.route] at h
  obtain ⟨route0, h0, visited0, _, ⟨route, visited, current⟩, hloop, hret⟩ := h
  have e0 : (0 : Int) = ((0 : Nat) : Int) := rfl
  rw [e0] at h0
  obtain ⟨k, hk, hlen, hr0⟩ := vecSet_eq_some h0
  have hk0 : k = 0 := by omega
  subst hk0
  have hinit : route0[0]? = some start := by
    rw [hr0, List.getElem?_set_self hlen]
  have := foldlM_range'_inv (nnStep g g.size)
    (fun _ (st : List Int × List Bool × Int) => st.1[0]? = some start) (g.size - 1) 1
    (route0, visited0, start) (route, visited, current) hinit
    (fun i st st1 hi1 _ hP hstep => by
      obtain ⟨r, v, c⟩ := st
      simp only [nnStep, Option.bind_eq_bind, Option.bind_eq_some] at hstep
      obtain ⟨⟨bd, x⟩, _, r1, hr1, v1, _, hst1⟩ := hstep
      obtain ⟨j, hj, _, hset⟩ := vecSet_eq_some hr1
      have hji : j = i := by omega
      subst hji
      cases hst1
      show (_ : List Int)[0]? = _
      rw [hset, List.getElem?_set_ne (by omega)]
      exact hP) hloop
  cases hret
  exact this

end TSPSolver

/-- C19: `run2Opt` never moves the first position of the route: when it returns
`r` on a non-empty tour `t`, `r.route[0] = t.route[0]` (every applied reversal
has `1 ≤ i`); so `run2Opt` applied to the tour of `runNearestNeighbor(g, start)`
still begins at `start`. -/
theorem TSPSolver.run2Opt_keeps_first [LinearOrderedField α] (g : Graph α) (t r : Tour)
    (fuel : Nat) (hne : t.route ≠ []) (h : TSPSolver.run2Opt fuel g t = some r) :
    (∃ x, vecGet t.route 0 = some x ∧ vecGet r.route 0 = some x) ∧
    ∀ start, TSPSolver.runNearestNeighbor g start = some t → vecGet r.route 0 = some start := by
  have e0 : (0 : Int) = ((0 : Nat) : Int) := rfl
  have hkeep : r.tour_[0]? = t.tour_[0]? :=
    TSPSolver.run2OptLoop_induct (g := g) (fun t r => r.tour_[0]? = t.tour_[0]?)
      (fun _ _ => rfl) (fun _ _ _ hp hq => hq.trans (TSPSolver.pass_first hp)) fuel t r h
  constructor
  · have hpos : 0 < t.tour_.length := List.length_pos.mpr hne
    refine ⟨t.tour_[0], ?_, ?_⟩
    · show vecGet t.tour_ 0 = _
      rw [e0, vecGet_natCast, List.getElem?_eq_getElem hpos]
    · show vecGet r.tour_ 0 = _
      rw [e0, vecGet_natCast, hkeep, List.getElem?_eq_getElem hpos]
  · intro start hnn
    show vecGet r.tour_ 0 = _
    rw [e0, vecGet_natCast, hkeep, TSPSolver.runNearestNeighbor_first hnn]

/-- Witness of C19: nearest-neighbour from corner 2 of the 3 × 4 rectangle, then
`run2Opt`. -/
theorem TSPSolver.run2Opt_keeps_first_witness :
    (Tour.mk [2, 3, 0, 1]).route ≠ [] ∧
    TSPSolver.runNearestNeighbor rectGraph 2 = some (Tour.mk [2, 3, 0, 1]) ∧
    TSPSolver.run2Opt 1 rectGraph (Tour.mk [2, 3, 0, 1]) = some (Tour.mk [2, 3, 0, 1]) ∧
    ((∃ x, vecGet (Tour.mk [2, 3, 0, 1]).route 0 = some x ∧
        vecGet (Tour.mk [2, 3, 0, 1]).route 0 = some x) ∧
      ∀ start, TSPSolver.runNearestNeighbor rectGraph start = some (Tour.mk [2, 3, 0, 1]) →
        vecGet (Tour.mk [2, 3, 0, 1]).route 0 = some start) :=
  ⟨by decide, by decide!, by decide!,
    TSPSolver.run2Opt_keeps_first rectGraph (Tour.mk [2, 3, 0, 1]) (Tour.mk [2, 3, 0, 1]) 1
      (by decide) (by decide!)⟩

/-! ## The re-indexing step of `main` -/

theorem idsAreSequentialLoop_spec (points : List (Point α)) :
    ∀ idxs : List Nat, (∀ i ∈ idxs, i < points.length) →
      ∃ b, idsAreSequentialLoop points idxs = Except.ok b ∧
        (b = true ↔ ∀ i ∈ idxs, ∀ p, points[i]? = some p → p.id = (i : Int)) := by
  intro idxs
  induction idxs with
  | nil => intro _; exact ⟨true, rfl, by simp⟩
  | cons i rest ih =>
    intro hlt
    have hi : i < points.length := hlt i (List.mem_cons_self _ _)
    obtain ⟨b, hb, hiff⟩ := ih (fun j hj => hlt j (List.mem_cons_of_mem _ hj))
    have hget : checked (vecGet points (i : Int)) = Except.ok points[i] := by
      rw [vecGet_natCast, List.getElem?_eq_getElem hi]; rfl
    by_cases hid : points[i].id = (i : Int)
    · refine ⟨b, ?_, ?_⟩
      · rw [idsAreSequentialLoop, hget]
        simp only [hid, ne_eq, not_true_eq_false, if_false]
        exact hb
      · rw [hiff]
        constructor
        · intro h j hj p hp
          rcases List.mem_cons.mp hj with rfl | hj
          · rw [List.getElem?_eq_getElem hi] at hp
            cases hp; exact hid
          · exact h j hj p hp
        · intro h j hj
          exact h j (List.mem_cons_of_mem _ hj)
    · refine ⟨false, ?_, ?_⟩
      · rw [idsAreSequentialLoop, hget]
        simp only [ne_eq, hid, not_false_eq_true, if_true]
      · constructor
        · intro h; cases h
        · intro h
          exact absurd (h i (List.mem_cons_self _ _) points[i]
            (List.getElem?_eq_getElem hi)) hid

/-- The loop `for (auto &pt : points)` on points with distinct identifiers, all
in `0..n-1`: it succeeds, and afterwards `temp[pt.id]` is `pt` for every point
of the list, the other entries of `temp` being untouched. -/
theorem fillTemp_spec (n : Nat) :
    ∀ (L : List (Point α)) (temp : List (Point α)), temp.length = n →
      (L.map (fun p => p.id)).Nodup → (∀ p ∈ L, 0 ≤ p.id ∧ p.id < (n : Int)) →
      ∃ temp1, L.foldlM (fillTempStep n) temp = Except.ok temp1 ∧ temp1.length = n ∧
        (∀ p ∈ L, temp1[p.id.toNat]? = some p) ∧
        ∀ j : Nat, (∀ p ∈ L, p.id ≠ (j : Int)) → temp1[j]? = temp[j]? := by
  intro L
  induction L with
  | nil =>
    intro temp hlen _ _
    exact ⟨temp, rfl, hlen, fun p hp => absurd hp (List.not_mem_nil _), fun _ _ => rfl⟩
  | cons p L ih =>
    intro temp hlen hnd hr
    obtain ⟨hp0, hpn⟩ := hr p (List.mem_cons_self _ _)
    rw [List.map_cons, List.nodup_cons] at hnd
    obtain ⟨hnotin, hnd2⟩ := hnd
    have hk : p.id.toNat < temp.length := by omega
    have hstep : fillTempStep n temp p = Except.ok (temp.set p.id.toNat p) := by
      have hc : ¬ (p.id < 0 ∨ p.id ≥ (n : Int)) := by omega
      have hc2 : 0 ≤ p.id ∧ p.id.toNat < temp.length := ⟨hp0, hk⟩
      simp only [fillTempStep, hc, if_false, vecSet, hc2, and_self, if_true]
      rfl
    obtain ⟨temp1, hfold, hlen1, hmem, hother⟩ := ih (temp.set p.id.toNat p)
      (by simp [hlen]) hnd2 (fun q hq => hr q (List.mem_cons_of_mem _ hq))
    refine ⟨temp1, ?_, hlen1, ?_, ?_⟩
    · rw [List.foldlM_cons, hstep]
      exact hfold
    · intro q hq
      rcases List.mem_cons.mp hq with rfl | hq
      · have : ∀ q2 ∈ L, q2.id ≠ ((q.id.toNat : Nat) : Int) := by
          intro q2 hq2 heq
          apply hnotin
          rw [List.mem_map]
          exact ⟨q2, hq2, by omega⟩
        rw [hother q.id.toNat this, List.getElem?_set_self hk]
      · exact hmem q hq
    · intro j hj
      have hjp : p.id ≠ (j : Int) := hj p (List.mem_cons_self _ _)
      rw [hother j (fun q hq => hj q (List.mem_cons_of_mem _ hq)),
        List.getElem?_set_ne (by omega)]

/-- The loop that fills `orderedPoints`: it succeeds and appends, for each
`i < n`, the point `(i, temp[i].x, temp[i].y)`. -/
theorem emplace_spec (temp : List (Point α)) :
    ∀ (len s : Nat) (acc : List (Point α)), s + len ≤ temp.length →
      ∃ out, (List.range' s len).foldlM (emplaceStep temp) acc = Except.ok out ∧
        out.length = acc.length + len ∧
        (∀ j, j < acc.length → out[j]? = acc[j]?) ∧
        ∀ j, j < len → ∃ p, temp[s + j]? = some p ∧
          out[acc.length + j]? = some { id := ((s + j : Nat) : Int), x := p.x, y := p.y } := by
  intro len
  induction len with
  | zero =>
    intro s acc _
    exact ⟨acc, rfl, rfl, fun _ _ => rfl, fun j hj => absurd hj (Nat.not_lt_zero _)⟩
  | succ len ih =>
    intro s acc hle
    have hs : s < temp.length := by omega
    have hstep : emplaceStep temp acc s
        = Except.ok (acc ++ [{ id := (s : Int), x := temp[s].x, y := temp[s].y }]) := by
      simp only [emplaceStep, vecGet_natCast, List.getElem?_eq_getElem hs, checked]
    obtain ⟨out, hfold, hlen, hold, hnew⟩ := ih (s + 1)
      (acc ++ [{ id := (s : Int), x := temp[s].x, y := temp[s].y }]) (by omega)
    refine ⟨out, ?_, ?_, ?_, ?_⟩
    · rw [List.range'_succ, List.foldlM_cons, hstep]
      exact hfold
    · rw [hlen, List.length_append, List.length_singleton]; omega
    · intro j hj
      rw [hold j (by rw [List.length_append]; omega), List.getElem?_append_left hj]
    · intro j hj
      cases j with
      | zero =>
        refine ⟨temp[s], List.getElem?_eq_getElem hs, ?_⟩
        rw [Nat.add_zero, hold acc.length (by simp), List.getElem?_append_right (le_refl _)]
        simp
      | succ j =>
        obtain ⟨p, hp, hout⟩ := hnew j (by omega)
        have e1 : s + (j + 1) = s + 1 + j := by omega
        have e2 : acc.length + (j + 1)
            = (acc ++ [({ id := (s : Int), x := temp[s].x, y := temp[s].y } : Point α)]).length
              + j := by
          rw [List.length_append, List.length_singleton]; omega
        rw [e1, e2]
        exact ⟨p, hp, hout⟩

/-- C20 (counterexample): three points with the distinct identifiers 10, 20, 30
are not sequential, and the step does not succeed: it ends in the branch
`Error: ID out of range`. -/
theorem reindexPoints_rejects_large_ids :
    ([⟨10, 1, 2⟩, ⟨20, 3, 4⟩, ⟨30, 5, 6⟩] : List (Point ℚ)) ≠ [] ∧
    (([⟨10, 1, 2⟩, ⟨20, 3, 4⟩, ⟨30, 5, 6⟩] : List (Point ℚ)).map (fun p => p.id)).Nodup ∧
    (∃ (i : Nat) (p : Point ℚ),
      ([⟨10, 1, 2⟩, ⟨20, 3, 4⟩, ⟨30, 5, 6⟩] : List (Point ℚ))[i]? = some p ∧ p.id ≠ (i : Int)) ∧
    reindexPoints ([⟨10, 1, 2⟩, ⟨20, 3, 4⟩, ⟨30, 5, 6⟩] : List (Point ℚ))
      = Except.error (MainFailure.idOutOfRange 10) ∧
    ¬ ∃ out, reindexPoints ([⟨10, 1, 2⟩, ⟨20, 3, 4⟩, ⟨30, 5, 6⟩] : List (Point ℚ))
      = Except.ok out := by
  have h : reindexPoints ([⟨10, 1, 2⟩, ⟨20, 3, 4⟩, ⟨30, 5, 6⟩] : List (Point ℚ))
      = Except.error (MainFailure.idOutOfRange 10) := rfl
  refine ⟨by simp, by decide, ⟨0, ⟨10, 1, 2⟩, rfl, by decide⟩, h, ?_⟩
  rintro ⟨out, hout⟩
  rw [h] at hout
  cases hout

/-- C20 (amended): for a non-empty list of `n` points with pairwise distinct
identifiers, all in `0..n-1`, in which some `points[i].id != i`, the
re-indexing step of `main` succeeds and yields `n` points whose ids are
`0, 1, ..., n-1` in order and which are a rearrangement of the input points (so
are their coordinates): no input point is lost or replaced by a default point. -/
theorem reindexPoints_dense [Zero α] (points : List (Point α)) (_hne : points ≠ [])
    (hdist : (points.map (fun p => p.id)).Nodup)
    (hrange : ∀ p ∈ points, 0 ≤ p.id ∧ p.id < (points.length : Int))
    (hnseq : ∃ (i : Nat) (p : Point α), points[i]? = some p ∧ p.id ≠ (i : Int)) :
    ∃ out, reindexPoints points = Except.ok out ∧ out.length = points.length ∧
      out.map (fun p => p.id) = idRoute points.length ∧ out.Perm points ∧
      (out.map (fun p => (p.x, p.y))).Perm (points.map (fun p => (p.x, p.y))) := by
  -- the first loop finds a mismatch
  obtain ⟨b, hb, hiff⟩ := idsAreSequentialLoop_spec points (List.range' 0 points.length)
    (fun i hi => by
      rw [List.mem_range'_1] at hi; omega)
  have hbf : b = false := by
    cases b with
    | false => rfl
    | true =>
      exfalso
      obtain ⟨i, p, hp, hid⟩ := hnseq
      have hi : i < points.length := (List.getElem?_eq_some.mp hp).1
      exact hid (hiff.mp rfl i (by rw [List.mem_range'_1]; omega) p hp)
  subst hbf
  -- the second loop stores every point at its identifier
  obtain ⟨temp, hfill, hlen, hmem, _⟩ := fillTemp_spec points.length points
    (List.replicate points.length ({ id := 0, x := 0, y := 0 } : Point α)) (by simp) hdist hrange
  -- the identifiers are all of `0..n-1`
  have hids : (points.map (fun p => p.id)).Perm (idRoute points.length) :=
    perm_idRoute_of_nodup (by simp) hdist (fun x hx => by
      rw [List.mem_map] at hx
      obtain ⟨p, hp, rfl⟩ := hx
      exact hrange p hp)
  have hcover : ∀ j, j < points.length → ∃ p ∈ points, p.id = (j : Int) ∧ temp[j]? = some p := by
    intro j hj
    have : (j : Int) ∈ points.map (fun p => p.id) :=
      hids.symm.subset (mem_idRoute.mpr ⟨by omega, by omega⟩)
    rw [List.mem_map] at this
    obtain ⟨p, hp, hpid⟩ := this
    refine ⟨p, hp, hpid, ?_⟩
    have := hmem p hp
    rwa [hpid, Int.toNat_ofNat] at this
  -- the third loop copies `temp`
  obtain ⟨out, hemp, hlen2, _, hnew⟩ := emplace_spec temp points.length 0 [] (by omega)
  have hout : out = temp := by
    apply List.ext_getElem?
    intro j
    by_cases hj : j < points.length
    · obtain ⟨p, hp, hpj⟩ := hnew j hj
      obtain ⟨q, _, hqid, hq⟩ := hcover j hj
      rw [Nat.zero_add] at hp hpj
      rw [hq] at hp
      cases hp
      have e : ([] : List (Point α)).length + j = j := by simp
      rw [e] at hpj
      rw [hpj, hq, ← hqid]
    · rw [List.getElem?_eq_none (by rw [hlen2]; simp; omega),
        List.getElem?_eq_none (by omega)]
  subst hout
  have hnd : points.Nodup := List.Nodup.of_map _ hdist
  have hsub : points ⊆ out := by
    intro p hp
    rw [List.mem_iff_getElem?]
    exact ⟨p.id.toNat, hmem p hp⟩
  have hperm : out.Perm points :=
    ((List.subperm_of_subset hnd hsub).perm_of_length_le (by omega)).symm
  refine ⟨out, ?_, hlen, ?_, hperm, hperm.map _⟩
  · simp only [reindexPoints, hb, bind, Except.bind, Bool.not_false, if_true]
    rw [hfill]
    exact hemp
  · apply List.ext_getElem?
    intro j
    by_cases hj : j < points.length
    · obtain ⟨q, _, hqid, hq⟩ := hcover j hj
      rw [List.getElem?_map, hq, idRoute_getElem? hj, Option.map_some', hqid]
    · rw [List.getElem?_eq_none (by simp; omega),
        List.getElem?_eq_none (by rw [idRoute_length]; omega)]

/-- Witness of the amended C20: identifiers `2, 0, 1`. -/
theorem reindexPoints_dense_witness :
    ([⟨2, 5, 6⟩, ⟨0, 1, 2⟩, ⟨1, 3, 4⟩] : List (Point ℚ)) ≠ [] ∧
    (([⟨2, 5, 6⟩, ⟨0, 1, 2⟩, ⟨1, 3, 4⟩] : List (Point ℚ)).map (fun p => p.id)).Nodup ∧
    (∃ (i : Nat) (p : Point ℚ),
      ([⟨2, 5, 6⟩, ⟨0, 1, 2⟩, ⟨1, 3, 4⟩] : List (Point ℚ))[i]? = some p ∧ p.id ≠ (i : Int)) ∧
    ∃ out, reindexPoints ([⟨2, 5, 6⟩, ⟨0, 1, 2⟩, ⟨1, 3, 4⟩] : List (Point ℚ)) = Except.ok out ∧
      out.length = ([⟨2, 5, 6⟩, ⟨0, 1, 2⟩, ⟨1, 3, 4⟩] : List (Point ℚ)).length ∧
      out.map (fun p => p.id)
        = idRoute ([⟨2, 5, 6⟩, ⟨0, 1, 2⟩, ⟨1, 3, 4⟩] : List (Point ℚ)).length ∧
      out.Perm ([⟨2, 5, 6⟩, ⟨0, 1, 2⟩, ⟨1, 3, 4⟩] : List (Point ℚ)) ∧
      (out.map (fun p => (p.x, p.y))).Perm
        (([⟨2, 5, 6⟩, ⟨0, 1, 2⟩, ⟨1, 3, 4⟩] : List (Point ℚ)).map (fun p => (p.x, p.y))) :=
  have h3 : ∃ (i : Nat) (p : Point ℚ),
      ([⟨2, 5, 6⟩, ⟨0, 1, 2⟩, ⟨1, 3, 4⟩] : List (Point ℚ))[i]? = some p ∧ p.id ≠ (i : Int) :=
    ⟨0, ⟨2, 5, 6⟩, rfl, by decide⟩
  ⟨by simp, by decide, h3,
    reindexPoints_dense _ (by simp) (by decide)
      (by
        intro p hp
        simp only [List.mem_cons, List.mem_singleton, List.not_mem_nil, or_false] at hp
        rcases hp with rfl | rfl | rfl <;> decide)
      h3⟩
